import Mathlib

/-!
recfile: a shallow embedding of the parser and the serializer.

Go strings are modelled as lists of characters (`Str`); the source compares
bytes, and since every marker and separator of the format is ASCII the
comparisons on characters agree with it on UTF-8 text.  The buffered reader
of `parser` is modelled by the list of characters not yet consumed: since the
parser only consumes through `ReadString` and only looks ahead through `Peek`,
the unread input is the whole state of the reader.  Go's `error` is modelled by
`Option Error`, `none` being `nil`.  File opening, closing and write failures are
outside the model: `Load` takes the contents of the file and `Save` returns the
bytes it writes.

Every loop of the source is a function that recurses on a fuel argument and
returns `none` when the fuel runs out; the fuel given by the entry points is the
length of the unread input plus one.
-/

namespace Recfile

/-- A Go string. -/
abbrev Str := List Char

/-- Go errors that the package can produce: `io.EOF`, `errors.New msg`, the
error of `strconv.Atoi` and the error of `url.Parse`. -/
inductive Error where
  | EOF : Error
  | New (msg : String) : Error
  | Atoi : Error
  | Url : Error
  deriving DecidableEq, Repr

/-! ## Constants of `parser.go` -/

def LineDelimiterRune : Char := '\n'
def CommentPrefix : Str := ['#']
def FieldSeparator : Str := [':', ' ']
def LineWrapPrefix : Str := ['+']
def DefaultRecordType : Str := []
def SpecialFieldPrefix : Str := ['%']

def RecProperty : Str := ['r', 'e', 'c']
def MandatoryProperty : Str := ['m', 'a', 'n', 'd', 'a', 't', 'o', 'r', 'y']
def AllowedProperty : Str := ['a', 'l', 'l', 'o', 'w', 'e', 'd']
def ProhibitProperty : Str := ['p', 'r', 'o', 'h', 'i', 'b', 'i', 't']
def UniqueProperty : Str := ['u', 'n', 'i', 'q', 'u', 'e']
def KeyProperty : Str := ['k', 'e', 'y']
def DocProperty : Str := ['d', 'o', 'c']
def TypedefProperty : Str := ['t', 'y', 'p', 'e', 'd', 'e', 'f']
def TypeProperty : Str := ['t', 'y', 'p', 'e']
def AutoProperty : Str := ['a', 'u', 't', 'o']
def SortProperty : Str := ['s', 'o', 'r', 't']
def SizeProperty : Str := ['s', 'i', 'z', 'e']
def ConstraintProperty : Str := ['c', 'o', 'n', 's', 't', 'r', 'a', 'i', 'n', 't']
def ConfidentialProperty : Str := ['c', 'o', 'n', 'f', 'i', 'd', 'e', 'n', 't', 'i', 'a', 'l']

def LessThan : Str := ['<']
def LessThanOrEqualTo : Str := ['<', '=']
def GreaterThan : Str := ['>']
def GreaterThanOrEqualTo : Str := ['>', '=']

/-- The keys of the map `reader.properties` built by `newParser`. -/
def properties : List Str :=
  [RecProperty, MandatoryProperty, AllowedProperty, ProhibitProperty, UniqueProperty,
   KeyProperty, DocProperty, TypedefProperty, TypeProperty, AutoProperty, SortProperty,
   SizeProperty, ConstraintProperty, ConfidentialProperty]

/-- The keys of the map `reader.relationalOperators` built by `newParser`. -/
def relationalOperators : List Str :=
  [LessThan, LessThanOrEqualTo, GreaterThan, GreaterThanOrEqualTo]

/-! ## Data model of `database.go` -/

structure Field where
  Name : Str
  Value : Str
  deriving DecidableEq, Repr

abbrev Property := Field

structure Descriptor where
  Type_ : Str
  SpecialFields : List Property
  deriving DecidableEq, Repr

structure Record where
  Fields : List Field
  deriving DecidableEq, Repr

structure RecordSet where
  Descriptor : Descriptor
  Records : List Record
  deriving DecidableEq, Repr

structure Database where
  RecordSets : List RecordSet
  deriving DecidableEq, Repr

/-! ## Library functions used by the parser -/

/-- Go's `strings.HasPrefix`. -/
def HasPrefix (s : Str) (p : Str) : Bool := p.isPrefixOf s

/-- Go's `bufio.Reader.ReadString('\n')`: the bytes up to and including the first
delimiter, `io.EOF` with the bytes read so far when the input ends first, and
the unread rest. -/
def ReadString : Str → Str × Option Error × Str
  | [] => ([], some Error.EOF, [])
  | c :: cs =>
    if c = LineDelimiterRune then ([c], none, cs)
    else ((c :: (ReadString cs).1), (ReadString cs).2.1, (ReadString cs).2.2)

/-- Go's `bufio.Reader.Peek(1)`: the next byte without consuming it, `io.EOF` when
there is none. -/
def Peek (s : Str) : Str × Option Error :=
  match s with
  | [] => ([], some Error.EOF)
  | c :: _ => ([c], none)

/-- Go's `strings.Replace(s, old, "", 1)` for a one-character `old`: the first
occurrence is removed. -/
def Replace1 (s : Str) (old : Char) : Str := s.erase old

/-- Helper of `Split`: put a character in front of the first part. -/
def consHead (c : Char) : List Str → List Str
  | [] => [[c]]
  | h :: t => (c :: h) :: t

/-- Go's `strings.Split(s, FieldSeparator)`: the parts of `s` between the
non-overlapping occurrences of `": "`, taken from the left. -/
def Split : Str → List Str
  | [] => [[]]
  | [c] => [[c]]
  | c :: d :: rest =>
    if c = ':' ∧ d = ' ' then [] :: Split rest
    else consHead c (Split (d :: rest))

/-- Go's `strings.TrimPrefix(s, SpecialFieldPrefix)`. -/
def TrimPrefix (s : Str) : Str :=
  match s with
  | [] => []
  | c :: cs => if c = '%' then cs else c :: cs

/-- The class `[a-zA-Z]`. -/
def isLetter (c : Char) : Bool :=
  ('a'.toNat ≤ c.toNat && c.toNat ≤ 'z'.toNat) || ('A'.toNat ≤ c.toNat && c.toNat ≤ 'Z'.toNat)

/-- The class `[a-zA-Z0-9_]`. -/
def isWord (c : Char) : Bool :=
  isLetter c || ('0'.toNat ≤ c.toNat && c.toNat ≤ '9'.toNat) || c = '_'

/-- Go's `regexp.MatchString(p, s)` for a pattern `p` of the shape `[first][word]*`:
it reports whether `s` CONTAINS a match of `p` (the search is not anchored), and
since the starred part matches the empty string, that is whether some character
of `s` is in the class `first`.  The pattern compiles, so the error is `nil`. -/
def MatchString (first : Char → Bool) : Str → Bool
  | [] => false
  | c :: cs => first c || MatchString first cs

/-- First class of `ValidFieldNamePattern`, `[a-zA-Z%]`. -/
def ValidFieldNameFirst (c : Char) : Bool := isLetter c || c = '%'

/-- First class of `ValidTypeNamePattern`, `[a-zA-Z]`. -/
def ValidTypeNameFirst (c : Char) : Bool := isLetter c

/-! ## `parser.getLine` -/

/-- First loop of `getLine`: read raw lines until one is not a comment or the
read fails. -/
def getLineSkip : Nat → Str → Option (Str × Option Error × Str)
  | 0, _ => none
  | n + 1, s =>
    if (ReadString s).2.1 = none ∧ HasPrefix (ReadString s).1 CommentPrefix = true then
      getLineSkip n (ReadString s).2.2
    else some (ReadString s)

/-- Second loop of `getLine`: as long as `Peek` succeeds, discard a comment
line or join a continuation line.  The `err` of `nextline, err := ...` is a new
variable of the inner block, so when that read fails the function returns the
`nil` of the `Peek` before it, and the bytes read are dropped. -/
def getLineWrap : Nat → Str → Str → Option (Str × Option Error × Str)
  | 0, _, _ => none
  | n + 1, line, s =>
    match (Peek s).2 with
    | some e => some (line, some e, s)
    | none =>
      if HasPrefix (Peek s).1 CommentPrefix = true then
        if (ReadString s).2.1 ≠ none then some (line, (ReadString s).2.1, (ReadString s).2.2)
        else getLineWrap n line (ReadString s).2.2
      else if HasPrefix (Peek s).1 LineWrapPrefix = true then
        if line = [] then some (line, some (Error.New "Found invalid line wrap marker"), s)
        else if (ReadString s).2.1 ≠ none then some (line, none, (ReadString s).2.2)
        else getLineWrap n
          (line ++ Replace1 (Replace1 (ReadString s).1 '+') '\n') (ReadString s).2.2
      else some (line, none, s)

/-- Returns a logical recfile line, the error and the unread input. -/
def getLine (s : Str) : Option (Str × Option Error × Str) :=
  match getLineSkip (s.length + 1) s with
  | none => none
  | some (line, _, s1) => getLineWrap (s1.length + 1) (Replace1 line '\n') s1

/-! ## `parser.getRecord` -/

/-- Append a field to a record (`append(record.Fields, Field{...})`). -/
def Record.push (record : Record) (f : Field) : Record := { Fields := record.Fields ++ [f] }

/-- The loop of `getRecord`, with the record built so far. -/
def getRecordLoop : Nat → Record → Str → Option (Record × Option Error × Str)
  | 0, _, _ => none
  | n + 1, record, s =>
    match getLine s with
    | none => none
    | some (line, err, s1) =>
      if (err = none ∨ err = some Error.EOF) ∧ line ≠ [] then
        if (Split line).length ≠ 2 then some (record, some (Error.New "Found invalid field"), s1)
        else if MatchString ValidFieldNameFirst ((Split line).getD 0 []) = false then
          some (record, some (Error.New "Found invalid field name"), s1)
        else
          getRecordLoop n
            (record.push { Name := (Split line).getD 0 [], Value := (Split line).getD 1 [] }) s1
      else some (record, err, s1)

def getRecord (s : Str) : Option (Record × Option Error × Str) :=
  getRecordLoop (s.length + 1) { Fields := [] } s

/-! ## `parser.validateProperty` -/

/-- Go's `unicode.IsSpace`. -/
def isSpace (c : Char) : Bool :=
  c = '\t' || c = '\n' || c.toNat = 0x0B || c.toNat = 0x0C || c = '\r' || c = ' ' ||
  c.toNat = 0x85 || c.toNat = 0xA0 || c.toNat = 0x1680 ||
  (0x2000 ≤ c.toNat && c.toNat ≤ 0x200A) || c.toNat = 0x2028 || c.toNat = 0x2029 ||
  c.toNat = 0x202F || c.toNat = 0x205F || c.toNat = 0x3000

/-- Helper of `Fields`: `cur` is the token being read, reversed. -/
def FieldsAux : Str → Str → List Str
  | cur, [] => if cur = [] then [] else [cur.reverse]
  | cur, c :: cs =>
    if isSpace c = true then
      (if cur = [] then FieldsAux [] cs else cur.reverse :: FieldsAux [] cs)
    else FieldsAux (c :: cur) cs

/-- Go's `strings.Fields`: the maximal runs of non-space characters. -/
def Fields (s : Str) : List Str := FieldsAux [] s

/-- Value of a string of decimal digits, `none` when it is empty or has another
character. -/
def digitsValue : Nat → Bool → Str → Option Nat
  | acc, seen, [] => if seen = true then some acc else none
  | acc, _, c :: cs =>
    if '0'.toNat ≤ c.toNat ∧ c.toNat ≤ '9'.toNat then
      digitsValue (acc * 10 + (c.toNat - '0'.toNat)) true cs
    else none

/-- Go's `strconv.Atoi` with a 64-bit `int`: an optional sign, then decimal digits,
and the value must be in range. -/
def Atoi (s : Str) : Option Int :=
  match s with
  | [] => none
  | c :: cs =>
    if c = '-' then
      match digitsValue 0 false cs with
      | none => none
      | some v => if v ≤ 2 ^ 63 then some (-(v : Int)) else none
    else
      match digitsValue 0 false (if c = '+' then cs else c :: cs) with
      | none => none
      | some v => if v < 2 ^ 63 then some (v : Int) else none

/-- The switch of `validateProperty`.  `urlParse` tells whether `url.Parse`,
which is not part of this package, accepts a string. -/
def validateProperty (urlParse : Str → Bool) (property : Property) : Option Error :=
  let split := Fields property.Value
  if property.Name = SpecialFieldPrefix ++ RecProperty then
    if split.length = 0 then some (Error.New "No property value found")
    else if split.length = 2 then (if urlParse (split.getD 1 []) = true then none else some Error.Url)
    else none
  else if property.Name = SpecialFieldPrefix ++ MandatoryProperty then
    if split.length = 0 then some (Error.New "No property value found") else none
  else if property.Name = SpecialFieldPrefix ++ AllowedProperty then
    if split.length = 0 then some (Error.New "No property value found") else none
  else if property.Name = SpecialFieldPrefix ++ ProhibitProperty then
    if split.length = 0 then some (Error.New "No property value found") else none
  else if property.Name = SpecialFieldPrefix ++ UniqueProperty then
    if split.length = 0 then some (Error.New "No property value found") else none
  else if property.Name = SpecialFieldPrefix ++ KeyProperty then
    if split.length ≠ 1 then some (Error.New "No property value found") else none
  else if property.Name = SpecialFieldPrefix ++ DocProperty then none
  else if property.Name = SpecialFieldPrefix ++ TypedefProperty then
    if split.length < 2 then some (Error.New "Missing type name and/or type description")
    else if MatchString ValidTypeNameFirst (split.getD 0 []) = false then
      some (Error.New "Found invalid field name")
    else none
  else if property.Name = SpecialFieldPrefix ++ TypeProperty then
    if split.length < 2 then
      some (Error.New "Missing field list, type name, or type description")
    else none
  else if property.Name = SpecialFieldPrefix ++ AutoProperty then
    if split.length = 0 then some (Error.New "No property value found") else none
  else if property.Name = SpecialFieldPrefix ++ SortProperty then
    if split.length = 0 then some (Error.New "No property value found") else none
  else if property.Name = SpecialFieldPrefix ++ SizeProperty then
    if split.length = 0 then some (Error.New "No property value found")
    else if 2 < split.length then some (Error.New "Too many arguments found")
    else if Atoi (split.getD (split.length - 1) []) = none then some Error.Atoi
    else if split.length = 2 ∧ split.getD 0 [] ∈ relationalOperators then
      some (Error.New "Found invalid relational operator")
    else none
  else if property.Name = SpecialFieldPrefix ++ ConstraintProperty then
    if split.length = 0 then some (Error.New "No property value found") else none
  else none

/-! ## `parser.getRecordSetDescriptor` -/

/-- The loop of `getRecordSetDescriptor`, with the descriptor built so far and
the flag that records whether a `rec` property was seen; the flag is returned
for the check after the loop. -/
def getRecordSetDescriptorLoop (urlParse : Str → Bool) :
    Nat → Descriptor → Bool → Str → Option (Descriptor × Bool × Option Error × Str)
  | 0, _, _, _ => none
  | n + 1, record, flag, s =>
    match getLine s with
    | none => none
    | some (line, err, s1) =>
      if (err = none ∨ err = some Error.EOF) ∧ line ≠ [] then
        if (Split line).length ≠ 2 then
          some (record, flag, some (Error.New "Found invalid property"), s1)
        else
          let property : Property :=
            { Name := TrimPrefix ((Split line).getD 0 []), Value := (Split line).getD 1 [] }
          if property.Name ∈ properties ∧ validateProperty urlParse property ≠ none then
            some (record, flag, validateProperty urlParse property, s1)
          else if RecProperty = property.Name then
            if flag = true then
              some ({ record with Type_ := property.Value }, flag,
                some (Error.New "Found multiple record types"), s1)
            else
              getRecordSetDescriptorLoop urlParse n { record with Type_ := property.Value } true s1
          else
            getRecordSetDescriptorLoop urlParse n
              { record with SpecialFields := record.SpecialFields ++ [property] } flag s1
      else some (record, flag, err, s1)

def getRecordSetDescriptor (urlParse : Str → Bool) (s : Str) :
    Option (Descriptor × Option Error × Str) :=
  match getRecordSetDescriptorLoop urlParse (s.length + 1)
      { Type_ := [], SpecialFields := [] } false s with
  | none => none
  | some (record, flag, err, s1) =>
    if flag = false then some (record, some (Error.New "Missing record type"), s1)
    else some (record, err, s1)

/-! ## `parser.getRecordSet` -/

/-- The loop of `getRecordSet`, with the record set built so far. -/
def getRecordSetLoop (urlParse : Str → Bool) :
    Nat → RecordSet → Str → Option (RecordSet × Option Error × Str)
  | 0, _, _ => none
  | n + 1, recordSet, s =>
    match (Peek s).2 with
    | some e => some (recordSet, some e, s)
    | none =>
      if CommentPrefix = (Peek s).1 then
        if (ReadString s).2.1 ≠ none then
          some (recordSet, (ReadString s).2.1, (ReadString s).2.2)
        else getRecordSetLoop urlParse n recordSet (ReadString s).2.2
      else if SpecialFieldPrefix = (Peek s).1 then
        if recordSet.Records.length ≠ 0 ∨ DefaultRecordType ≠ recordSet.Descriptor.Type_ then
          some (recordSet, none, s)
        else
          match getRecordSetDescriptor urlParse s with
          | none => none
          | some (descriptor, err, s1) =>
            if err ≠ none ∧ err ≠ some Error.EOF then some (recordSet, err, s1)
            else getRecordSetLoop urlParse n { recordSet with Descriptor := descriptor } s1
      else
        match getRecord s with
        | none => none
        | some (record, err, s1) =>
          let recordSet1 : RecordSet :=
            if 0 < record.Fields.length then
              { recordSet with Records := recordSet.Records ++ [record] }
            else recordSet
          if err ≠ none then some (recordSet1, err, s1)
          else getRecordSetLoop urlParse n recordSet1 s1

def getRecordSet (urlParse : Str → Bool) (s : Str) :
    Option (RecordSet × Option Error × Str) :=
  getRecordSetLoop urlParse (s.length + 1)
    { Descriptor := { Type_ := DefaultRecordType, SpecialFields := [] }, Records := [] } s

/-! ## `parser.getDatabase` and `Load` -/

/-- The loop of `getDatabase`, with the database built so far. -/
def getDatabaseLoop (urlParse : Str → Bool) :
    Nat → Database → Str → Option (Database × Option Error × Str)
  | 0, _, _ => none
  | n + 1, db, s =>
    match getRecordSet urlParse s with
    | none => none
    | some (recordSet, err, s1) =>
      let db1 : Database :=
        if 0 < recordSet.Records.length ∨ DefaultRecordType ≠ recordSet.Descriptor.Type_ then
          { RecordSets := db.RecordSets ++ [recordSet] }
        else db
      if err ≠ none then some (db1, err, s1)
      else getDatabaseLoop urlParse n db1 s1

def getDatabase (urlParse : Str → Bool) (s : Str) : Option (Database × Option Error) :=
  match getDatabaseLoop urlParse (s.length + 1) { RecordSets := [] } s with
  | none => none
  | some (db, err, _) => if err = some Error.EOF then some (db, none) else some (db, err)

/-- The function `Load` on a file that opens and has the contents `s`. -/
def Load (urlParse : Str → Bool) (s : Str) : Option (Database × Option Error) :=
  getDatabase urlParse s

/-! ## `Database.Save` -/

/-- One `target.WriteString(name + FieldSeparator + value + "\n")`. -/
def writeLine (out : Str) (name value : Str) : Str :=
  out ++ (name ++ FieldSeparator ++ value ++ [LineDelimiterRune])

/-- The loop over `set.Descriptor.SpecialFields`. -/
def writeProperties : List Property → Str → Str
  | [], out => out
  | property :: rest, out =>
    writeProperties rest (writeLine out (SpecialFieldPrefix ++ property.Name) property.Value)

/-- The loop over `record.Fields`. -/
def writeFields : List Field → Str → Str
  | [], out => out
  | field :: rest, out => writeFields rest (writeLine out field.Name field.Value)

/-- The loop over `set.Records`: `len` is `len(set.Records)` and `i` the index
of the first record of the list. -/
def writeRecords (len : Nat) : Nat → List Record → Str → Str
  | _, [], out => out
  | i, record :: rest, out =>
    let out1 := writeFields record.Fields out
    writeRecords len (i + 1) rest
      (if (len : Int) - 1 ≠ (i : Int) then out1 ++ [LineDelimiterRune] else out1)

/-- The loop over `database.RecordSets`, with the bytes written so far; it
returns the error and the bytes written. -/
def SaveLoop : List RecordSet → Str → Option Error × Str
  | [], out => (none, out)
  | set :: rest, out =>
    if DefaultRecordType = set.Descriptor.Type_ ∧ 0 ≠ set.Descriptor.SpecialFields.length then
      (some (Error.New "Invalid record set descriptor"), out)
    else
      let r : Str × Bool :=
        if DefaultRecordType ≠ set.Descriptor.Type_ then
          (writeProperties set.Descriptor.SpecialFields
            (writeLine out (SpecialFieldPrefix ++ RecProperty) set.Descriptor.Type_), true)
        else (out, false)
      let out2 := if r.2 = true then r.1 ++ [LineDelimiterRune] else r.1
      SaveLoop rest (writeRecords set.Records.length 0 set.Records out2)

/-- The method `Save` on a target that opens and is written without failure: the error and
the bytes written. -/
def Save (database : Database) : Option Error × Str :=
  SaveLoop database.RecordSets []

/-! ## The text of a database, following the specification -/

/-- One line `<name>: <value>` with its newline. -/
def fieldLine (name value : Str) : Str := name ++ FieldSeparator ++ value ++ ['\n']

/-- The lines `<Name>: <Value>` of the fields of a record, in order. -/
def fieldsText : List Field → Str
  | [] => []
  | f :: rest => fieldLine f.Name f.Value ++ fieldsText rest

/-- The lines `%<Name>: <Value>` of the properties of a descriptor, in order. -/
def propertiesText : List Property → Str
  | [] => []
  | p :: rest => fieldLine ('%' :: p.Name) p.Value ++ propertiesText rest

/-- The descriptor block with its type line, its property lines and the blank
line that closes it. -/
def descriptorBlock (d : Descriptor) : Str :=
  fieldLine (SpecialFieldPrefix ++ RecProperty) d.Type_ ++ propertiesText d.SpecialFields ++ ['\n']

/-- What the specification of `Save` writes for a descriptor: the block when
the type is not the default one, nothing otherwise. -/
def descriptorText (d : Descriptor) : Str :=
  if d.Type_ = [] then [] else descriptorBlock d

/-- What the specification of `Save` writes for the records of a set: one
newline between consecutive records and none after the last. -/
def recordsText : List Record → Str
  | [] => []
  | [r] => fieldsText r.Fields
  | r :: r1 :: rest => fieldsText r.Fields ++ ['\n'] ++ recordsText (r1 :: rest)

/-- What the specification of `Save` writes for a list of record sets. -/
def setsText : List RecordSet → Str
  | [] => []
  | set :: rest => descriptorText set.Descriptor ++ recordsText set.Records ++ setsText rest

/-- The write guard of `Save`: an empty type together with properties. -/
def badDescriptor (set : RecordSet) : Prop :=
  set.Descriptor.Type_ = [] ∧ set.Descriptor.SpecialFields ≠ []

/-- The records of a set, each followed by a blank line. -/
def recordBlocks : List Record → Str
  | [] => []
  | r :: rest => fieldsText r.Fields ++ ['\n'] ++ recordBlocks rest

/-- Well-formed multi-set text: per record set the descriptor block and then
each record followed by a blank line. -/
def databaseText : List RecordSet → Str
  | [] => []
  | set :: rest => descriptorBlock set.Descriptor ++ recordBlocks set.Records ++ databaseText rest

/-- The whole string matches a pattern of the shape `[first][a-zA-Z0-9_]*`. -/
def fullMatch (first : Char → Bool) : Str → Bool
  | [] => false
  | c :: cs => first c && cs.all isWord

/-- The string fully matches `[a-zA-Z][a-zA-Z0-9_]*`. -/
def validName (s : Str) : Bool := fullMatch ValidTypeNameFirst s

/-- A raw comment line with the text `t`. -/
def commentLine (t : Str) : Str := '#' :: t ++ ['\n']

/-- Raw comment lines with the given texts. -/
def commentLines : List Str → Str
  | [] => []
  | t :: rest => commentLine t ++ commentLines rest

/-- Raw continuation lines `+C`, each preceded by comment lines: the list
gives for each continuation line the texts of the comments before it and `C`. -/
def continuationLines : List (List Str × Str) → Str
  | [] => []
  | p :: rest => commentLines p.1 ++ ('+' :: p.2 ++ ['\n']) ++ continuationLines rest

/-- The texts of the continuation lines, joined. -/
def joinedText : List (List Str × Str) → Str
  | [] => []
  | p :: rest => p.2 ++ joinedText rest

/-- The string contains the separator `": "`. -/
def containsSeparator : Str → Bool
  | [] => false
  | [_] => false
  | c :: d :: rest => (c = ':' && d = ' ') || containsSeparator (d :: rest)

/-- A value that a line can carry: no newline and no separator. -/
def plainValue (v : Str) : Bool := !v.contains '\n' && !containsSeparator v

/-- A field with a valid name and a plain value. -/
def plainField (f : Field) : Bool := validName f.Name && plainValue f.Value

/-- A record with at least one field, all plain. -/
def plainRecord (r : Record) : Bool := !r.Fields.isEmpty && r.Fields.all plainField

/-- The properties of a descriptor are plain and none is named `rec`. -/
def plainProperties (ps : List Property) : Bool :=
  ps.all (fun p => plainField p && p.Name != RecProperty)

/-- A typed record set whose type, properties and records are plain. -/
def plainTypedSet (set : RecordSet) : Bool :=
  !set.Descriptor.Type_.isEmpty && plainValue set.Descriptor.Type_ &&
  plainProperties set.Descriptor.SpecialFields && set.Records.all plainRecord

/-- An untyped record set that `Save` writes and `Load` reads back: no type, no
property, at least one record, all records plain. -/
def plainUntypedSet (set : RecordSet) : Bool :=
  set.Descriptor.Type_.isEmpty && set.Descriptor.SpecialFields.isEmpty &&
  !set.Records.isEmpty && set.Records.all plainRecord

/-- Plain typed record sets of which only the last may have records. -/
def typedChain : List RecordSet → Bool
  | [] => true
  | [set] => plainTypedSet set
  | set :: set1 :: rest =>
    plainTypedSet set && set.Records.isEmpty && typedChain (set1 :: rest)

/-- The databases that `Save` writes in a form that `Load` reads back: plain
typed record sets of which only the last has records, or a single plain untyped
record set. -/
def roundTripShape (sets : List RecordSet) : Bool :=
  typedChain sets ||
  (match sets with
   | [set] => plainUntypedSet set
   | _ => false)

/-! ## Descriptor blocks -/

/-- The logical lines that the loops of `getRecord` and `getRecordSetDescriptor`
go through from the input `s`: the lines returned by `getLine` until one is
empty or comes with an error other than `io.EOF`. -/
def blockLines : Nat → Str → List Str
  | 0, _ => []
  | n + 1, s =>
    match getLine s with
    | none => []
    | some (line, err, s1) =>
      if (err = none ∨ err = some Error.EOF) ∧ line ≠ [] then line :: blockLines n s1 else []

/-- The logical lines of the descriptor block at the head of the input, up to
the next empty line or the end of the input. -/
def descriptorLines (s : Str) : List Str := blockLines (s.length + 1) s

/-- A line that the loop of `getRecordSetDescriptor` takes as the type line: the
text before the first separator, with the marker `%` trimmed when the line has
it (`strings.TrimPrefix`), is `rec`.  Both `%rec: A` and `rec: A` are such
lines. -/
def isRecLine (line : Str) : Bool := TrimPrefix ((Split line).getD 0 []) == RecProperty

/-- Number of lines of the descriptor block at the head of the input that
`getRecordSetDescriptor` takes as type lines, with or without the marker. -/
def recLineCount (s : Str) : Nat := (descriptorLines s).countP isRecLine

/-- Number of occurrences of the separator `": "` in a string. -/
def countSeparator : Str → Nat
  | [] => 0
  | [_] => 0
  | c :: d :: rest => (if c = ':' ∧ d = ' ' then 1 else 0) + countSeparator (d :: rest)

/-- A final comment line without its newline, or nothing. -/
def finalComment : Option Str → Str
  | none => []
  | some t => '#' :: t

/-- Text made only of empty lines (`none`) and comment lines (`some t`), closed
by an optional final comment line without newline. -/
def blankText (fin : Option Str) : List (Option Str) → Str
  | [] => finalComment fin
  | none :: rest => '\n' :: blankText fin rest
  | some t :: rest => commentLine t ++ blankText fin rest

/-- The error and the unread input after the comment lines at the head of a
blank text have been passed: the end of the input, or the next empty line. -/
def afterComments (fin : Option Str) : List (Option Str) → Option Error × Str
  | [] => (some Error.EOF, [])
  | none :: rest => (none, '\n' :: blankText fin rest)
  | some _ :: rest => afterComments fin rest

/-- The input `y` is the input `x` with the raw line `c` inserted in front of
one of its raw lines, or after its last newline. -/
inductive Inserted (c : Str) : Str → Str → Prop
  | here (x : Str) : Inserted c x (c ++ x)
  | line (l x y : Str) : '\n' ∉ l → Inserted c x y →
      Inserted c (l ++ '\n' :: x) (l ++ '\n' :: y)

/-- A line marked as `%rec`: the text before the first separator is `%rec`. -/
def isMarkedRecLine (line : Str) : Bool :=
  (Split line).getD 0 [] == SpecialFieldPrefix ++ RecProperty

/-- Number of `%rec` lines of the descriptor block at the head of the input. -/
def markedRecLineCount (s : Str) : Nat := (descriptorLines s).countP isMarkedRecLine

/-! ## States that the loops of the parser go through -/

/-- The record set with which `getRecordSet` starts. -/
def freshRecordSet : RecordSet :=
  { Descriptor := { Type_ := DefaultRecordType, SpecialFields := [] }, Records := [] }

/-- What `getRecordSet` does with a record that `getRecord` returned. -/
def RecordSet.add (rs : RecordSet) (record : Record) : RecordSet :=
  if 0 < record.Fields.length then { rs with Records := rs.Records ++ [record] } else rs

/-- What `getDatabase` does with a record set that `getRecordSet` returned. -/
def Database.add (db : Database) (rs : RecordSet) : Database :=
  if 0 < rs.Records.length ∨ DefaultRecordType ≠ rs.Descriptor.Type_ then
    { RecordSets := db.RecordSets ++ [rs] }
  else db

/-- The loop of `getRecord`, started on the input `s0`, is about to read a
line from the input `s` with the record `record` built so far: each step is one
iteration of the loop that appends a field. -/
inductive RecordAt (s0 : Str) : Record → Str → Prop
  | start : RecordAt s0 { Fields := [] } s0
  | more (record : Record) (s line : Str) (err : Option Error) (s1 : Str) :
      RecordAt s0 record s → getLine s = some (line, err, s1) →
      (err = none ∨ err = some Error.EOF) → line ≠ [] → (Split line).length = 2 →
      MatchString ValidFieldNameFirst ((Split line).getD 0 []) = true →
      RecordAt s0 (record.push { Name := (Split line).getD 0 [], Value := (Split line).getD 1 [] })
        s1

/-- The loop of `getRecordSet`, started on the input `s0`, is about to peek at
the input `s` with the record set `rs` built so far: each step is one iteration
of the loop that goes on (a comment line discarded, a descriptor read, a record
read). -/
inductive SetAt (urlParse : Str → Bool) (s0 : Str) : RecordSet → Str → Prop
  | start : SetAt urlParse s0 freshRecordSet s0
  | comment (rs : RecordSet) (s : Str) :
      SetAt urlParse s0 rs s → s.head? = some '#' → (ReadString s).2.1 = none →
      SetAt urlParse s0 rs (ReadString s).2.2
  | descriptor (rs : RecordSet) (s : Str) (d : Descriptor) (e : Option Error) (s1 : Str) :
      SetAt urlParse s0 rs s → s.head? = some '%' → rs.Records = [] →
      rs.Descriptor.Type_ = [] → getRecordSetDescriptor urlParse s = some (d, e, s1) →
      (e = none ∨ e = some Error.EOF) →
      SetAt urlParse s0 { rs with Descriptor := d } s1
  | record (rs : RecordSet) (s : Str) (r : Record) (s1 : Str) :
      SetAt urlParse s0 rs s → s ≠ [] → s.head? ≠ some '#' → s.head? ≠ some '%' →
      getRecord s = some (r, none, s1) →
      SetAt urlParse s0 (rs.add r) s1

/-- The loop of `getDatabase`, started on the input `inp`, is about to call
`getRecordSet` on the input `s` with the database `db` built so far: each step
is one iteration of the loop that goes on. -/
inductive DatabaseAt (urlParse : Str → Bool) (inp : Str) : Database → Str → Prop
  | start : DatabaseAt urlParse inp { RecordSets := [] } inp
  | next (db : Database) (s : Str) (rs : RecordSet) (s1 : Str) :
      DatabaseAt urlParse inp db s → getRecordSet urlParse s = some (rs, none, s1) →
      DatabaseAt urlParse inp (db.add rs) s1

/-! ## Concrete inputs -/

/-- A `url.Parse` that accepts everything, for evaluation. -/
def U0 : Str → Bool := fun _ => true

def bookText : Str :=
  "%rec: Book\n%mandatory: Title\n\nTitle: Foo\nAuthor: Bar\n\nTitle: Baz\n".toList

def bookDatabase : Database :=
  { RecordSets := [
      { Descriptor := { Type_ := "Book".toList,
                        SpecialFields := [{ Name := "mandatory".toList, Value := "Title".toList }] },
        Records := [
          { Fields := [{ Name := "Title".toList, Value := "Foo".toList },
                       { Name := "Author".toList, Value := "Bar".toList }] },
          { Fields := [{ Name := "Title".toList, Value := "Baz".toList }] }] }] }

/-- A record set with an empty type and a property, as `Load` returns it. -/
def untypedText : Str := "%rec: \n%foo: bar\n\na: b\n".toList

def untypedSet : RecordSet :=
  { Descriptor := { Type_ := [], SpecialFields := [{ Name := "foo".toList, Value := "bar".toList }] },
    Records := [{ Fields := [{ Name := "a".toList, Value := "b".toList }] }] }

def untypedDatabase : Database := { RecordSets := [untypedSet] }

/-- A database of one untyped record set with the given single field. -/
def singleField (name value : String) : Database :=
  { RecordSets := [
      { Descriptor := { Type_ := [], SpecialFields := [] },
        Records := [{ Fields := [{ Name := name.toList, Value := value.toList }] }] }] }

/-- A database of one record set of type `T` with the property `size: abc`. -/
def sizeDatabase : Database :=
  { RecordSets := [
      { Descriptor := { Type_ := ['T'],
                        SpecialFields := [{ Name := "size".toList, Value := "abc".toList }] },
        Records := [] }] }

/-- The databases of the round-trip property as the specification states it:
no record without fields, no record set with an empty type together with
properties, no field value with a newline. -/
def specRoundTripInput (db : Database) : Bool :=
  db.RecordSets.all (fun set =>
    !(set.Descriptor.Type_.isEmpty && !set.Descriptor.SpecialFields.isEmpty) &&
    set.Records.all (fun r =>
      !r.Fields.isEmpty && r.Fields.all (fun f => !f.Value.contains '\n')))

/-- A record set of the given type with one record of one field. -/
def typedSet (type name value : String) : RecordSet :=
  { Descriptor := { Type_ := type.toList, SpecialFields := [] },
    Records := [{ Fields := [{ Name := name.toList, Value := value.toList }] }] }

/-- Two typed record sets, each with one record. -/
def twoSetsDatabase : Database :=
  { RecordSets := [typedSet "A" "x" "1", typedSet "B" "y" "2"] }

/-- What `Load` returns for the bytes that `Save` writes for `twoSetsDatabase`:
the descriptor line of the second set has become a field of the first. -/
def mergedDatabase : Database :=
  { RecordSets := [
      { Descriptor := { Type_ := ['A'], SpecialFields := [] },
        Records := [
          { Fields := [{ Name := ['x'], Value := ['1'] },
                       { Name := "%rec".toList, Value := ['B'] }] },
          { Fields := [{ Name := ['y'], Value := ['2'] }] }] }] }

/-- A database of one record set without type, property or record. -/
def emptySetDatabase : Database :=
  { RecordSets := [{ Descriptor := { Type_ := [], SpecialFields := [] }, Records := [] }] }

/-- A typed record set without records followed by the Book record set. -/
def chainDatabase : Database :=
  { RecordSets :=
      { Descriptor := { Type_ := "Shelf".toList,
                        SpecialFields := [{ Name := "doc".toList, Value := "no records".toList }] },
        Records := [] } :: bookDatabase.RecordSets }

/-- Two typed record sets with records. -/
def libraryDatabase : Database :=
  { RecordSets := bookDatabase.RecordSets ++ [typedSet "Author" "Name" "Bar"] }

/-- The record set of the Book example. -/
def typedBookSet : RecordSet :=
  { Descriptor := { Type_ := "Book".toList,
                    SpecialFields := [{ Name := "mandatory".toList, Value := "Title".toList }] },
    Records := [
      { Fields := [{ Name := "Title".toList, Value := "Foo".toList },
                   { Name := "Author".toList, Value := "Bar".toList }] },
      { Fields := [{ Name := "Title".toList, Value := "Baz".toList }] }] }

/-- A record set of type `A` whose second record line is malformed. -/
def badLineText : Str := "%rec: A\n\nx: 1\ny: 2: 3\n".toList

/-- A record set of type `A` with one record of two fields. -/
def goodLineText : Str := "%rec: A\n\nx: 1\ny: 2\n".toList

/-- The descriptor of type `A` without properties. -/
def descriptorA : Descriptor := { Type_ := ['A'], SpecialFields := [] }

/-- The field `x` with the value `1`. -/
def fieldX : Field := { Name := ['x'], Value := ['1'] }

/-- A record set of type `A` with a record, a comment, and then a descriptor
block without type followed directly by a field line. -/
def missingTypeText : Str :=
  "%rec: A\n\nx: 1\n\n# note\n%mandatory: Title\nTitle: Foo\n".toList

/-- The record set of type `A` with the record of the field `x`. -/
def recordSetA : RecordSet := { Descriptor := descriptorA, Records := [{ Fields := [fieldX] }] }

/-- A descriptor block without a `%rec` line in which the field line `rec: Foo`
follows the `%` line directly. -/
def unmarkedRecText : Str := "%mandatory: Title\nrec: Foo\n".toList

/-- What `Load` returns for `unmarkedRecText`. -/
def unmarkedRecDatabase : Database :=
  { RecordSets := [
      { Descriptor := { Type_ := "Foo".toList,
                        SpecialFields := [{ Name := "mandatory".toList, Value := "Title".toList }] },
        Records := [] }] }

/-! # Theorems -/

/-! ## Reading raw lines -/

theorem ReadString_line (l rest : Str) (h : '\n' ∉ l) :
    ReadString (l ++ '\n' :: rest) = (l ++ ['\n'], none, rest) := by
  induction l with
  | nil => simp [ReadString, LineDelimiterRune]
  | cons c cs ih =>
    have hc : c ≠ '\n' := fun e => h (by simp [e])
    have hcs : '\n' ∉ cs := fun e => h (List.mem_cons_of_mem _ e)
    simp [ReadString, LineDelimiterRune, hc, ih hcs]

theorem ReadString_last (l : Str) (h : '\n' ∉ l) :
    ReadString l = (l, some Error.EOF, []) := by
  induction l with
  | nil => simp [ReadString]
  | cons c cs ih =>
    have hc : c ≠ '\n' := fun e => h (by simp [e])
    have hcs : '\n' ∉ cs := fun e => h (List.mem_cons_of_mem _ e)
    simp [ReadString, LineDelimiterRune, hc, ih hcs]

theorem Replace1_line (l : Str) (h : '\n' ∉ l) : Replace1 (l ++ ['\n']) '\n' = l := by
  simp [Replace1, List.erase_append_right _ h]

theorem Replace1_none (l : Str) (h : '\n' ∉ l) : Replace1 l '\n' = l := by
  simp [Replace1, List.erase_of_not_mem h]

theorem ReadString_length (s : Str) :
    (ReadString s).1.length + (ReadString s).2.2.length = s.length := by
  induction s with
  | nil => simp [ReadString]
  | cons c cs ih =>
    by_cases h : c = LineDelimiterRune
    · simp [ReadString, h]
      omega
    · simp [ReadString, h]
      omega

theorem ReadString_none (s : Str) (h : (ReadString s).2.1 = none) :
    (ReadString s).2.2.length < s.length := by
  have hl := ReadString_length s
  cases s with
  | nil => simp [ReadString] at h
  | cons c cs =>
    by_cases hc : c = LineDelimiterRune
    · simp [ReadString, hc]
    · simp [ReadString, hc] at hl ⊢
      omega

theorem ReadString_cons (c : Char) (cs : Str) :
    (ReadString (c :: cs)).2.2.length < (c :: cs).length := by
  have hl := ReadString_length (c :: cs)
  by_cases hc : c = LineDelimiterRune
  · simp [ReadString, hc]
  · simp [ReadString, hc] at hl ⊢
    omega

/-! ## `getLine` returns on every input -/

theorem getLineSkip_total (n : Nat) (s : Str) (h : s.length < n) :
    ∃ line err s1, getLineSkip n s = some (line, err, s1) ∧
      line.length + s1.length ≤ s.length := by
  induction n generalizing s with
  | zero => omega
  | succ n ih =>
    rw [getLineSkip]
    by_cases hc : (ReadString s).2.1 = none ∧ HasPrefix (ReadString s).1 CommentPrefix = true
    · rw [if_pos hc]
      have h1 := ReadString_none s hc.1
      obtain ⟨line, err, s1, e, hle⟩ := ih (ReadString s).2.2 (by omega)
      exact ⟨line, err, s1, e, by omega⟩
    · rw [if_neg hc]
      exact ⟨(ReadString s).1, (ReadString s).2.1, (ReadString s).2.2, rfl,
        by have := ReadString_length s; omega⟩

theorem getLineWrap_total (n : Nat) (line s : Str) (h : s.length < n) :
    ∃ line1 err s1, getLineWrap n line s = some (line1, err, s1) ∧
      s1.length ≤ s.length ∧ (line = [] → line1 = []) := by
  induction n generalizing line s with
  | zero => omega
  | succ n ih =>
    cases s with
    | nil => exact ⟨line, some Error.EOF, [], by simp [getLineWrap, Peek], by simp, id⟩
    | cons c cs =>
      have hc := ReadString_cons c cs
      rw [getLineWrap]
      simp only [Peek]
      split_ifs with h1 h2 h3 h4 h5
      · exact ⟨_, _, _, rfl, by omega, id⟩
      · obtain ⟨l1, e1, s1, e, hle, hl⟩ := ih line (ReadString (c :: cs)).2.2 (by omega)
        exact ⟨l1, e1, s1, e, by omega, hl⟩
      · exact ⟨_, _, _, rfl, by simp, id⟩
      · exact ⟨_, _, _, rfl, by omega, id⟩
      · obtain ⟨l1, e1, s1, e, hle, hl⟩ := ih _ (ReadString (c :: cs)).2.2 (by omega)
        exact ⟨l1, e1, s1, e, by omega, fun h0 => absurd h0 h4⟩
      · exact ⟨_, _, _, rfl, by simp, id⟩

theorem getLine_total (s : Str) :
    ∃ line err s1, getLine s = some (line, err, s1) ∧
      s1.length ≤ s.length ∧ (line ≠ [] → s1.length < s.length) := by
  obtain ⟨l0, e0, s0, e, hle⟩ := getLineSkip_total (s.length + 1) s (Nat.lt_succ_self _)
  obtain ⟨l1, e1, s1, e2, hle2, hl⟩ :=
    getLineWrap_total (s0.length + 1) (Replace1 l0 '\n') s0 (Nat.lt_succ_self _)
  refine ⟨l1, e1, s1, by simp [getLine, e, e2], by omega, ?_⟩
  intro hne
  have h0 : l0 ≠ [] := by
    intro h0
    apply hne
    apply hl
    simp [h0, Replace1]
  have : 0 < l0.length := List.length_pos.mpr h0
  omega

/-! ## `getLine` on continuation lines -/

theorem getLineWrap_comment (line t Y : Str) (R : Option (Str × Option Error × Str))
    (fuel : Nat) (ht : '\n' ∉ t) (hf : (commentLine t ++ Y).length < fuel)
    (hY : ∀ fuel1, Y.length < fuel1 → getLineWrap fuel1 line Y = R) :
    getLineWrap fuel line (commentLine t ++ Y) = R := by
  cases fuel with
  | zero => simp at hf
  | succ n =>
    have hr : ReadString (commentLine t ++ Y) = ('#' :: t ++ ['\n'], none, Y) := by
      have : '\n' ∉ '#' :: t := by simp [ht]
      simpa [commentLine] using ReadString_line ('#' :: t) Y this
    have hp : Peek (commentLine t ++ Y) = (['#'], none) := by simp [commentLine, Peek]
    rw [getLineWrap, hp]
    simp only [hr, HasPrefix, CommentPrefix]
    simp only [List.isPrefixOf, beq_self_eq_true, Bool.and_self, if_true, ne_eq, not_true,
      if_false]
    apply hY
    simp [commentLine] at hf
    omega

theorem getLineWrap_comments (line Y : Str) (R : Option (Str × Option Error × Str))
    (ts : List Str) (fuel : Nat) (ht : ∀ t ∈ ts, '\n' ∉ t)
    (hf : (commentLines ts ++ Y).length < fuel)
    (hY : ∀ fuel1, Y.length < fuel1 → getLineWrap fuel1 line Y = R) :
    getLineWrap fuel line (commentLines ts ++ Y) = R := by
  induction ts generalizing fuel with
  | nil => exact hY fuel (by simpa [commentLines] using hf)
  | cons t rest ih =>
    have e : commentLines (t :: rest) ++ Y = commentLine t ++ (commentLines rest ++ Y) := by
      simp [commentLines]
    rw [e] at hf ⊢
    apply getLineWrap_comment line t _ R fuel (ht t (List.mem_cons_self _ _)) hf
    intro fuel1 hf1
    exact ih fuel1 (fun x hx => ht x (List.mem_cons_of_mem _ hx)) hf1

theorem getLineWrap_continuation (line C Y : Str) (R : Option (Str × Option Error × Str))
    (fuel : Nat) (hl : line ≠ []) (hC : '\n' ∉ C) (hf : ('+' :: C ++ '\n' :: Y).length < fuel)
    (hY : ∀ fuel1, Y.length < fuel1 → getLineWrap fuel1 (line ++ C) Y = R) :
    getLineWrap fuel line ('+' :: C ++ '\n' :: Y) = R := by
  cases fuel with
  | zero => simp at hf
  | succ n =>
    have hr : ReadString ('+' :: C ++ '\n' :: Y) = ('+' :: C ++ ['\n'], none, Y) := by
      have : '\n' ∉ '+' :: C := by simp [hC]
      simpa using ReadString_line ('+' :: C) Y this
    have hp : Peek ('+' :: C ++ '\n' :: Y) = (['+'], none) := by simp [Peek]
    have he : Replace1 (Replace1 ('+' :: C ++ ['\n']) '+') '\n' = C := by
      have : Replace1 ('+' :: C ++ ['\n']) '+' = C ++ ['\n'] := by simp [Replace1]
      rw [this, Replace1_line C hC]
    rw [getLineWrap, hp]
    simp only [hr, he, HasPrefix, CommentPrefix, LineWrapPrefix]
    simp only [List.isPrefixOf, beq_self_eq_true, Bool.and_self, if_true, ne_eq, not_true,
      if_false, hl]
    simp
    apply hY
    simp at hf
    omega

theorem getLineWrap_stop (line rest : Str) (c : Char) (r : Str) (fuel : Nat)
    (hrest : rest = c :: r) (h1 : c ≠ '+') (h2 : c ≠ '#') (hf : rest.length < fuel) :
    getLineWrap fuel line rest = some (line, none, rest) := by
  cases fuel with
  | zero => simp at hf
  | succ n =>
    subst hrest
    rw [getLineWrap]
    simp [Peek, HasPrefix, CommentPrefix, LineWrapPrefix, h1.symm, h2.symm]

theorem getLineWrap_join (conts : List (List Str × Str)) (trailing : List Str)
    (line rest : Str) (c : Char) (r : Str) (fuel : Nat) (hl : line ≠ [])
    (hc : ∀ p ∈ conts, '\n' ∉ p.2 ∧ ∀ t ∈ p.1, '\n' ∉ t) (ht : ∀ t ∈ trailing, '\n' ∉ t)
    (hrest : rest = c :: r) (h1 : c ≠ '+') (h2 : c ≠ '#')
    (hf : (continuationLines conts ++ (commentLines trailing ++ rest)).length < fuel) :
    getLineWrap fuel line (continuationLines conts ++ (commentLines trailing ++ rest)) =
      some (line ++ joinedText conts, none, rest) := by
  induction conts generalizing line fuel with
  | nil =>
    simp only [continuationLines, List.nil_append, joinedText, List.append_nil] at hf ⊢
    apply getLineWrap_comments line rest _ trailing fuel ht hf
    intro fuel1 hf1
    exact getLineWrap_stop line rest c r fuel1 hrest h1 h2 hf1
  | cons p ps ih =>
    have e : continuationLines (p :: ps) ++ (commentLines trailing ++ rest) =
        commentLines p.1 ++ ('+' :: p.2 ++ '\n' ::
          (continuationLines ps ++ (commentLines trailing ++ rest))) := by
      simp [continuationLines]
    rw [e] at hf ⊢
    have hp := hc p (List.mem_cons_self _ _)
    apply getLineWrap_comments line _ _ p.1 fuel hp.2 hf
    intro fuel1 hf1
    apply getLineWrap_continuation line p.2 _ _ fuel1 hl hp.1 hf1
    intro fuel2 hf2
    have := ih (line ++ p.2) fuel2 (by simp [hl])
      (fun x hx => hc x (List.mem_cons_of_mem _ hx)) hf2
    simpa [joinedText] using this

/-! ## `Save` -/

theorem writeFields_eq (fs : List Field) (out : Str) :
    writeFields fs out = out ++ fieldsText fs := by
  induction fs generalizing out with
  | nil => simp [writeFields, fieldsText]
  | cons f rest ih => simp [writeFields, fieldsText, ih, writeLine, fieldLine, LineDelimiterRune]

theorem writeProperties_eq (ps : List Property) (out : Str) :
    writeProperties ps out = out ++ propertiesText ps := by
  induction ps generalizing out with
  | nil => simp [writeProperties, propertiesText]
  | cons p rest ih =>
    simp [writeProperties, propertiesText, ih, writeLine, fieldLine, LineDelimiterRune,
      SpecialFieldPrefix]

theorem writeRecords_eq (len : Nat) (rs : List Record) (i : Nat) (out : Str)
    (h : len = i + rs.length) : writeRecords len i rs out = out ++ recordsText rs := by
  induction rs generalizing i out with
  | nil => simp [writeRecords, recordsText]
  | cons r rest ih =>
    cases rest with
    | nil =>
      have : (len : Int) - 1 = (i : Int) := by simp at h; omega
      simp [writeRecords, recordsText, writeFields_eq, this]
    | cons r1 rest1 =>
      have hne : (len : Int) - 1 ≠ (i : Int) := by simp at h; omega
      rw [writeRecords, if_pos hne, ih (i + 1) _ (by simp at h ⊢; omega)]
      simp [recordsText, writeFields_eq, LineDelimiterRune]

theorem SaveLoop_good (sets : List RecordSet) (out : Str)
    (h : ∀ set ∈ sets, ¬ badDescriptor set) :
    SaveLoop sets out = (none, out ++ setsText sets) := by
  induction sets generalizing out with
  | nil => simp [SaveLoop, setsText]
  | cons set rest ih =>
    have h1 : ¬ badDescriptor set := h set (List.mem_cons_self _ _)
    have h2 : ∀ x ∈ rest, ¬ badDescriptor x := fun x hx => h x (List.mem_cons_of_mem _ hx)
    have hg : ¬ (DefaultRecordType = set.Descriptor.Type_ ∧
        0 ≠ set.Descriptor.SpecialFields.length) := by
      intro hh
      apply h1
      refine ⟨hh.1.symm, ?_⟩
      intro he
      rw [he] at hh
      exact hh.2 rfl
    rw [SaveLoop, if_neg hg]
    by_cases ht : set.Descriptor.Type_ = []
    · simp [ht, DefaultRecordType, ih _ h2, writeRecords_eq, setsText, descriptorText]
    · have ht2 : ¬ ([] = set.Descriptor.Type_) := fun e => ht e.symm
      simp [ht, ht2, DefaultRecordType, ih _ h2, writeRecords_eq, setsText, descriptorText,
        descriptorBlock, writeProperties_eq, writeLine, fieldLine, LineDelimiterRune,
        SpecialFieldPrefix, RecProperty]

theorem SaveLoop_bad (pre : List RecordSet) (bad : RecordSet) (post : List RecordSet)
    (out : Str) (h : ∀ set ∈ pre, ¬ badDescriptor set) (hb : badDescriptor bad) :
    SaveLoop (pre ++ bad :: post) out =
      (some (Error.New "Invalid record set descriptor"), out ++ setsText pre) := by
  induction pre generalizing out with
  | nil =>
    have hg : DefaultRecordType = bad.Descriptor.Type_ ∧
        0 ≠ bad.Descriptor.SpecialFields.length := by
      refine ⟨hb.1.symm, ?_⟩
      intro he
      exact hb.2 (List.length_eq_zero.mp he.symm)
    simp only [List.nil_append]
    rw [SaveLoop, if_pos hg]
    simp [setsText]
  | cons set rest ih =>
    have h1 : ¬ badDescriptor set := h set (List.mem_cons_self _ _)
    have h2 : ∀ x ∈ rest, ¬ badDescriptor x := fun x hx => h x (List.mem_cons_of_mem _ hx)
    have hg : ¬ (DefaultRecordType = set.Descriptor.Type_ ∧
        0 ≠ set.Descriptor.SpecialFields.length) := by
      intro hh
      apply h1
      refine ⟨hh.1.symm, ?_⟩
      intro he
      rw [he] at hh
      exact hh.2 rfl
    simp only [List.cons_append]
    rw [SaveLoop, if_neg hg]
    by_cases ht : set.Descriptor.Type_ = []
    · simp [ht, DefaultRecordType, ih _ h2, writeRecords_eq, setsText, descriptorText]
    · have ht2 : ¬ ([] = set.Descriptor.Type_) := fun e => ht e.symm
      simp [ht, ht2, DefaultRecordType, ih _ h2, writeRecords_eq, setsText, descriptorText,
        descriptorBlock, writeProperties_eq, writeLine, fieldLine, LineDelimiterRune,
        SpecialFieldPrefix, RecProperty]

/-- C3: on the Book example `Load` returns no error and the database with the
one record set of type Book, the property mandatory/Title and the two records,
and `Save` of that database writes exactly the bytes of the input. -/
theorem book_end_to_end (urlParse : Str → Bool) :
    Load urlParse bookText = some (bookDatabase, none) ∧
      Save bookDatabase = (none, bookText) := by
  constructor
  · rfl
  · decide

/-- C4: when no record set has an empty type together with properties, `Save`
returns no error and writes, per record set in order, the descriptor block (only
when the type is not empty) and then the records with one newline between
consecutive records and none after the last. -/
theorem Save_exact_output (db : Database)
    (h : ∀ set ∈ db.RecordSets, ¬ badDescriptor set) :
    Save db = (none, setsText db.RecordSets) := by
  simpa [Save] using SaveLoop_good db.RecordSets [] h

theorem Save_exact_output_witness :
    (∀ set ∈ bookDatabase.RecordSets, ¬ badDescriptor set) ∧
      Save bookDatabase = (none, setsText bookDatabase.RecordSets) :=
  ⟨by simp [bookDatabase, badDescriptor],
   Save_exact_output bookDatabase (by simp [bookDatabase, badDescriptor])⟩

/-- C5: when the record set after the sets `pre` is the first one with an
empty type and properties, `Save` returns the invalid-descriptor error and has
written exactly what it writes for `pre`, which it saves without error. -/
theorem Save_write_guard (pre : List RecordSet) (bad : RecordSet) (post : List RecordSet)
    (h : ∀ set ∈ pre, ¬ badDescriptor set) (hb : badDescriptor bad) :
    Save { RecordSets := pre ++ bad :: post } =
        (some (Error.New "Invalid record set descriptor"), (Save { RecordSets := pre }).2) ∧
      (Save { RecordSets := pre }).1 = none := by
  have e1 := SaveLoop_bad pre bad post [] h hb
  have e2 := SaveLoop_good pre [] h
  simp only [Save, e1, e2, and_self]

theorem Save_write_guard_witness :
    (∀ set ∈ bookDatabase.RecordSets, ¬ badDescriptor set) ∧
      badDescriptor untypedSet ∧
      Save { RecordSets := bookDatabase.RecordSets ++
          untypedSet :: bookDatabase.RecordSets } =
        (some (Error.New "Invalid record set descriptor"),
          (Save { RecordSets := bookDatabase.RecordSets }).2) ∧
      (Save { RecordSets := bookDatabase.RecordSets }).1 = none :=
  ⟨by simp [bookDatabase, badDescriptor], by simp [untypedSet, badDescriptor],
   Save_write_guard bookDatabase.RecordSets untypedSet
     bookDatabase.RecordSets (by simp [bookDatabase, badDescriptor])
     (by simp [untypedSet, badDescriptor])⟩

/-! ## Lines of well-formed text -/

theorem isLetter_ne (c : Char) (h : isLetter c = true) :
    c ≠ '#' ∧ c ≠ '+' ∧ c ≠ '%' ∧ c ≠ ':' ∧ c ≠ '\n' := by
  refine ⟨?_, ?_, ?_, ?_, ?_⟩ <;> intro e <;> subst e <;> revert h <;> decide

theorem isWord_ne (c : Char) (h : isWord c = true) : c ≠ ':' ∧ c ≠ '\n' := by
  refine ⟨?_, ?_⟩ <;> intro e <;> subst e <;> revert h <;> decide

theorem validName_cons (name : Str) (h : validName name = true) :
    ∃ c cs, name = c :: cs ∧ isLetter c = true ∧ ∀ d ∈ cs, isWord d = true := by
  cases name with
  | nil => simp [validName, fullMatch] at h
  | cons c cs =>
    simp only [validName, fullMatch, ValidTypeNameFirst, Bool.and_eq_true, List.all_eq_true] at h
    exact ⟨c, cs, rfl, h.1, h.2⟩

theorem validName_not_mem (name : Str) (h : validName name = true) :
    ':' ∉ name ∧ '\n' ∉ name := by
  obtain ⟨c, cs, e, hc, hcs⟩ := validName_cons name h
  subst e
  have h1 := isLetter_ne c hc
  constructor
  · intro hm
    rcases List.mem_cons.mp hm with hm | hm
    · exact h1.2.2.2.1 hm.symm
    · exact (isWord_ne _ (hcs _ hm)).1 rfl
  · intro hm
    rcases List.mem_cons.mp hm with hm | hm
    · exact h1.2.2.2.2 hm.symm
    · exact (isWord_ne _ (hcs _ hm)).2 rfl

theorem validName_match (name : Str) (h : validName name = true) :
    MatchString ValidFieldNameFirst name = true := by
  obtain ⟨c, cs, e, hc, _⟩ := validName_cons name h
  subst e
  simp [MatchString, ValidFieldNameFirst, hc]

theorem Split_plain (v : Str) (h : containsSeparator v = false) : Split v = [v] := by
  induction v using Split.induct with
  | case1 => rfl
  | case2 c => rfl
  | case3 c d rest hcd ih =>
    simp [containsSeparator, hcd.1, hcd.2] at h
  | case4 c d rest hcd ih =>
    have h2 : containsSeparator (d :: rest) = false := by
      simp only [containsSeparator, Bool.or_eq_false_iff] at h
      exact h.2
    rw [Split, if_neg hcd, ih h2]
    rfl

theorem Split_name (name v : Str) (h : ':' ∉ name) :
    Split (name ++ ':' :: ' ' :: v) = name :: Split v := by
  induction name with
  | nil => simp [Split]
  | cons c cs ih =>
    have hc : c ≠ ':' := fun e => h (by simp [e])
    have hcs : ':' ∉ cs := fun e => h (List.mem_cons_of_mem _ e)
    have ih1 := ih hcs
    cases cs with
    | nil =>
      simp only [List.nil_append] at ih1
      simp only [List.cons_append, List.nil_append]
      rw [Split, if_neg (fun hh => hc hh.1), ih1]
      rfl
    | cons d ds =>
      simp only [List.cons_append] at ih1 ⊢
      rw [Split, if_neg (fun hh => hc hh.1), ih1]
      rfl

theorem Split_line (name v : Str) (h : ':' ∉ name) (hv : containsSeparator v = false) :
    Split (name ++ FieldSeparator ++ v) = [name, v] := by
  have : name ++ FieldSeparator ++ v = name ++ ':' :: ' ' :: v := by simp [FieldSeparator]
  rw [this, Split_name name v h, Split_plain v hv]

/-- The next raw line is neither a comment nor a continuation. -/
theorem getLine_simple (l rest : Str) (hn : '\n' ∉ l) (hl : l.head? ≠ some '#')
    (h1 : rest.head? ≠ some '#') (h2 : rest.head? ≠ some '+') :
    getLine (l ++ '\n' :: rest) =
      some (l, (if rest = [] then some Error.EOF else none), rest) := by
  have hp : HasPrefix (l ++ ['\n']) CommentPrefix = false := by
    cases l with
    | nil => simp [HasPrefix, CommentPrefix, List.isPrefixOf]
    | cons a as =>
      have : ¬ '#' = a := fun e => hl (by simp [e.symm])
      simp [HasPrefix, CommentPrefix, List.isPrefixOf, this]
  rw [getLine, getLineSkip, ReadString_line l _ hn]
  simp only [hp, Bool.false_eq_true, and_false, if_false, Replace1_line l hn]
  cases rest with
  | nil => simp [getLineWrap, Peek]
  | cons c r =>
    have c1 : c ≠ '+' := fun e => h2 (by simp [e])
    have c2 : c ≠ '#' := fun e => h1 (by simp [e])
    simpa using getLineWrap_stop l (c :: r) c r _ rfl c1 c2 (Nat.lt_succ_self _)

theorem getLine_nil : getLine [] = some ([], some Error.EOF, []) := by
  rfl

/-! ## `getRecord` on well-formed text -/

theorem plainValue_spec (v : Str) (h : plainValue v = true) :
    '\n' ∉ v ∧ containsSeparator v = false := by
  simp only [plainValue, Bool.and_eq_true, Bool.not_eq_true', List.contains_eq_any_beq,
    List.any_eq_false, beq_iff_eq] at h
  refine ⟨?_, h.2⟩
  intro hm
  exact h.1 _ hm rfl

theorem plainField_spec (f : Field) (h : plainField f = true) :
    validName f.Name = true ∧ '\n' ∉ f.Value ∧ containsSeparator f.Value = false := by
  simp only [plainField, Bool.and_eq_true] at h
  exact ⟨h.1, plainValue_spec _ h.2⟩

theorem fieldsText_head (fs : List Field) (tail : Str) (hfs : ∀ f ∈ fs, plainField f = true)
    (hne : fs ≠ []) : ∃ c r, fieldsText fs ++ tail = c :: r ∧ isLetter c = true := by
  cases fs with
  | nil => exact absurd rfl hne
  | cons f rest =>
    obtain ⟨c, cs, e, hc, _⟩ :=
      validName_cons f.Name (plainField_spec f (hfs f (List.mem_cons_self _ _))).1
    refine ⟨c, cs ++ FieldSeparator ++ f.Value ++ ['\n'] ++ fieldsText rest ++ tail, ?_, hc⟩
    simp [fieldsText, fieldLine, e]

theorem fieldsText_head_ok (fs : List Field) (tail : Str)
    (hfs : ∀ f ∈ fs, plainField f = true)
    (ht1 : tail.head? ≠ some '#') (ht2 : tail.head? ≠ some '+') :
    (fieldsText fs ++ tail).head? ≠ some '#' ∧ (fieldsText fs ++ tail).head? ≠ some '+' := by
  by_cases hne : fs = []
  · subst hne
    simpa [fieldsText] using And.intro ht1 ht2
  · obtain ⟨c, r, e, hc⟩ := fieldsText_head fs tail hfs hne
    have h := isLetter_ne c hc
    rw [e]
    constructor
    · intro hh
      exact h.1 (by simpa using hh)
    · intro hh
      exact h.2.1 (by simpa using hh)

theorem getRecordLoop_fields (fs : List Field) (tail : Str) (E : Option Error) (R : Str)
    (hfs : ∀ f ∈ fs, plainField f = true)
    (ht1 : tail.head? ≠ some '#') (ht2 : tail.head? ≠ some '+')
    (hT : ∀ fuel1 acc1, tail.length < fuel1 → getRecordLoop fuel1 acc1 tail = some (acc1, E, R))
    (fuel : Nat) (acc : Record) (hf : (fieldsText fs ++ tail).length < fuel) :
    getRecordLoop fuel acc (fieldsText fs ++ tail) =
      some ({ Fields := acc.Fields ++ fs }, E, R) := by
  induction fs generalizing fuel acc with
  | nil => simpa [fieldsText] using hT fuel acc (by simpa [fieldsText] using hf)
  | cons f rest ih =>
    have hrest : ∀ x ∈ rest, plainField x = true := fun x hx => hfs x (List.mem_cons_of_mem _ hx)
    obtain ⟨hname, hvn, hvs⟩ := plainField_spec f (hfs f (List.mem_cons_self _ _))
    obtain ⟨hcolon, hnl⟩ := validName_not_mem f.Name hname
    obtain ⟨c, cs, e, hc, _⟩ := validName_cons f.Name hname
    have hcne := isLetter_ne c hc
    have etext : fieldsText (f :: rest) ++ tail =
        (f.Name ++ FieldSeparator ++ f.Value) ++ '\n' :: (fieldsText rest ++ tail) := by
      simp [fieldsText, fieldLine]
    have hln : '\n' ∉ f.Name ++ FieldSeparator ++ f.Value := by
      simp [FieldSeparator, hnl, hvn]
    have hlne : f.Name ++ FieldSeparator ++ f.Value ≠ [] := by simp [e]
    have hlh : (f.Name ++ FieldSeparator ++ f.Value).head? ≠ some '#' := by
      rw [e]
      intro hh
      exact hcne.1 (by simpa using hh)
    obtain ⟨hr1, hr2⟩ := fieldsText_head_ok rest tail hrest ht1 ht2
    cases fuel with
    | zero => simp at hf
    | succ n =>
      rw [etext] at hf ⊢
      rw [getRecordLoop, getLine_simple _ _ hln hlh hr1 hr2]
      have hcond : ((if fieldsText rest ++ tail = [] then some Error.EOF else none) = none ∨
          (if fieldsText rest ++ tail = [] then some Error.EOF else none) = some Error.EOF) ∧
          f.Name ++ FieldSeparator ++ f.Value ≠ [] := by
        refine ⟨?_, hlne⟩
        by_cases h0 : fieldsText rest ++ tail = [] <;> simp [h0]
      simp only [if_pos hcond, Split_line f.Name f.Value hcolon hvs]
      simp only [List.length_cons, List.length_nil, ne_eq, not_true, if_false, List.getD_cons_zero,
        validName_match f.Name hname, Bool.true_eq_false, List.getD_cons_succ]
      rw [ih hrest n (acc.push { Name := f.Name, Value := f.Value })
        (by simp only [List.length_append, List.length_cons] at hf ⊢; omega)]
      simp [Record.push]

theorem getRecordLoop_blank (rest : Str) (h1 : rest.head? ≠ some '#')
    (h2 : rest.head? ≠ some '+') (fuel : Nat) (acc : Record)
    (hf : ('\n' :: rest).length < fuel) :
    getRecordLoop fuel acc ('\n' :: rest) =
      some (acc, (if rest = [] then some Error.EOF else none), rest) := by
  cases fuel with
  | zero => simp at hf
  | succ n =>
    have := getLine_simple [] rest (by simp) (by simp) h1 h2
    simp only [List.nil_append] at this
    rw [getRecordLoop, this]
    simp

theorem getRecordLoop_end (fuel : Nat) (acc : Record) (hf : ([] : Str).length < fuel) :
    getRecordLoop fuel acc [] = some (acc, some Error.EOF, []) := by
  cases fuel with
  | zero => simp at hf
  | succ n =>
    rw [getRecordLoop, getLine_nil]
    simp

theorem plainRecord_spec (r : Record) (h : plainRecord r = true) :
    r.Fields ≠ [] ∧ ∀ f ∈ r.Fields, plainField f = true := by
  simp only [plainRecord, Bool.and_eq_true, Bool.not_eq_true', List.isEmpty_eq_false,
    List.all_eq_true] at h
  exact h

theorem getRecord_block (r : Record) (rest : Str) (hr : plainRecord r = true)
    (h1 : rest.head? ≠ some '#') (h2 : rest.head? ≠ some '+') :
    getRecord (fieldsText r.Fields ++ '\n' :: rest) =
      some (r, (if rest = [] then some Error.EOF else none), rest) := by
  have h := getRecordLoop_fields r.Fields ('\n' :: rest) _ rest (plainRecord_spec r hr).2
    (by simp) (by simp)
    (fun fuel1 acc1 hf1 => getRecordLoop_blank rest h1 h2 fuel1 acc1 hf1)
    ((fieldsText r.Fields ++ '\n' :: rest).length + 1) { Fields := [] } (Nat.lt_succ_self _)
  simpa [getRecord] using h

theorem getRecord_last (r : Record) (hr : plainRecord r = true) :
    getRecord (fieldsText r.Fields) = some (r, some Error.EOF, []) := by
  have h := getRecordLoop_fields r.Fields [] _ [] (plainRecord_spec r hr).2
    (by simp) (by simp)
    (fun fuel1 acc1 hf1 => getRecordLoop_end fuel1 acc1 hf1)
    ((fieldsText r.Fields ++ []).length + 1) { Fields := [] } (Nat.lt_succ_self _)
  simpa [getRecord] using h

/-! ## Descriptor blocks -/

theorem validateProperty_known (urlParse : Str → Bool) (p : Property)
    (h : p.Name ∈ properties) : validateProperty urlParse p = none := by
  simp only [properties, List.mem_cons, List.mem_singleton, List.not_mem_nil, or_false] at h
  rcases h with h | h | h | h | h | h | h | h | h | h | h | h | h | h <;>
    simp [validateProperty, h, SpecialFieldPrefix, RecProperty, MandatoryProperty,
      AllowedProperty, ProhibitProperty, UniqueProperty, KeyProperty, DocProperty,
      TypedefProperty, TypeProperty, AutoProperty, SortProperty, SizeProperty,
      ConstraintProperty, ConfidentialProperty]

theorem descriptorLoop_spec (urlParse : Str → Bool) (n : Nat) (record : Descriptor)
    (flag : Bool) (s : Str) (h : s.length < n) :
    ∃ d f e s1, getRecordSetDescriptorLoop urlParse n record flag s = some (d, f, e, s1) ∧
      (flag = false → (blockLines n s).countP isRecLine = 0 → f = false) ∧
      (2 ≤ (blockLines n s).countP isRecLine + (if flag = true then 1 else 0) →
        f = false ∨ e = some (Error.New "Found multiple record types") ∨
          e = some (Error.New "Found invalid property")) ∧
      (2 ≤ (blockLines n s).countP isRecLine + (if flag = true then 1 else 0) →
        (∀ l ∈ blockLines n s, (Split l).length = 2) →
        f = true ∧ e = some (Error.New "Found multiple record types")) := by
  induction n generalizing record flag s with
  | zero => omega
  | succ n ih =>
    obtain ⟨line, err, s1, e, hle, hlt⟩ := getLine_total s
    rw [getRecordSetDescriptorLoop, blockLines, e]
    simp only
    by_cases hc : (err = none ∨ err = some Error.EOF) ∧ line ≠ []
    · have hn : s1.length < n := by have := hlt hc.2; omega
      rw [if_pos hc, if_pos hc]
      by_cases h2 : (Split line).length ≠ 2
      · rw [if_pos h2]
        refine ⟨_, _, _, _, rfl, ?_, ?_, ?_⟩
        · intro hf _
          exact hf
        · intro _
          exact Or.inr (Or.inr rfl)
        · intro _ hall
          exact absurd (hall line (List.mem_cons_self _ _)) h2
      · rw [if_neg h2]
        have hv : ¬ (TrimPrefix ((Split line).getD 0 []) ∈ properties ∧
            validateProperty urlParse
              { Name := TrimPrefix ((Split line).getD 0 []), Value := (Split line).getD 1 [] }
              ≠ none) := by
          intro hh
          exact hh.2 (validateProperty_known urlParse _ hh.1)
        rw [if_neg hv]
        by_cases hr : RecProperty = TrimPrefix ((Split line).getD 0 [])
        · have hrl : isRecLine line = true := by
            simp only [isRecLine, ← hr, beq_self_eq_true]
          have hfalse : (if false = true then 1 else 0) = 0 := by simp
          have htrue : (if true = true then 1 else 0) = 1 := by simp
          rw [if_pos hr]
          by_cases hfl : flag = true
          · rw [if_pos hfl]
            refine ⟨_, _, _, _, rfl, ?_, ?_, ?_⟩
            · intro hf _
              rw [hfl] at hf
              exact absurd hf (by simp)
            · intro _
              exact Or.inr (Or.inl rfl)
            · intro _ _
              exact ⟨hfl, rfl⟩
          · rw [if_neg hfl]
            obtain ⟨d, f, e1, s2, eq, p1, p2, p3⟩ :=
              ih { record with Type_ := (Split line).getD 1 [] } true s1 hn
            refine ⟨d, f, e1, s2, eq, ?_, ?_, ?_⟩
            · intro _ hcnt
              rw [List.countP_cons_of_pos _ _ hrl] at hcnt
              omega
            · intro hcnt
              apply p2
              have hf0 : flag = false := by simpa using hfl
              rw [List.countP_cons_of_pos _ _ hrl, hf0, hfalse] at hcnt
              rw [htrue]
              omega
            · intro hcnt hall
              apply p3
              · have hf0 : flag = false := by simpa using hfl
                rw [List.countP_cons_of_pos _ _ hrl, hf0, hfalse] at hcnt
                rw [htrue]
                omega
              · intro l hl
                exact hall l (List.mem_cons_of_mem _ hl)
        · have hrl : ¬ isRecLine line = true := by
            simp only [isRecLine, beq_iff_eq]
            exact fun e => hr e.symm
          rw [if_neg hr]
          obtain ⟨d, f, e1, s2, eq, p1, p2, p3⟩ :=
            ih { record with SpecialFields := record.SpecialFields ++
              [{ Name := TrimPrefix ((Split line).getD 0 []), Value := (Split line).getD 1 [] }] }
              flag s1 hn
          refine ⟨d, f, e1, s2, eq, ?_, ?_, ?_⟩
          · intro hf hcnt
            rw [List.countP_cons_of_neg _ _ hrl] at hcnt
            exact p1 hf hcnt
          · intro hcnt
            rw [List.countP_cons_of_neg _ _ hrl] at hcnt
            exact p2 hcnt
          · intro hcnt hall
            rw [List.countP_cons_of_neg _ _ hrl] at hcnt
            apply p3 hcnt
            · intro l hl
              exact hall l (List.mem_cons_of_mem _ hl)
    · rw [if_neg hc, if_neg hc]
      refine ⟨_, _, _, _, rfl, ?_, ?_, ?_⟩
      · intro hf _
        exact hf
      · intro hcnt
        by_cases hfl : flag = true <;> simp [hfl] at hcnt
      · intro hcnt
        by_cases hfl : flag = true <;> simp [hfl] at hcnt

/-! ## `getRecordSetDescriptor` on well-formed text -/

theorem plainProperties_spec (ps : List Property) (h : plainProperties ps = true) :
    ∀ p ∈ ps, plainField p = true ∧ p.Name ≠ RecProperty := by
  intro p hp
  simp only [plainProperties, List.all_eq_true, Bool.and_eq_true, bne_iff_ne, ne_eq] at h
  exact h p hp

theorem propertiesText_head_ok (ps : List Property) (rest : Str) :
    (propertiesText ps ++ '\n' :: rest).head? ≠ some '#' ∧
      (propertiesText ps ++ '\n' :: rest).head? ≠ some '+' := by
  cases ps with
  | nil => simp [propertiesText]
  | cons p ps => simp [propertiesText, fieldLine]

theorem descriptorLoop_properties (urlParse : Str → Bool) (ps : List Property) (rest : Str)
    (hps : plainProperties ps = true)
    (h1 : rest.head? ≠ some '#') (h2 : rest.head? ≠ some '+')
    (fuel : Nat) (record : Descriptor)
    (hf : (propertiesText ps ++ '\n' :: rest).length < fuel) :
    getRecordSetDescriptorLoop urlParse fuel record true (propertiesText ps ++ '\n' :: rest) =
      some ({ record with SpecialFields := record.SpecialFields ++ ps }, true,
        (if rest = [] then some Error.EOF else none), rest) := by
  induction ps generalizing fuel record with
  | nil =>
    cases fuel with
    | zero => simp at hf
    | succ n =>
      have := getLine_simple [] rest (by simp) (by simp) h1 h2
      simp only [List.nil_append] at this
      simp only [propertiesText, List.nil_append]
      rw [getRecordSetDescriptorLoop, this]
      simp
  | cons p ps ih =>
    have hspec := plainProperties_spec (p :: ps) hps
    have hrest : plainProperties ps = true := by
      simp only [plainProperties, List.all_cons, Bool.and_eq_true] at hps ⊢
      exact hps.2
    obtain ⟨hpf, hprec⟩ := hspec p (List.mem_cons_self _ _)
    obtain ⟨hname, hvn, hvs⟩ := plainField_spec p hpf
    obtain ⟨hcolon, hnl⟩ := validName_not_mem p.Name hname
    have etext : propertiesText (p :: ps) ++ '\n' :: rest =
        (('%' :: p.Name) ++ FieldSeparator ++ p.Value) ++
          '\n' :: (propertiesText ps ++ '\n' :: rest) := by
      simp [propertiesText, fieldLine]
    have hln : '\n' ∉ ('%' :: p.Name) ++ FieldSeparator ++ p.Value := by
      simp [FieldSeparator, hnl, hvn]
    have hlh : (('%' :: p.Name) ++ FieldSeparator ++ p.Value).head? ≠ some '#' := by simp
    have hcolon1 : ':' ∉ '%' :: p.Name := by simp [hcolon]
    obtain ⟨hr1, hr2⟩ := propertiesText_head_ok ps rest
    cases fuel with
    | zero => simp at hf
    | succ n =>
      rw [etext] at hf ⊢
      rw [getRecordSetDescriptorLoop, getLine_simple _ _ hln hlh hr1 hr2]
      have hcond : ((if propertiesText ps ++ '\n' :: rest = [] then some Error.EOF else none) =
            none ∨
          (if propertiesText ps ++ '\n' :: rest = [] then some Error.EOF else none) =
            some Error.EOF) ∧
          ('%' :: p.Name) ++ FieldSeparator ++ p.Value ≠ [] := by
        refine ⟨Or.inl (by simp), by simp⟩
      have hv : ¬ (p.Name ∈ properties ∧
          validateProperty urlParse { Name := p.Name, Value := p.Value } ≠ none) := by
        intro hh
        exact hh.2 (validateProperty_known urlParse _ hh.1)
      simp only [if_pos hcond, Split_line ('%' :: p.Name) p.Value hcolon1 hvs]
      simp only [List.length_cons, List.length_nil, ne_eq, not_true, if_false,
        List.getD_cons_zero, List.getD_cons_succ, TrimPrefix, if_true, if_neg hv,
        if_neg (fun e : RecProperty = p.Name => hprec e.symm)]
      rw [ih hrest n _
        (by simp only [List.length_append, List.length_cons] at hf ⊢; omega)]
      simp

theorem getRecordSetDescriptor_block (urlParse : Str → Bool) (d : Descriptor) (rest : Str)
    (hT : plainValue d.Type_ = true) (hps : plainProperties d.SpecialFields = true)
    (h1 : rest.head? ≠ some '#') (h2 : rest.head? ≠ some '+') :
    getRecordSetDescriptor urlParse (descriptorBlock d ++ rest) =
      some (d, (if rest = [] then some Error.EOF else none), rest) := by
  obtain ⟨hvn, hvs⟩ := plainValue_spec d.Type_ hT
  have etext : descriptorBlock d ++ rest =
      ((SpecialFieldPrefix ++ RecProperty) ++ FieldSeparator ++ d.Type_) ++
        '\n' :: (propertiesText d.SpecialFields ++ '\n' :: rest) := by
    simp [descriptorBlock, fieldLine]
  have hln : '\n' ∉ (SpecialFieldPrefix ++ RecProperty) ++ FieldSeparator ++ d.Type_ := by
    simp [FieldSeparator, SpecialFieldPrefix, RecProperty, hvn]
  have hlh : ((SpecialFieldPrefix ++ RecProperty) ++ FieldSeparator ++ d.Type_).head? ≠
      some '#' := by simp [SpecialFieldPrefix]
  have hcolon : ':' ∉ SpecialFieldPrefix ++ RecProperty := by
    simp [SpecialFieldPrefix, RecProperty]
  obtain ⟨hr1, hr2⟩ := propertiesText_head_ok d.SpecialFields rest
  have hcond : ((if propertiesText d.SpecialFields ++ '\n' :: rest = [] then some Error.EOF
        else none) = none ∨
      (if propertiesText d.SpecialFields ++ '\n' :: rest = [] then some Error.EOF else none) =
        some Error.EOF) ∧
      (SpecialFieldPrefix ++ RecProperty) ++ FieldSeparator ++ d.Type_ ≠ [] := by
    refine ⟨Or.inl (by simp), by simp [SpecialFieldPrefix]⟩
  have htrim : TrimPrefix (SpecialFieldPrefix ++ RecProperty) = RecProperty := by
    simp [TrimPrefix, SpecialFieldPrefix]
  have hv : ¬ (RecProperty ∈ properties ∧
      validateProperty urlParse { Name := RecProperty, Value := d.Type_ } ≠ none) := by
    intro hh
    exact hh.2 (validateProperty_known urlParse _ hh.1)
  rw [getRecordSetDescriptor, etext, getRecordSetDescriptorLoop,
    getLine_simple _ _ hln hlh hr1 hr2]
  simp only [if_pos hcond, Split_line _ d.Type_ hcolon hvs]
  simp only [List.length_cons, List.length_nil, ne_eq, not_true, if_false,
    List.getD_cons_zero, List.getD_cons_succ, htrim, if_true, if_neg hv]
  rw [descriptorLoop_properties urlParse d.SpecialFields rest hps h1 h2 _ _
    (by simp only [List.length_append, List.length_cons]; omega)]
  simp

/-! ## `getRecordSet` on well-formed text -/

theorem recordBlocks_head_ok (recs : List Record) (rest : Str)
    (hrecs : ∀ r ∈ recs, plainRecord r = true)
    (hrest : rest = [] ∨ rest.head? = some '%') :
    (recordBlocks recs ++ rest).head? ≠ some '#' ∧
      (recordBlocks recs ++ rest).head? ≠ some '+' := by
  cases recs with
  | nil =>
    rcases hrest with h | h
    · simp [recordBlocks, h]
    · simp [recordBlocks, h]
  | cons r recs =>
    obtain ⟨hne, hfs⟩ := plainRecord_spec r (hrecs r (List.mem_cons_self _ _))
    obtain ⟨c, t, e, hc⟩ :=
      fieldsText_head r.Fields (['\n'] ++ recordBlocks recs ++ rest) hfs hne
    have h := isLetter_ne c hc
    have e2 : recordBlocks (r :: recs) ++ rest = c :: t := by
      rw [← e]
      simp [recordBlocks]
    rw [e2]
    constructor
    · intro hh
      exact h.1 (by simpa using hh)
    · intro hh
      exact h.2.1 (by simpa using hh)

theorem recordsText_head_ok (recs : List Record)
    (hrecs : ∀ r ∈ recs, plainRecord r = true) :
    (recordsText recs).head? ≠ some '#' ∧ (recordsText recs).head? ≠ some '+' := by
  cases recs with
  | nil => simp [recordsText]
  | cons r recs =>
    obtain ⟨hne, hfs⟩ := plainRecord_spec r (hrecs r (List.mem_cons_self _ _))
    have key : ∃ tail, recordsText (r :: recs) = fieldsText r.Fields ++ tail := by
      cases recs with
      | nil => exact ⟨[], by simp [recordsText]⟩
      | cons r1 rest => exact ⟨['\n'] ++ recordsText (r1 :: rest), by simp [recordsText]⟩
    obtain ⟨tail, et⟩ := key
    obtain ⟨c, t, e, hc⟩ := fieldsText_head r.Fields tail hfs hne
    have h := isLetter_ne c hc
    rw [et, e]
    constructor
    · intro hh
      exact h.1 (by simpa using hh)
    · intro hh
      exact h.2.1 (by simpa using hh)

/-- One step of the loop of `getRecordSet` on a plain record followed by a blank
line. -/
theorem getRecordSetLoop_record (urlParse : Str → Bool) (r : Record) (rest : Str)
    (hr : plainRecord r = true)
    (h1 : rest.head? ≠ some '#') (h2 : rest.head? ≠ some '+')
    (n : Nat) (rs : RecordSet) :
    getRecordSetLoop urlParse (n + 1) rs (fieldsText r.Fields ++ '\n' :: rest) =
      if rest = [] then
        some ({ rs with Records := rs.Records ++ [r] }, some Error.EOF, [])
      else getRecordSetLoop urlParse n { rs with Records := rs.Records ++ [r] } rest := by
  obtain ⟨hne, hfs⟩ := plainRecord_spec r hr
  obtain ⟨c, t, e, hc⟩ := fieldsText_head r.Fields ('\n' :: rest) hfs hne
  have h := isLetter_ne c hc
  have hpeek : Peek (fieldsText r.Fields ++ '\n' :: rest) = ([c], none) := by
    rw [e]
    rfl
  have hpos : 0 < r.Fields.length := List.length_pos.mpr hne
  rw [getRecordSetLoop, hpeek, getRecord_block r rest hr h1 h2]
  have c1 : ¬ CommentPrefix = [c] := by
    simp only [CommentPrefix, List.cons.injEq, and_true]
    exact fun e => h.1 e.symm
  have c2 : ¬ SpecialFieldPrefix = [c] := by
    simp only [SpecialFieldPrefix, List.cons.injEq, and_true]
    exact fun e => h.2.2.1 e.symm
  simp only [if_neg c1, if_neg c2, if_pos hpos]
  by_cases h0 : rest = []
  · subst h0
    simp
  · simp [h0]

theorem getRecordSetLoop_blocks (urlParse : Str → Bool) (recs : List Record) (rest : Str)
    (hrecs : ∀ r ∈ recs, plainRecord r = true)
    (hrest : rest = [] ∨ rest.head? = some '%')
    (fuel : Nat) (rs : RecordSet) (hT : rs.Descriptor.Type_ ≠ [])
    (hf : (recordBlocks recs ++ rest).length < fuel) :
    getRecordSetLoop urlParse fuel rs (recordBlocks recs ++ rest) =
      some ({ rs with Records := rs.Records ++ recs },
        (if rest = [] then some Error.EOF else none), rest) := by
  induction recs generalizing fuel rs with
  | nil =>
    cases fuel with
    | zero => simp at hf
    | succ n =>
      simp only [recordBlocks, List.nil_append, List.append_nil]
      cases rest with
      | nil => simp [getRecordSetLoop, Peek]
      | cons c t =>
        have hc : c = '%' := by
          rcases hrest with h | h
          · simp at h
          · simpa using h
        subst hc
        have hT2 : DefaultRecordType ≠ rs.Descriptor.Type_ := fun e => hT e.symm
        rw [getRecordSetLoop]
        simp [Peek, CommentPrefix, SpecialFieldPrefix, hT2]
  | cons r recs ih =>
    have hrecs1 : ∀ x ∈ recs, plainRecord x = true :=
      fun x hx => hrecs x (List.mem_cons_of_mem _ hx)
    obtain ⟨hr1, hr2⟩ := recordBlocks_head_ok recs rest hrecs1 hrest
    have etext : recordBlocks (r :: recs) ++ rest =
        fieldsText r.Fields ++ '\n' :: (recordBlocks recs ++ rest) := by
      simp [recordBlocks]
    cases fuel with
    | zero => simp at hf
    | succ n =>
      rw [etext] at hf ⊢
      rw [getRecordSetLoop_record urlParse r _ (hrecs r (List.mem_cons_self _ _)) hr1 hr2]
      by_cases h0 : recordBlocks recs ++ rest = []
      · have hrest0 : rest = [] := (List.append_eq_nil.mp h0).2
        have hrecs0 : recs = [] := by
          cases recs with
          | nil => rfl
          | cons a as => simp [recordBlocks] at h0
        subst hrest0
        subst hrecs0
        simp [recordBlocks]
      · rw [if_neg h0, ih hrecs1 n { rs with Records := rs.Records ++ [r] } hT
          (by simp only [List.length_append, List.length_cons] at hf ⊢; omega)]
        simp

theorem getRecordSetLoop_saved (urlParse : Str → Bool) (recs : List Record)
    (hrecs : ∀ r ∈ recs, plainRecord r = true)
    (fuel : Nat) (rs : RecordSet) (hf : (recordsText recs).length < fuel) :
    getRecordSetLoop urlParse fuel rs (recordsText recs) =
      some ({ rs with Records := rs.Records ++ recs }, some Error.EOF, []) := by
  induction recs generalizing fuel rs with
  | nil =>
    cases fuel with
    | zero => simp at hf
    | succ n => simp [recordsText, getRecordSetLoop, Peek]
  | cons r recs ih =>
    have hrecs1 : ∀ x ∈ recs, plainRecord x = true :=
      fun x hx => hrecs x (List.mem_cons_of_mem _ hx)
    have hr := hrecs r (List.mem_cons_self _ _)
    obtain ⟨hne, hfs⟩ := plainRecord_spec r hr
    cases fuel with
    | zero => simp at hf
    | succ n =>
      cases recs with
      | nil =>
        obtain ⟨c, t, e, hc⟩ := fieldsText_head r.Fields [] hfs hne
        have h := isLetter_ne c hc
        have hpeek : Peek (fieldsText r.Fields) = ([c], none) := by
          rw [List.append_nil] at e
          rw [e]
          rfl
        have hpos : 0 < r.Fields.length := List.length_pos.mpr hne
        have c1 : ¬ CommentPrefix = [c] := by
          simp only [CommentPrefix, List.cons.injEq, and_true]
          exact fun e => h.1 e.symm
        have c2 : ¬ SpecialFieldPrefix = [c] := by
          simp only [SpecialFieldPrefix, List.cons.injEq, and_true]
          exact fun e => h.2.2.1 e.symm
        simp only [recordsText]
        rw [getRecordSetLoop, hpeek, getRecord_last r hr]
        simp [if_neg c1, if_neg c2, hpos]
      | cons r1 rest =>
        obtain ⟨hr1, hr2⟩ := recordsText_head_ok (r1 :: rest) hrecs1
        have etext : recordsText (r :: r1 :: rest) =
            fieldsText r.Fields ++ '\n' :: recordsText (r1 :: rest) := by
          simp [recordsText]
        have hne1 : recordsText (r1 :: rest) ≠ [] := by
          obtain ⟨hne1, hfs1⟩ := plainRecord_spec r1 (hrecs1 r1 (List.mem_cons_self _ _))
          cases rest with
          | nil =>
            obtain ⟨c, t, e, _⟩ := fieldsText_head r1.Fields [] hfs1 hne1
            simp only [recordsText]
            rw [List.append_nil] at e
            simp [e]
          | cons r2 rest2 => simp [recordsText]
        rw [etext] at hf ⊢
        rw [getRecordSetLoop_record urlParse r _ hr hr1 hr2, if_neg hne1,
          ih hrecs1 n _ (by simp only [List.length_append, List.length_cons] at hf ⊢; omega)]
        simp

theorem plainTypedSet_spec (set : RecordSet) (h : plainTypedSet set = true) :
    set.Descriptor.Type_ ≠ [] ∧ plainValue set.Descriptor.Type_ = true ∧
      plainProperties set.Descriptor.SpecialFields = true ∧
      ∀ r ∈ set.Records, plainRecord r = true := by
  simp only [plainTypedSet, Bool.and_eq_true, Bool.not_eq_true', List.isEmpty_eq_false,
    List.all_eq_true] at h
  exact ⟨h.1.1.1, h.1.1.2, h.1.2, h.2⟩

/-- One step of the loop of `getRecordSet` on a descriptor block, from the
record set that has neither a type nor a record. -/
theorem getRecordSetLoop_descriptor (urlParse : Str → Bool) (d : Descriptor) (rest : Str)
    (hT : plainValue d.Type_ = true) (hps : plainProperties d.SpecialFields = true)
    (h1 : rest.head? ≠ some '#') (h2 : rest.head? ≠ some '+') (n : Nat) :
    getRecordSetLoop urlParse (n + 1)
        { Descriptor := { Type_ := DefaultRecordType, SpecialFields := [] }, Records := [] }
        (descriptorBlock d ++ rest) =
      getRecordSetLoop urlParse n { Descriptor := d, Records := [] } rest := by
  have hpeek : Peek (descriptorBlock d ++ rest) = (['%'], none) := by
    simp [descriptorBlock, fieldLine, SpecialFieldPrefix, Peek]
  rw [getRecordSetLoop, hpeek, getRecordSetDescriptor_block urlParse d rest hT hps h1 h2]
  by_cases h0 : rest = []
  · simp [h0, CommentPrefix, SpecialFieldPrefix, DefaultRecordType]
  · simp [h0, CommentPrefix, SpecialFieldPrefix, DefaultRecordType]

theorem descriptorBlock_length (d : Descriptor) : 0 < (descriptorBlock d).length := by
  simp [descriptorBlock, fieldLine]

theorem getRecordSet_block (urlParse : Str → Bool) (set : RecordSet) (rest : Str)
    (hset : plainTypedSet set = true) (hrest : rest = [] ∨ rest.head? = some '%') :
    getRecordSet urlParse (descriptorBlock set.Descriptor ++ recordBlocks set.Records ++ rest) =
      some (set, (if rest = [] then some Error.EOF else none), rest) := by
  obtain ⟨hT0, hT, hps, hrecs⟩ := plainTypedSet_spec set hset
  obtain ⟨h1, h2⟩ := recordBlocks_head_ok set.Records rest hrecs hrest
  have hlen := descriptorBlock_length set.Descriptor
  rw [getRecordSet, List.append_assoc,
    getRecordSetLoop_descriptor urlParse set.Descriptor _ hT hps h1 h2,
    getRecordSetLoop_blocks urlParse set.Records rest hrecs hrest _
      { Descriptor := set.Descriptor, Records := [] } hT0
      (by simp only [List.length_append] at hlen ⊢; omega)]
  simp

theorem getRecordSet_saved (urlParse : Str → Bool) (set : RecordSet)
    (hset : plainTypedSet set = true) :
    getRecordSet urlParse (descriptorBlock set.Descriptor ++ recordsText set.Records) =
      some (set, some Error.EOF, []) := by
  obtain ⟨_, hT, hps, hrecs⟩ := plainTypedSet_spec set hset
  obtain ⟨h1, h2⟩ := recordsText_head_ok set.Records hrecs
  have hlen := descriptorBlock_length set.Descriptor
  rw [getRecordSet, getRecordSetLoop_descriptor urlParse set.Descriptor _ hT hps h1 h2,
    getRecordSetLoop_saved urlParse set.Records hrecs _ _
      (by simp only [List.length_append] at hlen ⊢; omega)]
  simp

theorem getRecordSet_untyped (urlParse : Str → Bool) (recs : List Record)
    (hrecs : ∀ r ∈ recs, plainRecord r = true) :
    getRecordSet urlParse (recordsText recs) =
      some ({ Descriptor := { Type_ := [], SpecialFields := [] }, Records := recs },
        some Error.EOF, []) := by
  rw [getRecordSet, getRecordSetLoop_saved urlParse recs hrecs _ _ (Nat.lt_succ_self _)]
  simp [DefaultRecordType]

theorem getRecordSet_nil (urlParse : Str → Bool) :
    getRecordSet urlParse [] =
      some ({ Descriptor := { Type_ := [], SpecialFields := [] }, Records := [] },
        some Error.EOF, []) := by
  rfl

/-! ## `getDatabase` on well-formed text -/

theorem databaseText_head (sets : List RecordSet) :
    (sets = [] ∧ databaseText sets = []) ∨
      (databaseText sets ≠ [] ∧ (databaseText sets).head? = some '%') := by
  cases sets with
  | nil => exact Or.inl ⟨rfl, rfl⟩
  | cons set rest =>
    refine Or.inr ?_
    simp [databaseText, descriptorBlock, fieldLine, SpecialFieldPrefix]

theorem getDatabaseLoop_text (urlParse : Str → Bool) (sets : List RecordSet)
    (hsets : ∀ set ∈ sets, plainTypedSet set = true)
    (fuel : Nat) (db : Database) (hf : (databaseText sets).length < fuel) :
    getDatabaseLoop urlParse fuel db (databaseText sets) =
      some ({ RecordSets := db.RecordSets ++ sets }, some Error.EOF, []) := by
  induction sets generalizing fuel db with
  | nil =>
    cases fuel with
    | zero => simp at hf
    | succ n =>
      simp only [databaseText]
      rw [getDatabaseLoop, getRecordSet_nil]
      simp [DefaultRecordType]
  | cons set rest ih =>
    have hrest : ∀ x ∈ rest, plainTypedSet x = true :=
      fun x hx => hsets x (List.mem_cons_of_mem _ hx)
    have hset := hsets set (List.mem_cons_self _ _)
    have hT0 := (plainTypedSet_spec set hset).1
    have hT1 : DefaultRecordType ≠ set.Descriptor.Type_ := fun e => hT0 e.symm
    have hlen := descriptorBlock_length set.Descriptor
    cases fuel with
    | zero => simp at hf
    | succ n =>
      simp only [databaseText] at hf ⊢
      rcases databaseText_head rest with ⟨h0, h1⟩ | ⟨h0, h1⟩
      · rw [getDatabaseLoop, h1, getRecordSet_block urlParse set [] hset (Or.inl rfl)]
        simp [hT1, h0]
      · rw [getDatabaseLoop, getRecordSet_block urlParse set _ hset (Or.inr h1)]
        simp only [if_neg h0, hT1, ne_eq, not_false_eq_true, or_true, if_true, not_true,
          if_false]
        rw [ih hrest n _ (by simp only [List.length_append] at hf hlen ⊢; omega)]
        simp

theorem typedChain_cons (set set1 : RecordSet) (rest : List RecordSet)
    (h : typedChain (set :: set1 :: rest) = true) :
    plainTypedSet set = true ∧ set.Records = [] ∧ typedChain (set1 :: rest) = true := by
  simp only [typedChain, Bool.and_eq_true, List.isEmpty_iff] at h
  exact ⟨h.1.1, h.1.2, h.2⟩

theorem typedChain_head (set : RecordSet) (rest : List RecordSet)
    (h : typedChain (set :: rest) = true) : plainTypedSet set = true := by
  cases rest with
  | nil => simpa [typedChain] using h
  | cons set1 rest1 => exact (typedChain_cons set set1 rest1 h).1

theorem descriptorText_typed (set : RecordSet) (h : plainTypedSet set = true) :
    descriptorText set.Descriptor = descriptorBlock set.Descriptor := by
  simp [descriptorText, (plainTypedSet_spec set h).1]

theorem setsText_head (set : RecordSet) (rest : List RecordSet)
    (h : typedChain (set :: rest) = true) :
    setsText (set :: rest) ≠ [] ∧ (setsText (set :: rest)).head? = some '%' := by
  have hset := typedChain_head set rest h
  simp [setsText, descriptorText_typed set hset, descriptorBlock, fieldLine, SpecialFieldPrefix]

theorem getDatabaseLoop_saved (urlParse : Str → Bool) (sets : List RecordSet)
    (hsets : typedChain sets = true)
    (fuel : Nat) (db : Database) (hf : (setsText sets).length < fuel) :
    getDatabaseLoop urlParse fuel db (setsText sets) =
      some ({ RecordSets := db.RecordSets ++ sets }, some Error.EOF, []) := by
  induction sets generalizing fuel db with
  | nil =>
    cases fuel with
    | zero => simp at hf
    | succ n =>
      simp only [setsText]
      rw [getDatabaseLoop, getRecordSet_nil]
      simp [DefaultRecordType]
  | cons set rest ih =>
    have hset := typedChain_head set rest hsets
    have hT0 := (plainTypedSet_spec set hset).1
    have hT1 : DefaultRecordType ≠ set.Descriptor.Type_ := fun e => hT0 e.symm
    have hlen := descriptorBlock_length set.Descriptor
    cases fuel with
    | zero => simp at hf
    | succ n =>
      cases rest with
      | nil =>
        simp only [setsText, List.append_nil, descriptorText_typed set hset]
        rw [getDatabaseLoop, getRecordSet_saved urlParse set hset]
        simp [hT1]
      | cons set1 rest1 =>
        obtain ⟨_, hrecs, hchain⟩ := typedChain_cons set set1 rest1 hsets
        obtain ⟨h0, h1⟩ := setsText_head set1 rest1 hchain
        have hb := getRecordSet_block urlParse set (setsText (set1 :: rest1)) hset (Or.inr h1)
        rw [hrecs] at hb
        simp only [recordBlocks, List.append_nil] at hb
        have etext : setsText (set :: set1 :: rest1) =
            descriptorBlock set.Descriptor ++ setsText (set1 :: rest1) := by
          rw [setsText, descriptorText_typed set hset, hrecs]
          simp [recordsText]
        rw [etext] at hf ⊢
        rw [getDatabaseLoop, hb]
        simp only [if_neg h0, hT1, ne_eq, not_false_eq_true, or_true, if_true, not_true,
          if_false]
        rw [ih hchain n _ (by simp only [List.length_append] at hf hlen ⊢; omega)]
        simp

theorem getRecordSetLoop_descriptor_error (urlParse : Str → Bool) (s s1 : Str)
    (d : Descriptor) (e : Error) (hs : s.head? = some '%') (he : e ≠ Error.EOF)
    (hd : getRecordSetDescriptor urlParse s = some (d, some e, s1))
    (n : Nat) (rs : RecordSet) (h1 : rs.Records = []) (h2 : rs.Descriptor.Type_ = []) :
    getRecordSetLoop urlParse (n + 1) rs s = some (rs, some e, s1) := by
  cases s with
  | nil => simp at hs
  | cons c t =>
    have hc : c = '%' := by simpa using hs
    subst hc
    rw [getRecordSetLoop]
    simp [Peek, CommentPrefix, SpecialFieldPrefix, DefaultRecordType, h1, h2, hd, he]

theorem Load_descriptor_error (urlParse : Str → Bool) (s s1 : Str)
    (d : Descriptor) (e : Error) (hs : s.head? = some '%') (he : e ≠ Error.EOF)
    (hd : getRecordSetDescriptor urlParse s = some (d, some e, s1)) :
    Load urlParse s = some ({ RecordSets := [] }, some e) := by
  have h := getRecordSetLoop_descriptor_error urlParse s s1 d e hs he hd s.length
    { Descriptor := { Type_ := DefaultRecordType, SpecialFields := [] }, Records := [] }
    rfl rfl
  rw [Load, getDatabase, getDatabaseLoop, getRecordSet, h]
  simp [DefaultRecordType, he]

/-- C6 (the code departs from it): the input `%rec: ` followed by a property
and a record is loaded without error into a record set whose type is empty and
whose properties are not, and `Save` of the loaded database fails with the
invalid-descriptor error. -/
theorem Load_untyped_with_properties (urlParse : Str → Bool) :
    Load urlParse untypedText = some (untypedDatabase, none) ∧
      badDescriptor untypedSet ∧
      (Save untypedDatabase).1 = some (Error.New "Invalid record set descriptor") := by
  refine ⟨rfl, ?_, ?_⟩
  · simp [untypedSet, badDescriptor]
  · decide

/-- C8 (the code departs from it): the name `1a` does not match the field-name
grammar, and the line `1a: b` is loaded without error as a field named `1a`. -/
theorem Load_accepts_invalid_field_name (urlParse : Str → Bool) :
    fullMatch ValidFieldNameFirst "1a".toList = false ∧
      Load urlParse "1a: b\n".toList = some (singleField "1a" "b", none) := by
  constructor
  · decide
  · rfl

/-- C9 (the code departs from it): a descriptor with `%rec: T` and `%size: abc`
is loaded without error, the property `size` keeping the value `abc`. -/
theorem Load_accepts_size_abc (urlParse : Str → Bool) :
    Load urlParse "%rec: T\n%size: abc\n".toList = some (sizeDatabase, none) := by
  rfl

/-- C10: a raw line `L` that is neither empty nor a comment, followed by
continuation lines `+C` (comment lines allowed before each of them and after the
last) and then by a line that starts with neither `+` nor `#`, is returned by
`getLine` as `L` followed by the texts `C` in order, without error and with the
unread input at that last line; and the lines `Title: Foo`, `+Bar` load as the
single field `Title` with the value `FooBar`. -/
theorem getLine_joins_continuations (urlParse : Str → Bool) (L : Str)
    (conts : List (List Str × Str)) (trailing : List Str) (c : Char) (r : Str)
    (hL : L ≠ []) (hLn : '\n' ∉ L) (hLc : L.head? ≠ some '#')
    (hc : ∀ p ∈ conts, '\n' ∉ p.2 ∧ ∀ t ∈ p.1, '\n' ∉ t) (ht : ∀ t ∈ trailing, '\n' ∉ t)
    (h1 : c ≠ '+') (h2 : c ≠ '#') :
    getLine (L ++ ['\n'] ++ continuationLines conts ++ commentLines trailing ++ c :: r) =
        some (L ++ joinedText conts, none, c :: r) ∧
      Load urlParse "Title: Foo\n+Bar\n".toList = some (singleField "Title" "FooBar", none) := by
  refine ⟨?_, rfl⟩
  have e : L ++ ['\n'] ++ continuationLines conts ++ commentLines trailing ++ c :: r =
      L ++ '\n' :: (continuationLines conts ++ (commentLines trailing ++ c :: r)) := by simp
  have hp : HasPrefix (L ++ ['\n']) CommentPrefix = false := by
    cases L with
    | nil => exact absurd rfl hL
    | cons a as =>
      have : ¬ '#' = a := fun e => hLc (by simp [e.symm])
      simp [HasPrefix, CommentPrefix, List.isPrefixOf, this]
  rw [e, getLine, getLineSkip, ReadString_line L _ hLn]
  simp only [hp, Bool.false_eq_true, and_false, if_false, Replace1_line L hLn]
  exact getLineWrap_join conts trailing L (c :: r) c r _ hL hc ht rfl h1 h2 (Nat.lt_succ_self _)

theorem getLine_joins_continuations_witness :
    getLine ("Title: Foo".toList ++ ['\n'] ++
        continuationLines [([], "Bar".toList), (["note".toList], "Baz".toList)] ++
        commentLines ["end".toList] ++ 'x' :: ": y\n".toList) =
        some ("Title: Foo".toList ++
          joinedText [([], "Bar".toList), (["note".toList], "Baz".toList)], none,
          'x' :: ": y\n".toList) ∧
      Load U0 "Title: Foo\n+Bar\n".toList = some (singleField "Title" "FooBar", none) :=
  getLine_joins_continuations U0 "Title: Foo".toList
    [([], "Bar".toList), (["note".toList], "Baz".toList)] ["end".toList] 'x' ": y\n".toList
    (by decide) (by decide) (by decide) (by decide) (by decide) (by decide) (by decide)

/-! ## Round trips -/

theorem typedChain_all (sets : List RecordSet) (h : typedChain sets = true) :
    ∀ set ∈ sets, plainTypedSet set = true := by
  induction sets with
  | nil => simp
  | cons set rest ih =>
    intro x hx
    rcases List.mem_cons.mp hx with hx | hx
    · rw [hx]
      exact typedChain_head set rest h
    · cases rest with
      | nil => simp at hx
      | cons set1 rest1 => exact ih (typedChain_cons set set1 rest1 h).2.2 x hx

theorem roundTripShape_good (sets : List RecordSet) (h : roundTripShape sets = true) :
    ∀ set ∈ sets, ¬ badDescriptor set := by
  simp only [roundTripShape, Bool.or_eq_true] at h
  rcases h with h | h
  · intro set hset hbad
    exact (plainTypedSet_spec set (typedChain_all sets h set hset)).1 hbad.1
  · match sets, h with
    | [set], h =>
      intro x hx hbad
      simp only [List.mem_singleton] at hx
      subst hx
      simp only [plainUntypedSet, Bool.and_eq_true, List.isEmpty_iff] at h
      exact hbad.2 h.1.1.2

theorem Load_setsText (urlParse : Str → Bool) (sets : List RecordSet)
    (h : roundTripShape sets = true) :
    Load urlParse (setsText sets) = some ({ RecordSets := sets }, none) := by
  simp only [roundTripShape, Bool.or_eq_true] at h
  rcases h with h | h
  · rw [Load, getDatabase,
      getDatabaseLoop_saved urlParse sets h _ { RecordSets := [] } (Nat.lt_succ_self _)]
    simp
  · match sets, h with
    | [rs], h =>
      simp only [plainUntypedSet, Bool.and_eq_true, List.isEmpty_iff, Bool.not_eq_true',
        List.isEmpty_eq_false, List.all_eq_true] at h
      obtain ⟨⟨⟨hT, hS⟩, hne⟩, hrecs⟩ := h
      have hpos : 0 < rs.Records.length := List.length_pos.mpr hne
      have hset : rs = RecordSet.mk (Descriptor.mk [] []) rs.Records := by
        cases rs with
        | mk d recs =>
          cases d with
          | mk t sf =>
            simp only at hT hS
            subst hT
            subst hS
            rfl
      have etext : setsText [rs] = recordsText rs.Records := by
        simp [setsText, descriptorText, hT]
      rw [etext, Load, getDatabase, getDatabaseLoop,
        getRecordSet_untyped urlParse rs.Records hrecs]
      simp only [hpos, true_or, if_true, ne_eq, reduceCtorEq, not_false_eq_true]
      rw [← hset]
      simp

/-- C1 (as the specification states it, refuted): four databases without empty
record, without a record set that has properties and no type, and without a
newline in a value, for which `Load` of the bytes written by `Save` is not the
database: a value with the separator gives "Found invalid field"; of two typed
record sets with records, the descriptor line of the second is read as a field
of the first; a record set without type and records is not read back; a name
without a letter gives "Found invalid field name". -/
theorem Save_Load_not_identity :
    (specRoundTripInput (singleField "a" "b: c") = true ∧
      Load U0 (Save (singleField "a" "b: c")).2 =
        some ({ RecordSets := [] }, some (Error.New "Found invalid field"))) ∧
    (specRoundTripInput twoSetsDatabase = true ∧
      Load U0 (Save twoSetsDatabase).2 = some (mergedDatabase, none) ∧
      mergedDatabase ≠ twoSetsDatabase) ∧
    (specRoundTripInput emptySetDatabase = true ∧
      Load U0 (Save emptySetDatabase).2 = some ({ RecordSets := [] }, none) ∧
      emptySetDatabase ≠ { RecordSets := [] }) ∧
    (specRoundTripInput (singleField "1" "x") = true ∧
      Load U0 (Save (singleField "1" "x")).2 =
        some ({ RecordSets := [] }, some (Error.New "Found invalid field name"))) := by
  refine ⟨⟨by decide, by decide⟩, ⟨by decide, by decide, by decide⟩,
    ⟨by decide, by decide, by decide⟩, ⟨by decide, by decide⟩⟩

/-- C1 (amended): for a database of plain typed record sets of which only the
last has records, or of a single plain untyped record set with at least one
record (plain: every record has a field, names fully match
`[a-zA-Z][a-zA-Z0-9_]*`, no property is named `rec`, and no type or value has a
newline or the separator), `Save` returns no error and `Load` of the bytes it
writes returns no error and the same database. -/
theorem Save_Load_roundtrip (urlParse : Str → Bool) (db : Database)
    (h : roundTripShape db.RecordSets = true) :
    (Save db).1 = none ∧ Load urlParse (Save db).2 = some (db, none) := by
  have hs : Save db = (none, setsText db.RecordSets) := by
    simpa [Save] using SaveLoop_good db.RecordSets [] (roundTripShape_good db.RecordSets h)
  rw [hs]
  exact ⟨rfl, Load_setsText urlParse db.RecordSets h⟩

theorem Save_Load_roundtrip_witness :
    roundTripShape chainDatabase.RecordSets = true ∧
      (Save chainDatabase).1 = none ∧
      Load U0 (Save chainDatabase).2 = some (chainDatabase, none) :=
  ⟨by decide, Save_Load_roundtrip U0 chainDatabase (by decide)⟩

/-- C2: for a database in which every record set has a non-empty type, every
record has a field, names fully match `[a-zA-Z][a-zA-Z0-9_]*`, no property is
named `rec`, and no type or value has a newline or the separator, `Load` of the
text made per record set of the line `%rec: <Type>`, the property lines, a blank
line and each record followed by a blank line returns no error and exactly that
database. -/
theorem Load_databaseText (urlParse : Str → Bool) (db : Database)
    (h : ∀ set ∈ db.RecordSets, plainTypedSet set = true) :
    Load urlParse (databaseText db.RecordSets) = some (db, none) := by
  rw [Load, getDatabase,
    getDatabaseLoop_text urlParse db.RecordSets h _ { RecordSets := [] } (Nat.lt_succ_self _)]
  simp

theorem Load_databaseText_witness :
    (∀ set ∈ libraryDatabase.RecordSets, plainTypedSet set = true) ∧
      Load U0 (databaseText libraryDatabase.RecordSets) = some (libraryDatabase, none) :=
  ⟨by decide, Load_databaseText U0 libraryDatabase (by decide)⟩

/-! ## Continuation markers at the edges of the input -/

/-- C11 (the code departs from it): the input whose first line is `+a: b` is
loaded without error as the field named `+a`; a bare `+continued` is rejected
only because the line has no separator, and the same line `+a: b` after an
empty line gives "Found invalid line wrap marker". -/
theorem Load_accepts_leading_continuation (urlParse : Str → Bool) :
    Load urlParse "+a: b\n".toList = some (singleField "+a" "b", none) ∧
      Load urlParse "+continued\n".toList =
        some ({ RecordSets := [] }, some (Error.New "Found invalid field")) ∧
      Load urlParse "\n+a: b\n".toList =
        some ({ RecordSets := [] }, some (Error.New "Found invalid line wrap marker")) := by
  refine ⟨rfl, rfl, rfl⟩

/-- C13 (the code departs from it): a final continuation line without its
newline is dropped, `a: b` then `+c` loading as the value `b`, while with the
newline the value is `bc`. -/
theorem Load_drops_final_continuation (urlParse : Str → Bool) :
    Load urlParse "a: b\n+c".toList = some (singleField "a" "b", none) ∧
      Load urlParse "a: b\n+c\n".toList = some (singleField "a" "bc", none) := by
  refine ⟨rfl, rfl⟩

/-! ## `validateProperty` -/

/-- C17: on a property named `%size`, `validateProperty` returns an error
exactly when the value has no token, or more than two, or its last token is not
accepted by `Atoi`, or it has two tokens of which the first is a relational
operator; so `10` and `x 10` pass and the empty value, `abc`, `< 10` and
`1 2 3` do not. -/
theorem validateProperty_size (urlParse : Str → Bool) (v : Str) :
    (validateProperty urlParse { Name := SpecialFieldPrefix ++ SizeProperty, Value := v } ≠ none ↔
      ((Fields v).length = 0 ∨ 2 < (Fields v).length ∨
        Atoi ((Fields v).getD ((Fields v).length - 1) []) = none ∨
        ((Fields v).length = 2 ∧ (Fields v).getD 0 [] ∈ relationalOperators))) ∧
    validateProperty urlParse { Name := "%size".toList, Value := "10".toList } = none ∧
    validateProperty urlParse { Name := "%size".toList, Value := "x 10".toList } = none ∧
    validateProperty urlParse { Name := "%size".toList, Value := [] } =
      some (Error.New "No property value found") ∧
    validateProperty urlParse { Name := "%size".toList, Value := "abc".toList } =
      some Error.Atoi ∧
    validateProperty urlParse { Name := "%size".toList, Value := "< 10".toList } =
      some (Error.New "Found invalid relational operator") ∧
    validateProperty urlParse { Name := "%size".toList, Value := "1 2 3".toList } =
      some (Error.New "Too many arguments found") := by
  refine ⟨?_, rfl, rfl, rfl, rfl, rfl, rfl⟩
  simp only [validateProperty, SpecialFieldPrefix, SizeProperty, RecProperty, MandatoryProperty,
    AllowedProperty, ProhibitProperty, UniqueProperty, KeyProperty, DocProperty,
    TypedefProperty, TypeProperty, AutoProperty, SortProperty]
  simp only [List.cons_append, List.nil_append, List.cons.injEq, Char.reduceEq, and_false,
    and_true, false_and, if_false, if_true, and_self]
  split_ifs with h1 h2 h3 h4
  · simp only [ne_eq, reduceCtorEq, not_false_eq_true, true_iff]
    exact Or.inl h1
  · simp only [ne_eq, reduceCtorEq, not_false_eq_true, true_iff]
    exact Or.inr (Or.inl h2)
  · simp only [ne_eq, reduceCtorEq, not_false_eq_true, true_iff]
    exact Or.inr (Or.inr (Or.inl h3))
  · simp only [ne_eq, reduceCtorEq, not_false_eq_true, true_iff]
    exact Or.inr (Or.inr (Or.inr h4))
  · simp only [ne_eq, not_true, false_iff, not_or]
    exact ⟨h1, h2, h3, h4⟩

theorem validateProperty_plain_name (urlParse : Str → Bool) (p : Property)
    (h : p.Name.head? ≠ some '%') : validateProperty urlParse p = none := by
  have key : ∀ x : Str, p.Name ≠ SpecialFieldPrefix ++ x := by
    intro x e
    apply h
    rw [e]
    rfl
  simp [validateProperty, key]

theorem descriptorLoop_urlParse (urlParse urlParse1 : Str → Bool) (n : Nat)
    (record : Descriptor) (flag : Bool) (s : Str) :
    getRecordSetDescriptorLoop urlParse n record flag s =
      getRecordSetDescriptorLoop urlParse1 n record flag s := by
  induction n generalizing record flag s with
  | zero => rfl
  | succ n ih =>
    rw [getRecordSetDescriptorLoop, getRecordSetDescriptorLoop]
    cases getLine s with
    | none => rfl
    | some r =>
      obtain ⟨line, err, s1⟩ := r
      have hv : ∀ u : Str → Bool, ¬ (TrimPrefix ((Split line).getD 0 []) ∈ properties ∧
          validateProperty u
            { Name := TrimPrefix ((Split line).getD 0 []), Value := (Split line).getD 1 [] }
            ≠ none) := by
        intro u hh
        exact hh.2 (validateProperty_known u _ hh.1)
      simp only [if_neg (hv urlParse), if_neg (hv urlParse1), ih]

/-- C19: `validateProperty` returns no error on a property whose name does not
begin with `%`, whatever the value, in particular on each of the fourteen known
names; so the validation guard of `getRecordSetDescriptor` is never taken on any
line, and what `getRecordSetDescriptor` returns does not depend on `url.Parse`. -/
theorem validateProperty_unprefixed (urlParse urlParse1 : Str → Bool) (p : Property)
    (line s : Str) (h : p.Name.head? ≠ some '%') :
    validateProperty urlParse p = none ∧
      (∀ name ∈ properties, ∀ v, validateProperty urlParse { Name := name, Value := v } = none) ∧
      ¬ (TrimPrefix ((Split line).getD 0 []) ∈ properties ∧
          validateProperty urlParse
            { Name := TrimPrefix ((Split line).getD 0 []), Value := (Split line).getD 1 [] }
            ≠ none) ∧
      getRecordSetDescriptor urlParse s = getRecordSetDescriptor urlParse1 s := by
  refine ⟨validateProperty_plain_name urlParse p h, ?_, ?_, ?_⟩
  · intro name hn v
    exact validateProperty_known urlParse _ hn
  · intro hh
    exact hh.2 (validateProperty_known urlParse _ hh.1)
  · rw [getRecordSetDescriptor, getRecordSetDescriptor,
      descriptorLoop_urlParse urlParse urlParse1]

theorem validateProperty_unprefixed_witness :
    ({ Name := "size".toList, Value := "abc".toList } : Property).Name.head? ≠ some '%' ∧
      validateProperty U0 { Name := "size".toList, Value := "abc".toList } = none ∧
      (∀ name ∈ properties, ∀ v, validateProperty U0 { Name := name, Value := v } = none) ∧
      ¬ (TrimPrefix ((Split "%size: abc".toList).getD 0 []) ∈ properties ∧
          validateProperty U0
            { Name := TrimPrefix ((Split "%size: abc".toList).getD 0 []),
              Value := (Split "%size: abc".toList).getD 1 [] } ≠ none) ∧
      getRecordSetDescriptor U0 "%rec: T\n%size: abc\n".toList =
        getRecordSetDescriptor (fun _ => false) "%rec: T\n%size: abc\n".toList :=
  ⟨by decide,
   validateProperty_unprefixed U0 (fun _ => false)
     { Name := "size".toList, Value := "abc".toList } "%size: abc".toList
     "%rec: T\n%size: abc\n".toList (by decide)⟩

/-! ## Round trip of a single record set -/

/-- C18: for a database of exactly one record set that is a plain typed set, or
a plain untyped set without properties and with at least one record, `Save`
returns no error and `Load` of the bytes it writes returns no error and the same
database. -/
theorem Save_Load_single_set (urlParse : Str → Bool) (db : Database) (rs : RecordSet)
    (hdb : db.RecordSets = [rs])
    (h : plainTypedSet rs = true ∨ plainUntypedSet rs = true) :
    (Save db).1 = none ∧ Load urlParse (Save db).2 = some (db, none) := by
  have hshape : roundTripShape db.RecordSets = true := by
    rw [hdb]
    rcases h with h | h <;> simp [roundTripShape, typedChain, h]
  have hs : Save db = (none, setsText db.RecordSets) := by
    simpa [Save] using SaveLoop_good db.RecordSets [] (roundTripShape_good db.RecordSets hshape)
  rw [hs]
  exact ⟨rfl, Load_setsText urlParse db.RecordSets hshape⟩

theorem Save_Load_single_set_witness :
    bookDatabase.RecordSets = [typedBookSet] ∧
      (plainTypedSet typedBookSet = true ∨ plainUntypedSet typedBookSet = true) ∧
      (Save bookDatabase).1 = none ∧
      Load U0 (Save bookDatabase).2 = some (bookDatabase, none) :=
  ⟨by decide, by decide,
   Save_Load_single_set U0 bookDatabase typedBookSet (by decide) (by decide)⟩

/-! ## The shape of a field line -/

theorem Split_ne_nil (l : Str) : Split l ≠ [] := by
  induction l using Split.induct with
  | case1 => simp [Split]
  | case2 c => simp [Split]
  | case3 c d rest hcd ih => simp [Split, hcd]
  | case4 c d rest hcd ih =>
    rw [Split, if_neg hcd]
    cases h : Split (d :: rest) with
    | nil => exact absurd h ih
    | cons a as => simp [consHead]

theorem consHead_length (c : Char) (L : List Str) (h : L ≠ []) :
    (consHead c L).length = L.length := by
  cases L with
  | nil => exact absurd rfl h
  | cons a as => rfl

theorem countSeparator_space (rest : Str) :
    countSeparator (' ' :: rest) = countSeparator rest := by
  cases rest with
  | nil => rfl
  | cons e r => simp [countSeparator]

theorem Split_length (l : Str) : (Split l).length = countSeparator l + 1 := by
  induction l using Split.induct with
  | case1 => rfl
  | case2 c => rfl
  | case3 c d rest hcd ih =>
    rw [Split, if_pos hcd, countSeparator, if_pos hcd, hcd.2, countSeparator_space,
      List.length_cons, ih]
    omega
  | case4 c d rest hcd ih =>
    rw [Split, if_neg hcd, countSeparator, if_neg hcd, consHead_length _ _ (Split_ne_nil _), ih]
    omega

theorem countSeparator_name (name v : Str) (h : ':' ∉ name) :
    countSeparator (name ++ ':' :: ' ' :: v) = countSeparator v + 1 := by
  induction name with
  | nil =>
    simp only [List.nil_append]
    rw [countSeparator, countSeparator_space]
    simp
    omega
  | cons c cs ih =>
    have hc : c ≠ ':' := fun e => h (by simp [e])
    have hcs : ':' ∉ cs := fun e => h (List.mem_cons_of_mem _ e)
    have ih1 := ih hcs
    cases cs with
    | nil =>
      simp only [List.nil_append] at ih1
      simp only [List.cons_append, List.nil_append]
      rw [countSeparator, if_neg (fun hh => hc hh.1), ih1]
      omega
    | cons d ds =>
      simp only [List.cons_append] at ih1 ⊢
      rw [countSeparator, if_neg (fun hh => hc hh.1), ih1]
      omega

theorem containsSeparator_of_count (v : Str) (h : countSeparator v = 0) :
    containsSeparator v = false := by
  induction v using Split.induct with
  | case1 => rfl
  | case2 c => rfl
  | case3 c d rest hcd ih =>
    rw [countSeparator, if_pos hcd] at h
    omega
  | case4 c d rest hcd ih =>
    rw [countSeparator, if_neg hcd] at h
    have h2 : countSeparator (d :: rest) = 0 := by omega
    have hb : (decide (c = ':') && decide (d = ' ')) = false := by
      simp only [Bool.and_eq_false_iff, decide_eq_false_iff_not]
      exact not_and_or.mp hcd
    simp only [containsSeparator, hb, ih h2, Bool.or_self]

theorem fullMatch_field_spec (name : Str) (h : fullMatch ValidFieldNameFirst name = true) :
    ':' ∉ name ∧ MatchString ValidFieldNameFirst name = true := by
  cases name with
  | nil => simp [fullMatch] at h
  | cons c cs =>
    simp only [fullMatch, Bool.and_eq_true, List.all_eq_true] at h
    obtain ⟨hc, hcs⟩ := h
    constructor
    · intro hm
      rcases List.mem_cons.mp hm with hm | hm
      · subst hm
        revert hc
        decide
      · exact (isWord_ne _ (hcs _ hm)).1 rfl
    · simp [MatchString, hc]

/-- An error of `getRecord` ends the loop of `getRecordSet` with that error. -/
theorem getRecordSetLoop_record_error (urlParse : Str → Bool) (c : Char) (t s1 : Str)
    (record : Record) (e : Error) (h1 : c ≠ '#') (h2 : c ≠ '%')
    (hr : getRecord (c :: t) = some (record, some e, s1)) (n : Nat) (rs : RecordSet) :
    getRecordSetLoop urlParse (n + 1) rs (c :: t) =
      some ((if 0 < record.Fields.length then
          { rs with Records := rs.Records ++ [record] } else rs), some e, s1) := by
  have c1 : ¬ CommentPrefix = [c] := by
    simp only [CommentPrefix, List.cons.injEq, and_true]
    exact fun e => h1 e.symm
  have c2 : ¬ SpecialFieldPrefix = [c] := by
    simp only [SpecialFieldPrefix, List.cons.injEq, and_true]
    exact fun e => h2 e.symm
  rw [getRecordSetLoop]
  simp only [Peek, if_neg c1, if_neg c2, hr]
  simp

/-- An error of `getRecordSet` other than `io.EOF` is the error of `Load`. -/
theorem Load_recordSet_error (urlParse : Str → Bool) (s s1 : Str) (rs : RecordSet)
    (e : Error) (he : e ≠ Error.EOF)
    (hr : getRecordSet urlParse s = some (rs, some e, s1)) :
    Load urlParse s =
      some ((if 0 < rs.Records.length ∨ DefaultRecordType ≠ rs.Descriptor.Type_ then
          { RecordSets := [rs] } else { RecordSets := [] }), some e) := by
  rw [Load, getDatabase, getDatabaseLoop, hr]
  simp [he]

/-! ## Blank regions -/

theorem getLineWrap_blank (fin : Option Str) (hfin : ∀ t, fin = some t → '\n' ∉ t)
    (ls : List (Option Str)) (hls : ∀ t, some t ∈ ls → '\n' ∉ t) (fuel : Nat)
    (hf : (blankText fin ls).length < fuel) :
    getLineWrap fuel [] (blankText fin ls) =
      some ([], (afterComments fin ls).1, (afterComments fin ls).2) := by
  induction ls generalizing fuel with
  | nil =>
    cases fuel with
    | zero => simp at hf
    | succ n =>
      cases fin with
      | none => simp [blankText, finalComment, afterComments, getLineWrap, Peek]
      | some t =>
        have ht : '\n' ∉ '#' :: t := by simp [hfin t rfl]
        simp only [blankText, finalComment, afterComments]
        rw [getLineWrap]
        simp [Peek, HasPrefix, CommentPrefix, ReadString_last _ ht]
  | cons l rest ih =>
    have hrest : ∀ t, some t ∈ rest → '\n' ∉ t := fun t ht => hls t (List.mem_cons_of_mem _ ht)
    cases l with
    | none =>
      simp only [blankText, afterComments]
      exact getLineWrap_stop [] _ '\n' _ fuel rfl (by decide) (by decide) hf
    | some t =>
      simp only [blankText, afterComments] at hf ⊢
      apply getLineWrap_comment [] t _ _ fuel (hls t (List.mem_cons_self _ _)) hf
      intro fuel1 hf1
      exact ih hrest fuel1 hf1

theorem afterComments_spec (fin : Option Str) (ls : List (Option Str)) :
    ((afterComments fin ls).1 = some Error.EOF ∧ (afterComments fin ls).2 = []) ∨
      ((afterComments fin ls).1 = none ∧
        (afterComments fin ls).2.length ≤ (blankText fin ls).length ∧
        ∃ ls2, (∀ t, some t ∈ ls2 → some t ∈ ls) ∧
          (afterComments fin ls).2 = blankText fin (none :: ls2)) := by
  induction ls with
  | nil => exact Or.inl ⟨rfl, rfl⟩
  | cons l rest ih =>
    cases l with
    | none =>
      refine Or.inr ⟨rfl, le_refl _, rest, ?_, rfl⟩
      intro t ht
      exact List.mem_cons_of_mem _ ht
    | some t =>
      rcases ih with h | ⟨h1, h2, ls2, h3, h4⟩
      · exact Or.inl h
      · refine Or.inr ⟨h1, ?_, ls2, ?_, h4⟩
        · simp only [afterComments, blankText, commentLine, List.length_append,
            List.length_cons] at h2 ⊢
          omega
        · intro x hx
          exact List.mem_cons_of_mem _ (h3 x hx)

theorem getRecord_blank (fin : Option Str) (hfin : ∀ t, fin = some t → '\n' ∉ t)
    (ls : List (Option Str)) (hls : ∀ t, some t ∈ ls → '\n' ∉ t) :
    getRecord ('\n' :: blankText fin ls) =
      some ({ Fields := [] }, (afterComments fin ls).1, (afterComments fin ls).2) := by
  have hline : getLine ('\n' :: blankText fin ls) =
      some ([], (afterComments fin ls).1, (afterComments fin ls).2) := by
    have hr : ReadString ('\n' :: blankText fin ls) = (['\n'], none, blankText fin ls) := by
      simpa using ReadString_line [] (blankText fin ls) (by simp)
    rw [getLine, getLineSkip, hr]
    simp only [HasPrefix, CommentPrefix, List.isPrefixOf]
    simp only [Char.reduceBEq, Bool.false_and, Bool.false_eq_true, and_false, if_false]
    have : Replace1 ['\n'] '\n' = [] := by simp [Replace1]
    rw [this]
    exact getLineWrap_blank fin hfin ls hls _ (Nat.lt_succ_self _)
  rw [getRecord, getRecordLoop, hline]
  simp

theorem getRecordSetLoop_blank (urlParse : Str → Bool) (fin : Option Str)
    (hfin : ∀ t, fin = some t → '\n' ∉ t) (fuel : Nat) (ls : List (Option Str))
    (hls : ∀ t, some t ∈ ls → '\n' ∉ t) (rs : RecordSet)
    (hf : (blankText fin ls).length < fuel) :
    getRecordSetLoop urlParse fuel rs (blankText fin ls) = some (rs, some Error.EOF, []) := by
  induction fuel generalizing ls with
  | zero => simp at hf
  | succ n ih =>
    cases ls with
    | nil =>
      cases fin with
      | none => simp [blankText, finalComment, getRecordSetLoop, Peek]
      | some t =>
        have ht : '\n' ∉ '#' :: t := by simp [hfin t rfl]
        simp only [blankText, finalComment]
        rw [getRecordSetLoop]
        simp [Peek, CommentPrefix, ReadString_last _ ht]
    | cons l rest =>
      have hrest : ∀ t, some t ∈ rest → '\n' ∉ t :=
        fun t ht => hls t (List.mem_cons_of_mem _ ht)
      cases l with
      | some t =>
        have ht : '\n' ∉ '#' :: t := by simp [hls t (List.mem_cons_self _ _)]
        have hr : ReadString (commentLine t ++ blankText fin rest) =
            ('#' :: t ++ ['\n'], none, blankText fin rest) := by
          simpa [commentLine] using ReadString_line ('#' :: t) (blankText fin rest) ht
        have hp : Peek (commentLine t ++ blankText fin rest) = (['#'], none) := by
          simp [commentLine, Peek]
        simp only [blankText] at hf ⊢
        rw [getRecordSetLoop, hp]
        simp only [hr, CommentPrefix, if_true, ne_eq, not_true, if_false]
        apply ih rest hrest
        simp only [commentLine, List.length_append, List.length_cons] at hf
        omega
      | none =>
        simp only [blankText] at hf ⊢
        rw [getRecordSetLoop]
        simp only [Peek, CommentPrefix, SpecialFieldPrefix, List.cons.injEq, Char.reduceEq,
          and_true, if_false, getRecord_blank fin hfin rest hrest]
        rcases afterComments_spec fin rest with ⟨h1, h2⟩ | ⟨h1, h2, ls2, h3, h4⟩
        · simp [h1, h2]
        · simp only [h1, h4, List.length_nil, lt_self_iff_false, if_false, ne_eq, not_true]
          apply ih (none :: ls2)
          · intro t ht
            rcases List.mem_cons.mp ht with ht | ht
            · simp at ht
            · exact hrest t (h3 t ht)
          · rw [← h4]
            simp only [List.length_cons] at hf
            omega

/-- C16: on an input made only of empty lines and comment lines, possibly
closed by a comment line without newline, `Load` returns no error and a database
without record sets. -/
theorem Load_blank (urlParse : Str → Bool) (fin : Option Str) (ls : List (Option Str))
    (hfin : ∀ t, fin = some t → '\n' ∉ t) (hls : ∀ t, some t ∈ ls → '\n' ∉ t) :
    Load urlParse (blankText fin ls) = some ({ RecordSets := [] }, none) := by
  rw [Load, getDatabase, getDatabaseLoop, getRecordSet,
    getRecordSetLoop_blank urlParse fin hfin _ ls hls _ (Nat.lt_succ_self _)]
  simp [DefaultRecordType]

theorem Load_blank_witness :
    (∀ t, some "end".toList = some t → '\n' ∉ t) ∧
      (∀ t, some t ∈ [none, some "a: b".toList, none, none, some "+x".toList] → '\n' ∉ t) ∧
      Load U0 (blankText (some "end".toList)
          [none, some "a: b".toList, none, none, some "+x".toList]) =
        some ({ RecordSets := [] }, none) :=
  ⟨by simp, by simp,
   Load_blank U0 (some "end".toList) [none, some "a: b".toList, none, none, some "+x".toList]
     (by simp) (by simp)⟩

/-! ## Every loop of the parser ends -/

theorem getLineSkip_consumes (n : Nat) (s : Str) (h : s.length < n) (hs : s ≠ []) :
    ∃ line err s1, getLineSkip n s = some (line, err, s1) ∧ s1.length < s.length := by
  cases n with
  | zero => omega
  | succ n =>
    cases s with
    | nil => exact absurd rfl hs
    | cons c t =>
      have hc := ReadString_cons c t
      rw [getLineSkip]
      by_cases hcond : (ReadString (c :: t)).2.1 = none ∧
          HasPrefix (ReadString (c :: t)).1 CommentPrefix = true
      · rw [if_pos hcond]
        obtain ⟨line, err, s1, e, hle⟩ :=
          getLineSkip_total n (ReadString (c :: t)).2.2 (by omega)
        exact ⟨line, err, s1, e, by omega⟩
      · rw [if_neg hcond]
        exact ⟨_, _, _, rfl, hc⟩

theorem getLine_consumes (s : Str) (hs : s ≠ []) :
    ∃ line err s1, getLine s = some (line, err, s1) ∧ s1.length < s.length := by
  obtain ⟨l0, e0, s0, e, hlt⟩ := getLineSkip_consumes (s.length + 1) s (Nat.lt_succ_self _) hs
  obtain ⟨l1, e1, s1, e2, hle2, _⟩ :=
    getLineWrap_total (s0.length + 1) (Replace1 l0 '\n') s0 (Nat.lt_succ_self _)
  exact ⟨l1, e1, s1, by simp [getLine, e, e2], by omega⟩

theorem getRecordLoop_total (n : Nat) (record : Record) (s : Str) (h : s.length < n) :
    ∃ r e s1, getRecordLoop n record s = some (r, e, s1) ∧ s1.length ≤ s.length ∧
      (s ≠ [] → s1.length < s.length) := by
  induction n generalizing record s with
  | zero => omega
  | succ n ih =>
    by_cases hs : s = []
    · subst hs
      exact ⟨record, some Error.EOF, [], by simp [getRecordLoop, getLine_nil], le_refl _,
        fun hh => absurd rfl hh⟩
    · obtain ⟨line, err, s1, e, hlt⟩ := getLine_consumes s hs
      rw [getRecordLoop, e]
      simp only
      split_ifs with h1 h2 h3
      · exact ⟨_, _, _, rfl, by omega, fun _ => hlt⟩
      · exact ⟨_, _, _, rfl, by omega, fun _ => hlt⟩
      · obtain ⟨r, e2, s2, eq, hle, _⟩ := ih
          (record.push { Name := (Split line).getD 0 [], Value := (Split line).getD 1 [] })
          s1 (by omega)
        exact ⟨r, e2, s2, eq, by omega, fun _ => by omega⟩
      · exact ⟨_, _, _, rfl, by omega, fun _ => hlt⟩

theorem getRecord_total (s : Str) :
    ∃ r e s1, getRecord s = some (r, e, s1) ∧ s1.length ≤ s.length ∧
      (s ≠ [] → s1.length < s.length) :=
  getRecordLoop_total (s.length + 1) { Fields := [] } s (Nat.lt_succ_self _)

theorem descriptorLoop_total (urlParse : Str → Bool) (n : Nat) (record : Descriptor)
    (flag : Bool) (s : Str) (h : s.length < n) :
    ∃ d f e s1, getRecordSetDescriptorLoop urlParse n record flag s = some (d, f, e, s1) ∧
      s1.length ≤ s.length ∧ (s ≠ [] → s1.length < s.length) := by
  induction n generalizing record flag s with
  | zero => omega
  | succ n ih =>
    by_cases hs : s = []
    · subst hs
      exact ⟨record, flag, some Error.EOF, [],
        by simp [getRecordSetDescriptorLoop, getLine_nil], le_refl _,
        fun hh => absurd rfl hh⟩
    · obtain ⟨line, err, s1, e, hlt⟩ := getLine_consumes s hs
      rw [getRecordSetDescriptorLoop, e]
      simp only
      split_ifs with h1 h2 h3 h4 h5
      · exact ⟨_, _, _, _, rfl, by omega, fun _ => hlt⟩
      · exact ⟨_, _, _, _, rfl, by omega, fun _ => hlt⟩
      · exact ⟨_, _, _, _, rfl, by omega, fun _ => hlt⟩
      · obtain ⟨d, f, e2, s2, eq, hle, _⟩ :=
          ih { record with Type_ := (Split line).getD 1 [] } true s1 (by omega)
        exact ⟨d, f, e2, s2, eq, by omega, fun _ => by omega⟩
      · obtain ⟨d, f, e2, s2, eq, hle, _⟩ :=
          ih { record with SpecialFields := record.SpecialFields ++
            [{ Name := TrimPrefix ((Split line).getD 0 []), Value := (Split line).getD 1 [] }] }
            flag s1 (by omega)
        exact ⟨d, f, e2, s2, eq, by omega, fun _ => by omega⟩
      · exact ⟨_, _, _, _, rfl, by omega, fun _ => hlt⟩

theorem getRecordSetDescriptor_total (urlParse : Str → Bool) (s : Str) :
    ∃ d e s1, getRecordSetDescriptor urlParse s = some (d, e, s1) ∧ s1.length ≤ s.length ∧
      (s ≠ [] → s1.length < s.length) := by
  obtain ⟨d, f, e, s1, eq, hle, hlt⟩ := descriptorLoop_total urlParse (s.length + 1)
    { Type_ := [], SpecialFields := [] } false s (Nat.lt_succ_self _)
  rw [getRecordSetDescriptor, eq]
  by_cases hf : f = false
  · exact ⟨d, some (Error.New "Missing record type"), s1, by simp [hf], hle, hlt⟩
  · exact ⟨d, e, s1, by simp [hf], hle, hlt⟩

theorem getRecordSetLoop_total (urlParse : Str → Bool) (n : Nat) (rs : RecordSet) (s : Str)
    (h : s.length < n) :
    ∃ rs1 e s1, getRecordSetLoop urlParse n rs s = some (rs1, e, s1) ∧
      s1.length ≤ s.length ∧
      (e = none → s1.length < s.length ∨ rs.Records.length ≠ 0 ∨
        DefaultRecordType ≠ rs.Descriptor.Type_) ∧
      ((∀ r ∈ rs.Records, r.Fields ≠ []) → ∀ r ∈ rs1.Records, r.Fields ≠ []) := by
  induction n generalizing rs s with
  | zero => omega
  | succ n ih =>
    cases s with
    | nil =>
      exact ⟨rs, some Error.EOF, [], by simp [getRecordSetLoop, Peek], le_refl _,
        fun hh => by simp at hh, fun hr => hr⟩
    | cons c t =>
      have hc := ReadString_cons c t
      rw [getRecordSetLoop]
      simp only [Peek]
      split_ifs with h1 h2 h3 h4
      · exact ⟨_, _, _, rfl, by omega, fun hh => absurd hh h2, fun hr => hr⟩
      · obtain ⟨rs1, e, s1, eq, hle, _, hinv⟩ := ih rs (ReadString (c :: t)).2.2 (by omega)
        exact ⟨rs1, e, s1, eq, by omega, fun _ => Or.inl (by omega), hinv⟩
      · exact ⟨_, _, _, rfl, le_refl _, fun _ => Or.inr h4, fun hr => hr⟩
      · obtain ⟨d, e, s1, eq, hle, hlt⟩ := getRecordSetDescriptor_total urlParse (c :: t)
        have hlt1 := hlt (by simp)
        rw [eq]
        simp only
        split_ifs with h5
        · exact ⟨_, _, _, rfl, by omega, fun hh => absurd hh h5.1, fun hr => hr⟩
        · obtain ⟨rs1, e2, s2, eq2, hle2, _, hinv⟩ :=
            ih { rs with Descriptor := d } s1 (by omega)
          exact ⟨rs1, e2, s2, eq2, by omega, fun _ => Or.inl (by omega), hinv⟩
      · obtain ⟨record, e, s1, eq, hle, hlt⟩ := getRecord_total (c :: t)
        have hlt1 := hlt (by simp)
        have hinv0 : (∀ r ∈ rs.Records, r.Fields ≠ []) →
            ∀ r ∈ (if 0 < record.Fields.length then
              { rs with Records := rs.Records ++ [record] } else rs).Records,
              r.Fields ≠ [] := by
          intro hr r hmem
          by_cases hpos : 0 < record.Fields.length
          · rw [if_pos hpos] at hmem
            rcases List.mem_append.mp hmem with hm | hm
            · exact hr r hm
            · simp only [List.mem_singleton] at hm
              rw [hm]
              exact List.length_pos.mp hpos
          · rw [if_neg hpos] at hmem
            exact hr r hmem
        rw [eq]
        simp only
        by_cases h5 : e ≠ none
        · rw [if_pos h5]
          exact ⟨_, _, _, rfl, by omega, fun hh => absurd hh h5, hinv0⟩
        · rw [if_neg h5]
          obtain ⟨rs1, e2, s2, eq2, hle2, _, hinv⟩ := ih
            (if 0 < record.Fields.length then
              { rs with Records := rs.Records ++ [record] } else rs) s1 (by omega)
          exact ⟨rs1, e2, s2, eq2, by omega, fun _ => Or.inl (by omega),
            fun hr => hinv (hinv0 hr)⟩

theorem getRecordSet_total (urlParse : Str → Bool) (s : Str) :
    ∃ rs e s1, getRecordSet urlParse s = some (rs, e, s1) ∧ s1.length ≤ s.length ∧
      (e = none → s1.length < s.length) ∧ (∀ r ∈ rs.Records, r.Fields ≠ []) := by
  obtain ⟨rs, e, s1, eq, hle, hlt, hinv⟩ := getRecordSetLoop_total urlParse (s.length + 1)
    { Descriptor := { Type_ := DefaultRecordType, SpecialFields := [] }, Records := [] } s
    (Nat.lt_succ_self _)
  refine ⟨rs, e, s1, eq, hle, ?_, hinv (by simp)⟩
  intro he
  rcases hlt he with h | h | h
  · exact h
  · simp at h
  · simp [DefaultRecordType] at h

/-- The record sets of a database have no record without fields and each has a
record or a type. -/
theorem getDatabaseLoop_total (urlParse : Str → Bool) (n : Nat) (db : Database) (s : Str)
    (h : s.length < n) :
    ∃ db1 e s1, getDatabaseLoop urlParse n db s = some (db1, e, s1) ∧
      ((∀ rs ∈ db.RecordSets, (∀ r ∈ rs.Records, r.Fields ≠ []) ∧
          (rs.Records ≠ [] ∨ rs.Descriptor.Type_ ≠ [])) →
        ∀ rs ∈ db1.RecordSets, (∀ r ∈ rs.Records, r.Fields ≠ []) ∧
          (rs.Records ≠ [] ∨ rs.Descriptor.Type_ ≠ [])) := by
  induction n generalizing db s with
  | zero => omega
  | succ n ih =>
    obtain ⟨rs, e, s1, eq, hle, hlt, hrec⟩ := getRecordSet_total urlParse s
    have hinv0 : (∀ x ∈ db.RecordSets, (∀ r ∈ x.Records, r.Fields ≠ []) ∧
          (x.Records ≠ [] ∨ x.Descriptor.Type_ ≠ [])) →
        ∀ x ∈ (if 0 < rs.Records.length ∨ DefaultRecordType ≠ rs.Descriptor.Type_ then
            ({ RecordSets := db.RecordSets ++ [rs] } : Database) else db).RecordSets,
          (∀ r ∈ x.Records, r.Fields ≠ []) ∧ (x.Records ≠ [] ∨ x.Descriptor.Type_ ≠ []) := by
      intro hdb x hmem
      by_cases hcond : 0 < rs.Records.length ∨ DefaultRecordType ≠ rs.Descriptor.Type_
      · rw [if_pos hcond] at hmem
        rcases List.mem_append.mp hmem with hm | hm
        · exact hdb x hm
        · simp only [List.mem_singleton] at hm
          rw [hm]
          refine ⟨hrec, ?_⟩
          rcases hcond with hc | hc
          · exact Or.inl (List.length_pos.mp hc)
          · exact Or.inr (fun e => hc e.symm)
      · rw [if_neg hcond] at hmem
        exact hdb x hmem
    rw [getDatabaseLoop, eq]
    simp only
    by_cases h5 : e ≠ none
    · rw [if_pos h5]
      exact ⟨_, _, _, rfl, hinv0⟩
    · rw [if_neg h5]
      have he : e = none := by simpa using h5
      have := hlt he
      obtain ⟨db1, e2, s2, eq2, hinv⟩ := ih
        (if 0 < rs.Records.length ∨ DefaultRecordType ≠ rs.Descriptor.Type_ then
          ({ RecordSets := db.RecordSets ++ [rs] } : Database) else db) s1 (by omega)
      exact ⟨db1, e2, s2, eq2, fun hdb => hinv (hinv0 hdb)⟩

/-- C15: on every input `Load` returns a database, with or without an error,
in which every record has at least one field and every record set has at least
one record or a non-empty type. -/
theorem Load_nothing_empty (urlParse : Str → Bool) (s : Str) :
    ∃ db err, Load urlParse s = some (db, err) ∧
      ∀ rs ∈ db.RecordSets, (∀ r ∈ rs.Records, r.Fields ≠ []) ∧
        (rs.Records ≠ [] ∨ rs.Descriptor.Type_ ≠ []) := by
  obtain ⟨db, e, s1, eq, hinv⟩ :=
    getDatabaseLoop_total urlParse (s.length + 1) { RecordSets := [] } s (Nat.lt_succ_self _)
  have hgood := hinv (by simp)
  rw [Load, getDatabase, eq]
  by_cases he : e = some Error.EOF
  · exact ⟨db, none, by simp [he], hgood⟩
  · exact ⟨db, e, by simp [he], hgood⟩

/-- C20: on every input each function of the parser returns, and each of its
loops returns within any number of iterations greater than the length of the
unread input, from any state of what it builds. -/
theorem parser_terminates (urlParse : Str → Bool) (s line : Str) (record : Record)
    (d : Descriptor) (flag : Bool) (rs : RecordSet) (db : Database) (k : Nat) :
    (∃ r, getLineSkip (s.length + 1 + k) s = some r) ∧
    (∃ r, getLineWrap (s.length + 1 + k) line s = some r) ∧
    (∃ r, getRecordLoop (s.length + 1 + k) record s = some r) ∧
    (∃ r, getRecordSetDescriptorLoop urlParse (s.length + 1 + k) d flag s = some r) ∧
    (∃ r, getRecordSetLoop urlParse (s.length + 1 + k) rs s = some r) ∧
    (∃ r, getDatabaseLoop urlParse (s.length + 1 + k) db s = some r) ∧
    (∃ r, getLine s = some r) ∧ (∃ r, getRecord s = some r) ∧
    (∃ r, getRecordSetDescriptor urlParse s = some r) ∧
    (∃ r, getRecordSet urlParse s = some r) ∧
    (∃ r, getDatabase urlParse s = some r) ∧ (∃ r, Load urlParse s = some r) := by
  have hk : s.length < s.length + 1 + k := by omega
  refine ⟨?_, ?_, ?_, ?_, ?_, ?_, ?_, ?_, ?_, ?_, ?_, ?_⟩
  · obtain ⟨a, b, c, e, _⟩ := getLineSkip_total _ s hk
    exact ⟨_, e⟩
  · obtain ⟨a, b, c, e, _⟩ := getLineWrap_total _ line s hk
    exact ⟨_, e⟩
  · obtain ⟨a, b, c, e, _⟩ := getRecordLoop_total _ record s hk
    exact ⟨_, e⟩
  · obtain ⟨a, b, c, c1, e, _⟩ := descriptorLoop_total urlParse _ d flag s hk
    exact ⟨_, e⟩
  · obtain ⟨a, b, c, e, _⟩ := getRecordSetLoop_total urlParse _ rs s hk
    exact ⟨_, e⟩
  · obtain ⟨a, b, c, e, _⟩ := getDatabaseLoop_total urlParse _ db s hk
    exact ⟨_, e⟩
  · obtain ⟨a, b, c, e, _⟩ := getLine_total s
    exact ⟨_, e⟩
  · obtain ⟨a, b, c, e, _⟩ := getRecord_total s
    exact ⟨_, e⟩
  · obtain ⟨a, b, c, e, _⟩ := getRecordSetDescriptor_total urlParse s
    exact ⟨_, e⟩
  · obtain ⟨a, b, c, e, _⟩ := getRecordSet_total urlParse s
    exact ⟨_, e⟩
  · obtain ⟨a, b, c, e, _⟩ :=
      getDatabaseLoop_total urlParse (s.length + 1) { RecordSets := [] } s (Nat.lt_succ_self _)
    rw [getDatabase, e]
    by_cases he : b = some Error.EOF
    · exact ⟨(a, none), by simp [he]⟩
    · exact ⟨(a, b), by simp [he]⟩
  · obtain ⟨a, b, c, e, _⟩ :=
      getDatabaseLoop_total urlParse (s.length + 1) { RecordSets := [] } s (Nat.lt_succ_self _)
    rw [Load, getDatabase, e]
    by_cases he : b = some Error.EOF
    · exact ⟨(a, none), by simp [he]⟩
    · exact ⟨(a, b), by simp [he]⟩

/-! ## Comment lines are invisible -/

theorem Inserted_boundary (c : Str) (pre post : Str) (hne : pre ≠ [])
    (hlast : pre.getLast? = some '\n') :
    ∃ l x y, '\n' ∉ l ∧ pre ++ post = l ++ '\n' :: x ∧ pre ++ (c ++ post) = l ++ '\n' :: y ∧
      Inserted c x y := by
  induction pre with
  | nil => exact absurd rfl hne
  | cons a pre1 ih =>
    by_cases ha : a = '\n'
    · subst ha
      by_cases h1 : pre1 = []
      · subst h1
        exact ⟨[], post, c ++ post, by simp, by simp, by simp, Inserted.here post⟩
      · have hlast1 : pre1.getLast? = some '\n' := by
          rw [← hlast]
          cases pre1 with
          | nil => exact absurd rfl h1
          | cons b bs => simp [List.getLast?_cons_cons]
        obtain ⟨l, x, y, hl, ex, ey, hins⟩ := ih h1 hlast1
        refine ⟨[], pre1 ++ post, pre1 ++ (c ++ post), by simp, by simp, by simp, ?_⟩
        rw [ex, ey]
        exact Inserted.line l x y hl hins
    · have h1 : pre1 ≠ [] := by
        intro h1
        subst h1
        simp at hlast
        exact ha hlast
      have hlast1 : pre1.getLast? = some '\n' := by
        rw [← hlast]
        cases pre1 with
        | nil => exact absurd rfl h1
        | cons b bs => simp [List.getLast?_cons_cons]
      obtain ⟨l, x, y, hl, ex, ey, hins⟩ := ih h1 hlast1
      refine ⟨a :: l, x, y, ?_, ?_, ?_, hins⟩
      · intro hm
        rcases List.mem_cons.mp hm with hm | hm
        · exact ha hm.symm
        · exact hl hm
      · simp [ex]
      · simp [ey]

theorem Inserted_length (c x y : Str) (h : Inserted c x y) :
    y.length = x.length + c.length := by
  induction h with
  | here x => simp [Nat.add_comm]
  | line l x y _ _ ih =>
    simp only [List.length_append, List.length_cons, ih]
    omega

theorem ReadString_lt (s : Str) (h : s ≠ []) : (ReadString s).2.2.length < s.length := by
  cases s with
  | nil => exact absurd rfl h
  | cons c t => exact ReadString_cons c t

/-- Related inputs either differ by the inserted line at their head, or they
have the same first raw line and related rests. -/
theorem Inserted_step (c x y : Str) (h : x = y ∨ Inserted c x y) :
    y = c ++ x ∨
      (Peek y = Peek x ∧ (ReadString y).1 = (ReadString x).1 ∧
        (ReadString y).2.1 = (ReadString x).2.1 ∧
        ((ReadString x).2.2 = (ReadString y).2.2 ∨
          Inserted c (ReadString x).2.2 (ReadString y).2.2)) := by
  rcases h with h | h
  · subst h
    exact Or.inr ⟨rfl, rfl, rfl, Or.inl rfl⟩
  · cases h with
    | here x => exact Or.inl rfl
    | line l x1 y1 hl hins =>
      refine Or.inr ⟨?_, ?_, ?_, ?_⟩
      · cases l <;> rfl
      · rw [ReadString_line l x1 hl, ReadString_line l y1 hl]
      · rw [ReadString_line l x1 hl, ReadString_line l y1 hl]
      · rw [ReadString_line l x1 hl, ReadString_line l y1 hl]
        exact Or.inr hins

theorem Peek_nil_iff (x y : Str) (h : Peek y = Peek x) : y = [] ↔ x = [] := by
  cases x <;> cases y <;> simp [Peek] at h ⊢

theorem ReadString_comment (t x : Str) (ht : '\n' ∉ t) :
    ReadString (commentLine t ++ x) = (commentLine t, none, x) := by
  have : '\n' ∉ '#' :: t := by simp [ht]
  simpa [commentLine] using ReadString_line ('#' :: t) x this

theorem getLineSkip_sim (t : Str) (ht : '\n' ∉ t) (m n : Nat) (x y : Str)
    (h : x = y ∨ Inserted (commentLine t) x y) (hn : x.length < n) (hm : y.length < m) :
    ∃ line e x1 y1, getLineSkip n x = some (line, e, x1) ∧
      getLineSkip m y = some (line, e, y1) ∧
      (x1 = y1 ∨ Inserted (commentLine t) x1 y1) := by
  induction m generalizing n x y with
  | zero => omega
  | succ m ih =>
    rcases Inserted_step _ x y h with hy | ⟨_, h1, h2, h3⟩
    · subst hy
      have hlen : x.length < m := by
        simp only [commentLine, List.length_append, List.length_cons] at hm
        omega
      have hstep : getLineSkip (m + 1) (commentLine t ++ x) = getLineSkip m x := by
        rw [getLineSkip, ReadString_comment t x ht]
        simp [HasPrefix, CommentPrefix, commentLine]
      rw [hstep]
      exact ih n x x (Or.inl rfl) hn hlen
    · cases n with
      | zero => omega
      | succ n =>
        simp only [getLineSkip, h1, h2]
        by_cases hc : (ReadString x).2.1 = none ∧
            HasPrefix (ReadString x).1 CommentPrefix = true
        · simp only [if_pos hc]
          have hx := ReadString_none x hc.1
          have hy := ReadString_none y (by rw [h2]; exact hc.1)
          exact ih n _ _ h3 (by omega) (by omega)
        · simp only [if_neg hc]
          exact ⟨(ReadString x).1, (ReadString x).2.1, (ReadString x).2.2, (ReadString y).2.2,
            rfl, by rw [← h1, ← h2], h3⟩

theorem getLineWrap_sim (t : Str) (ht : '\n' ∉ t) (m n : Nat) (line x y : Str)
    (h : x = y ∨ Inserted (commentLine t) x y) (hn : x.length < n) (hm : y.length < m) :
    ∃ line1 e x1 y1, getLineWrap n line x = some (line1, e, x1) ∧
      getLineWrap m line y = some (line1, e, y1) ∧
      (x1 = y1 ∨ Inserted (commentLine t) x1 y1) := by
  induction m generalizing n line x y with
  | zero => omega
  | succ m ih =>
    rcases Inserted_step _ x y h with hy | ⟨hp, h1, h2, h3⟩
    · subst hy
      have hlen : x.length < m := by
        simp only [commentLine, List.length_append, List.length_cons] at hm
        omega
      have hstep : getLineWrap (m + 1) line (commentLine t ++ x) = getLineWrap m line x := by
        rw [getLineWrap, ReadString_comment t x ht]
        simp [Peek, HasPrefix, CommentPrefix, commentLine]
      rw [hstep]
      exact ih n line x x (Or.inl rfl) hn hlen
    · cases n with
      | zero => omega
      | succ n =>
        simp only [getLineWrap, hp, h1, h2]
        cases hx : x with
        | nil =>
          have hy0 : y = [] := (Peek_nil_iff x y hp).mpr hx
          subst hx
          subst hy0
          exact ⟨line, some Error.EOF, [], [], by simp [Peek], by simp [Peek], Or.inl rfl⟩
        | cons c0 t0 =>
          have hxne : x ≠ [] := by simp [hx]
          have hyne : y ≠ [] := fun e => hxne ((Peek_nil_iff x y hp).mp e)
          have hxl := ReadString_lt x hxne
          have hyl := ReadString_lt y hyne
          rw [← hx]
          have hpk : (Peek x).2 = none := by simp [hx, Peek]
          simp only [hpk]
          split_ifs with c1 c2 c3 c4 c5
          · exact ⟨_, _, _, _, rfl, rfl, h3⟩
          · exact ih n line _ _ h3 (by omega) (by omega)
          · exact ⟨_, _, _, _, rfl, rfl, h⟩
          · exact ⟨_, _, _, _, rfl, rfl, h3⟩
          · exact ih n _ _ _ h3 (by omega) (by omega)
          · exact ⟨_, _, _, _, rfl, rfl, h⟩

theorem getLine_sim (t : Str) (ht : '\n' ∉ t) (x y : Str)
    (h : x = y ∨ Inserted (commentLine t) x y) :
    ∃ line e x1 y1, getLine x = some (line, e, x1) ∧ getLine y = some (line, e, y1) ∧
      (x1 = y1 ∨ Inserted (commentLine t) x1 y1) := by
  obtain ⟨l0, e0, x0, y0, ex, ey, h0⟩ :=
    getLineSkip_sim t ht (y.length + 1) (x.length + 1) x y h (Nat.lt_succ_self _)
      (Nat.lt_succ_self _)
  obtain ⟨l1, e1, x1, y1, ex1, ey1, h1⟩ :=
    getLineWrap_sim t ht (y0.length + 1) (x0.length + 1) (Replace1 l0 '\n') x0 y0 h0
      (Nat.lt_succ_self _) (Nat.lt_succ_self _)
  exact ⟨l1, e1, x1, y1, by simp [getLine, ex, ex1], by simp [getLine, ey, ey1], h1⟩

theorem getRecordLoop_sim (t : Str) (ht : '\n' ∉ t) (m n : Nat) (record : Record)
    (x y : Str) (h : x = y ∨ Inserted (commentLine t) x y)
    (hn : x.length < n) (hm : y.length < m) :
    ∃ r e x1 y1, getRecordLoop n record x = some (r, e, x1) ∧
      getRecordLoop m record y = some (r, e, y1) ∧
      (x1 = y1 ∨ Inserted (commentLine t) x1 y1) := by
  induction m generalizing n record x y with
  | zero => omega
  | succ m ih =>
    cases n with
    | zero => omega
    | succ n =>
      obtain ⟨line, e, x1, y1, ex, ey, h1⟩ := getLine_sim t ht x y h
      obtain ⟨lx, _, sx, ex2, _, hxlt⟩ := getLine_total x
      obtain ⟨ly, _, sy, ey2, _, hylt⟩ := getLine_total y
      rw [ex] at ex2
      rw [ey] at ey2
      simp only [Option.some.injEq, Prod.mk.injEq] at ex2 ey2
      obtain ⟨hlx, _, hsx⟩ := ex2
      obtain ⟨hly, _, hsy⟩ := ey2
      subst hlx
      subst hsx
      subst hsy
      simp only [getRecordLoop, ex, ey]
      split_ifs with c1 c2 c3
      · exact ⟨_, _, _, _, rfl, rfl, h1⟩
      · exact ⟨_, _, _, _, rfl, rfl, h1⟩
      · have hx := hxlt c1.2
        have hy := hylt (hly ▸ c1.2)
        exact ih n _ _ _ h1 (by omega) (by omega)
      · exact ⟨_, _, _, _, rfl, rfl, h1⟩

theorem getRecord_sim (t : Str) (ht : '\n' ∉ t) (x y : Str)
    (h : x = y ∨ Inserted (commentLine t) x y) :
    ∃ r e x1 y1, getRecord x = some (r, e, x1) ∧ getRecord y = some (r, e, y1) ∧
      (x1 = y1 ∨ Inserted (commentLine t) x1 y1) :=
  getRecordLoop_sim t ht (y.length + 1) (x.length + 1) { Fields := [] } x y h
    (Nat.lt_succ_self _) (Nat.lt_succ_self _)

theorem descriptorLoop_sim (urlParse : Str → Bool) (t : Str) (ht : '\n' ∉ t) (m n : Nat)
    (record : Descriptor) (flag : Bool) (x y : Str)
    (h : x = y ∨ Inserted (commentLine t) x y) (hn : x.length < n) (hm : y.length < m) :
    ∃ d f e x1 y1, getRecordSetDescriptorLoop urlParse n record flag x = some (d, f, e, x1) ∧
      getRecordSetDescriptorLoop urlParse m record flag y = some (d, f, e, y1) ∧
      (x1 = y1 ∨ Inserted (commentLine t) x1 y1) := by
  induction m generalizing n record flag x y with
  | zero => omega
  | succ m ih =>
    cases n with
    | zero => omega
    | succ n =>
      obtain ⟨line, e, x1, y1, ex, ey, h1⟩ := getLine_sim t ht x y h
      obtain ⟨lx, _, sx, ex2, _, hxlt⟩ := getLine_total x
      obtain ⟨ly, _, sy, ey2, _, hylt⟩ := getLine_total y
      rw [ex] at ex2
      rw [ey] at ey2
      simp only [Option.some.injEq, Prod.mk.injEq] at ex2 ey2
      obtain ⟨hlx, _, hsx⟩ := ex2
      obtain ⟨hly, _, hsy⟩ := ey2
      subst hlx
      subst hsx
      subst hsy
      simp only [getRecordSetDescriptorLoop, ex, ey]
      split_ifs with c1 c2 c3 c4 c5
      · exact ⟨_, _, _, _, _, rfl, rfl, h1⟩
      · exact ⟨_, _, _, _, _, rfl, rfl, h1⟩
      · exact ⟨_, _, _, _, _, rfl, rfl, h1⟩
      · have hx := hxlt c1.2
        have hy := hylt (hly ▸ c1.2)
        exact ih n _ _ _ _ h1 (by omega) (by omega)
      · have hx := hxlt c1.2
        have hy := hylt (hly ▸ c1.2)
        exact ih n _ _ _ _ h1 (by omega) (by omega)
      · exact ⟨_, _, _, _, _, rfl, rfl, h1⟩

theorem getRecordSetDescriptor_sim (urlParse : Str → Bool) (t : Str) (ht : '\n' ∉ t)
    (x y : Str) (h : x = y ∨ Inserted (commentLine t) x y) :
    ∃ d e x1 y1, getRecordSetDescriptor urlParse x = some (d, e, x1) ∧
      getRecordSetDescriptor urlParse y = some (d, e, y1) ∧
      (x1 = y1 ∨ Inserted (commentLine t) x1 y1) := by
  obtain ⟨d, f, e, x1, y1, ex, ey, h1⟩ := descriptorLoop_sim urlParse t ht (y.length + 1)
    (x.length + 1) { Type_ := [], SpecialFields := [] } false x y h (Nat.lt_succ_self _)
    (Nat.lt_succ_self _)
  rw [getRecordSetDescriptor, getRecordSetDescriptor, ex, ey]
  by_cases hf : f = false
  · exact ⟨d, some (Error.New "Missing record type"), x1, y1, by simp [hf], by simp [hf], h1⟩
  · exact ⟨d, e, x1, y1, by simp [hf], by simp [hf], h1⟩

theorem getRecordSetLoop_sim (urlParse : Str → Bool) (t : Str) (ht : '\n' ∉ t) (m n : Nat)
    (rs : RecordSet) (x y : Str) (h : x = y ∨ Inserted (commentLine t) x y)
    (hn : x.length < n) (hm : y.length < m) :
    ∃ rs1 e x1 y1, getRecordSetLoop urlParse n rs x = some (rs1, e, x1) ∧
      getRecordSetLoop urlParse m rs y = some (rs1, e, y1) ∧
      (x1 = y1 ∨ Inserted (commentLine t) x1 y1) := by
  induction m generalizing n rs x y with
  | zero => omega
  | succ m ih =>
    rcases Inserted_step _ x y h with hy | ⟨hp, h1, h2, h3⟩
    · subst hy
      have hlen : x.length < m := by
        simp only [commentLine, List.length_append, List.length_cons] at hm
        omega
      have hstep : getRecordSetLoop urlParse (m + 1) rs (commentLine t ++ x) =
          getRecordSetLoop urlParse m rs x := by
        rw [getRecordSetLoop, ReadString_comment t x ht]
        simp [Peek, CommentPrefix, commentLine]
      rw [hstep]
      exact ih n rs x x (Or.inl rfl) hn hlen
    · cases n with
      | zero => omega
      | succ n =>
        cases hx : x with
        | nil =>
          have hy0 : y = [] := (Peek_nil_iff x y hp).mpr hx
          subst hy0
          exact ⟨rs, some Error.EOF, [], [], by simp [getRecordSetLoop, Peek],
            by simp [getRecordSetLoop, Peek], Or.inl rfl⟩
        | cons c0 t0 =>
          have hxne : x ≠ [] := by simp [hx]
          have hyne : y ≠ [] := fun e => hxne ((Peek_nil_iff x y hp).mp e)
          have hxl := ReadString_lt x hxne
          have hyl := ReadString_lt y hyne
          have hpk : (Peek x).2 = none := by simp [hx, Peek]
          obtain ⟨d, ed, xd, yd, exd, eyd, hd⟩ := getRecordSetDescriptor_sim urlParse t ht x y h
          obtain ⟨_, _, sxd, exd2, _, hxdlt⟩ := getRecordSetDescriptor_total urlParse x
          obtain ⟨_, _, syd, eyd2, _, hydlt⟩ := getRecordSetDescriptor_total urlParse y
          rw [exd] at exd2
          rw [eyd] at eyd2
          simp only [Option.some.injEq, Prod.mk.injEq] at exd2 eyd2
          obtain ⟨_, _, hsxd⟩ := exd2
          obtain ⟨_, _, hsyd⟩ := eyd2
          subst hsxd
          subst hsyd
          have hxd := hxdlt hxne
          have hyd := hydlt hyne
          obtain ⟨r, er, xr, yr, exr, eyr, hr⟩ := getRecord_sim t ht x y h
          obtain ⟨_, _, sxr, exr2, _, hxrlt⟩ := getRecord_total x
          obtain ⟨_, _, syr, eyr2, _, hyrlt⟩ := getRecord_total y
          rw [exr] at exr2
          rw [eyr] at eyr2
          simp only [Option.some.injEq, Prod.mk.injEq] at exr2 eyr2
          obtain ⟨_, _, hsxr⟩ := exr2
          obtain ⟨_, _, hsyr⟩ := eyr2
          subst hsxr
          subst hsyr
          have hxr := hxrlt hxne
          have hyr := hyrlt hyne
          rw [← hx]
          simp only [getRecordSetLoop, hp, h1, h2, hpk, exd, eyd, exr, eyr]
          by_cases c1 : CommentPrefix = (Peek x).1
          · simp only [if_pos c1]
            by_cases c2 : (ReadString x).2.1 ≠ none
            · simp only [if_pos c2]
              exact ⟨_, _, _, _, rfl, rfl, h3⟩
            · simp only [if_neg c2]
              exact ih n rs _ _ h3 (by omega) (by omega)
          · simp only [if_neg c1]
            by_cases c3 : SpecialFieldPrefix = (Peek x).1
            · simp only [if_pos c3]
              by_cases c4 : rs.Records.length ≠ 0 ∨ DefaultRecordType ≠ rs.Descriptor.Type_
              · simp only [if_pos c4]
                exact ⟨_, _, _, _, rfl, rfl, h⟩
              · simp only [if_neg c4]
                by_cases c5 : ed ≠ none ∧ ed ≠ some Error.EOF
                · simp only [if_pos c5]
                  exact ⟨_, _, _, _, rfl, rfl, hd⟩
                · simp only [if_neg c5]
                  exact ih n _ _ _ hd (by omega) (by omega)
            · simp only [if_neg c3]
              by_cases c6 : er ≠ none
              · simp only [if_pos c6]
                exact ⟨_, _, _, _, rfl, rfl, hr⟩
              · simp only [if_neg c6]
                exact ih n _ _ _ hr (by omega) (by omega)

theorem getRecordSet_sim (urlParse : Str → Bool) (t : Str) (ht : '\n' ∉ t) (x y : Str)
    (h : x = y ∨ Inserted (commentLine t) x y) :
    ∃ rs e x1 y1, getRecordSet urlParse x = some (rs, e, x1) ∧
      getRecordSet urlParse y = some (rs, e, y1) ∧
      (x1 = y1 ∨ Inserted (commentLine t) x1 y1) :=
  getRecordSetLoop_sim urlParse t ht (y.length + 1) (x.length + 1) _ x y h
    (Nat.lt_succ_self _) (Nat.lt_succ_self _)

theorem getDatabaseLoop_sim (urlParse : Str → Bool) (t : Str) (ht : '\n' ∉ t) (m n : Nat)
    (db : Database) (x y : Str) (h : x = y ∨ Inserted (commentLine t) x y)
    (hn : x.length < n) (hm : y.length < m) :
    ∃ db1 e x1 y1, getDatabaseLoop urlParse n db x = some (db1, e, x1) ∧
      getDatabaseLoop urlParse m db y = some (db1, e, y1) := by
  induction m generalizing n db x y with
  | zero => omega
  | succ m ih =>
    cases n with
    | zero => omega
    | succ n =>
      obtain ⟨rs, e, x1, y1, ex, ey, h1⟩ := getRecordSet_sim urlParse t ht x y h
      obtain ⟨_, _, sx, ex2, _, hxlt, _⟩ := getRecordSet_total urlParse x
      obtain ⟨_, _, sy, ey2, _, hylt, _⟩ := getRecordSet_total urlParse y
      rw [ex] at ex2
      rw [ey] at ey2
      simp only [Option.some.injEq, Prod.mk.injEq] at ex2 ey2
      obtain ⟨_, hex, hsx⟩ := ex2
      obtain ⟨_, hey, hsy⟩ := ey2
      subst hsx
      subst hsy
      subst hex
      simp only [getDatabaseLoop, ex, ey]
      by_cases c1 : e ≠ none
      · simp only [if_pos c1]
        exact ⟨_, _, _, _, rfl, rfl⟩
      · simp only [if_neg c1]
        have he : e = none := by simpa using c1
        have hx := hxlt he
        have hy := hylt (hey ▸ he)
        exact ih n _ _ _ h1 (by omega) (by omega)

/-- C12: inserting a comment line at the start of the input or right after
one of its newlines changes neither the database nor the error that `Load`
returns, and `Load` returns on both inputs. -/
theorem Load_comment_invisible (urlParse : Str → Bool) (pre post t : Str)
    (hp : pre = [] ∨ pre.getLast? = some '\n') (ht : '\n' ∉ t) :
    Load urlParse (pre ++ commentLine t ++ post) = Load urlParse (pre ++ post) ∧
      ∃ r, Load urlParse (pre ++ post) = some r := by
  have hins : Inserted (commentLine t) (pre ++ post) (pre ++ (commentLine t ++ post)) := by
    by_cases hne : pre = []
    · subst hne
      exact Inserted.here post
    · have hlast : pre.getLast? = some '\n' := by
        rcases hp with h | h
        · exact absurd h hne
        · exact h
      obtain ⟨l, x, y, hl, ex, ey, hi⟩ := Inserted_boundary (commentLine t) pre post hne hlast
      rw [ex, ey]
      exact Inserted.line l x y hl hi
  obtain ⟨db1, e, x1, y1, ex, ey⟩ := getDatabaseLoop_sim urlParse t ht
    ((pre ++ (commentLine t ++ post)).length + 1) ((pre ++ post).length + 1)
    { RecordSets := [] } (pre ++ post) (pre ++ (commentLine t ++ post)) (Or.inr hins)
    (Nat.lt_succ_self _) (Nat.lt_succ_self _)
  have e1 : pre ++ commentLine t ++ post = pre ++ (commentLine t ++ post) := by simp
  rw [e1, Load, Load, getDatabase, getDatabase, ex, ey]
  refine ⟨rfl, ?_⟩
  by_cases he : e = some Error.EOF
  · exact ⟨(db1, none), by simp [he]⟩
  · exact ⟨(db1, e), by simp [he]⟩

theorem Load_comment_invisible_witness :
    ("Title: Foo\n".toList = [] ∨ "Title: Foo\n".toList.getLast? = some '\n') ∧
      '\n' ∉ " a note".toList ∧
      Load U0 ("Title: Foo\n".toList ++ commentLine " a note".toList ++ "+Bar\n".toList) =
        Load U0 ("Title: Foo\n".toList ++ "+Bar\n".toList) ∧
      ∃ r, Load U0 ("Title: Foo\n".toList ++ "+Bar\n".toList) = some r :=
  ⟨by decide, by decide,
   Load_comment_invisible U0 "Title: Foo\n".toList "+Bar\n".toList " a note".toList
     (by decide) (by decide)⟩

/-! ## The loops at a state they go through -/

theorem getRecordLoop_step (n : Nat) (record : Record) (s line : Str) (err : Option Error)
    (s1 : Str) (hl : getLine s = some (line, err, s1))
    (he : err = none ∨ err = some Error.EOF) (hne : line ≠ [])
    (hsplit : (Split line).length = 2)
    (hmatch : MatchString ValidFieldNameFirst ((Split line).getD 0 []) = true) :
    getRecordLoop (n + 1) record s =
      getRecordLoop n
        (record.push { Name := (Split line).getD 0 [], Value := (Split line).getD 1 [] }) s1 := by
  rw [getRecordLoop, hl]
  simp only [if_pos (And.intro he hne)]
  rw [if_neg (not_not.mpr hsplit), if_neg (by rw [hmatch]; simp)]

theorem RecordAt_loop (s0 : Str) (record : Record) (s : Str) (h : RecordAt s0 record s)
    (n : Nat) (hn : s0.length < n) :
    ∃ m, s.length < m ∧ getRecordLoop n { Fields := [] } s0 = getRecordLoop m record s := by
  induction h with
  | start => exact ⟨n, hn, rfl⟩
  | more record s line err s1 _ hl he hne hsplit hmatch ih =>
    obtain ⟨m, hm, e⟩ := ih
    obtain ⟨l2, e2, s2, eq2, _, hlt⟩ := getLine_total s
    rw [hl] at eq2
    simp only [Option.some.injEq, Prod.mk.injEq] at eq2
    obtain ⟨hl2, _, hs2⟩ := eq2
    subst hl2
    subst hs2
    have hlt1 := hlt hne
    cases m with
    | zero => omega
    | succ m =>
      refine ⟨m, by omega, ?_⟩
      rw [e, getRecordLoop_step m record s line err s1 hl he hne hsplit hmatch]

theorem getRecord_at (s0 : Str) (record : Record) (s : Str) (h : RecordAt s0 record s)
    (R : Option (Record × Option Error × Str))
    (hR : ∀ k, s.length < k + 1 → getRecordLoop (k + 1) record s = R) :
    getRecord s0 = R := by
  obtain ⟨m, hm, e⟩ := RecordAt_loop s0 record s h (s0.length + 1) (Nat.lt_succ_self _)
  cases m with
  | zero => omega
  | succ m => rw [getRecord, e, hR m hm]

theorem SetAt_loop (urlParse : Str → Bool) (s0 : Str) (rs : RecordSet) (s : Str)
    (h : SetAt urlParse s0 rs s) (n : Nat) (hn : s0.length < n) :
    ∃ m, s.length < m ∧
      getRecordSetLoop urlParse n freshRecordSet s0 = getRecordSetLoop urlParse m rs s := by
  induction h with
  | start => exact ⟨n, hn, rfl⟩
  | comment rs s _ hhead herr ih =>
    obtain ⟨m, hm, e⟩ := ih
    cases s with
    | nil => simp at hhead
    | cons c t =>
      have hc : c = '#' := by simpa using hhead
      subst hc
      have hlt := ReadString_cons '#' t
      cases m with
      | zero => omega
      | succ m =>
        refine ⟨m, by omega, ?_⟩
        rw [e, getRecordSetLoop]
        simp [Peek, CommentPrefix, herr]
  | descriptor rs s d err s1 _ hhead hrec hty hd he ih =>
    obtain ⟨m, hm, e⟩ := ih
    cases s with
    | nil => simp at hhead
    | cons c t =>
      have hc : c = '%' := by simpa using hhead
      subst hc
      obtain ⟨d2, e2, s2, eq2, _, hlt⟩ := getRecordSetDescriptor_total urlParse ('%' :: t)
      rw [hd] at eq2
      simp only [Option.some.injEq, Prod.mk.injEq] at eq2
      obtain ⟨_, _, hs2⟩ := eq2
      subst hs2
      have hlt1 := hlt (by simp)
      have hcond : ¬ (err ≠ none ∧ err ≠ some Error.EOF) := by
        rcases he with h1 | h1
        · exact fun hh => hh.1 h1
        · exact fun hh => hh.2 h1
      cases m with
      | zero => omega
      | succ m =>
        refine ⟨m, by omega, ?_⟩
        rw [e, getRecordSetLoop]
        simp only [Peek, CommentPrefix, SpecialFieldPrefix, hd, if_neg hcond]
        simp [hrec, hty, DefaultRecordType]
  | record rs s r s1 _ hne h1 h2 hr ih =>
    obtain ⟨m, hm, e⟩ := ih
    cases s with
    | nil => exact absurd rfl hne
    | cons c t =>
      have c1 : ¬ CommentPrefix = [c] := by
        simp only [CommentPrefix, List.cons.injEq, and_true]
        exact fun e => h1 (by simp [← e])
      have c2 : ¬ SpecialFieldPrefix = [c] := by
        simp only [SpecialFieldPrefix, List.cons.injEq, and_true]
        exact fun e => h2 (by simp [← e])
      obtain ⟨r2, e2, s2, eq2, _, hlt⟩ := getRecord_total (c :: t)
      rw [hr] at eq2
      simp only [Option.some.injEq, Prod.mk.injEq] at eq2
      obtain ⟨_, _, hs2⟩ := eq2
      subst hs2
      have hlt1 := hlt (by simp)
      cases m with
      | zero => omega
      | succ m =>
        refine ⟨m, by omega, ?_⟩
        rw [e, getRecordSetLoop]
        simp only [Peek, if_neg c1, if_neg c2, hr]
        simp [RecordSet.add]

theorem getRecordSet_at (urlParse : Str → Bool) (s0 : Str) (rs : RecordSet) (s : Str)
    (h : SetAt urlParse s0 rs s) (R : Option (RecordSet × Option Error × Str))
    (hR : ∀ k, s.length < k + 1 → getRecordSetLoop urlParse (k + 1) rs s = R) :
    getRecordSet urlParse s0 = R := by
  obtain ⟨m, hm, e⟩ := SetAt_loop urlParse s0 rs s h (s0.length + 1) (Nat.lt_succ_self _)
  cases m with
  | zero => omega
  | succ m =>
    rw [getRecordSet]
    exact (e.trans (hR m hm))

theorem DatabaseAt_loop (urlParse : Str → Bool) (inp : Str) (db : Database) (s : Str)
    (h : DatabaseAt urlParse inp db s) (n : Nat) (hn : inp.length < n) :
    ∃ m, s.length < m ∧
      getDatabaseLoop urlParse n { RecordSets := [] } inp = getDatabaseLoop urlParse m db s := by
  induction h with
  | start => exact ⟨n, hn, rfl⟩
  | next db s rs s1 _ hr ih =>
    obtain ⟨m, hm, e⟩ := ih
    obtain ⟨rs2, e2, s2, eq2, _, hlt, _⟩ := getRecordSet_total urlParse s
    rw [hr] at eq2
    simp only [Option.some.injEq, Prod.mk.injEq] at eq2
    obtain ⟨_, he2, hs2⟩ := eq2
    subst hs2
    have hlt1 := hlt he2.symm
    cases m with
    | zero => omega
    | succ m =>
      refine ⟨m, by omega, ?_⟩
      rw [e, getDatabaseLoop, hr]
      simp [Database.add]

/-- An error of `getRecordSet` other than `io.EOF`, at a state of the loop of
`getDatabase`, is the error of `Load`. -/
theorem Load_at_error (urlParse : Str → Bool) (inp : Str) (db : Database) (s0 s1 : Str)
    (h : DatabaseAt urlParse inp db s0) (rs1 : RecordSet) (e : Error) (he : e ≠ Error.EOF)
    (hr : getRecordSet urlParse s0 = some (rs1, some e, s1)) :
    Load urlParse inp = some (db.add rs1, some e) := by
  obtain ⟨m, hm, eq⟩ := DatabaseAt_loop urlParse inp db s0 h (inp.length + 1)
    (Nat.lt_succ_self _)
  cases m with
  | zero => omega
  | succ m =>
    rw [Load, getDatabase, eq, getDatabaseLoop, hr]
    simp [Database.add, he]

/-! ## What the loops build is kept -/

theorem getRecordLoop_keeps (n : Nat) (record : Record) (s : Str) (h : s.length < n) :
    ∃ r e s1 rest, getRecordLoop n record s = some (r, e, s1) ∧
      r.Fields = record.Fields ++ rest := by
  induction n generalizing record s with
  | zero => omega
  | succ n ih =>
    obtain ⟨line, err, s1, e, hle, hlt⟩ := getLine_total s
    rw [getRecordLoop, e]
    simp only
    split_ifs with h1 h2 h3
    · exact ⟨_, _, _, [], rfl, by simp⟩
    · exact ⟨_, _, _, [], rfl, by simp⟩
    · have := hlt h1.2
      obtain ⟨r, e2, s2, rest, eq, hp⟩ := ih
        (record.push { Name := (Split line).getD 0 [], Value := (Split line).getD 1 [] })
        s1 (by omega)
      exact ⟨r, e2, s2, _ :: rest, eq, by simpa [Record.push] using hp⟩
    · exact ⟨_, _, _, [], rfl, by simp⟩

theorem getRecordSetLoop_keeps (urlParse : Str → Bool) (n : Nat) (rs : RecordSet) (s : Str)
    (h : s.length < n) :
    ∃ rs1 e s1 more, getRecordSetLoop urlParse n rs s = some (rs1, e, s1) ∧
      rs1.Records = rs.Records ++ more := by
  induction n generalizing rs s with
  | zero => omega
  | succ n ih =>
    cases s with
    | nil => exact ⟨rs, some Error.EOF, [], [], by simp [getRecordSetLoop, Peek], by simp⟩
    | cons c t =>
      have hc := ReadString_cons c t
      rw [getRecordSetLoop]
      simp only [Peek]
      split_ifs with h1 h2 h3 h4
      · exact ⟨_, _, _, [], rfl, by simp⟩
      · exact ih rs (ReadString (c :: t)).2.2 (by omega)
      · exact ⟨_, _, _, [], rfl, by simp⟩
      · obtain ⟨d, e, s1, eq, hle, hlt⟩ := getRecordSetDescriptor_total urlParse (c :: t)
        have hlt1 := hlt (by simp)
        rw [eq]
        simp only
        split_ifs with h5
        · exact ⟨_, _, _, [], rfl, by simp⟩
        · exact ih { rs with Descriptor := d } s1 (by omega)
      · obtain ⟨record, e, s1, eq, hle, hlt⟩ := getRecord_total (c :: t)
        have hlt1 := hlt (by simp)
        have hadd : ∃ more0, (rs.add record).Records = rs.Records ++ more0 := by
          by_cases hpos : 0 < record.Fields.length
          · exact ⟨[record], by simp [RecordSet.add, hpos]⟩
          · exact ⟨[], by simp [RecordSet.add, hpos]⟩
        obtain ⟨more0, hmore0⟩ := hadd
        rw [eq]
        simp only
        by_cases h5 : e ≠ none
        · rw [if_pos h5]
          exact ⟨_, _, _, more0, rfl, hmore0⟩
        · rw [if_neg h5]
          obtain ⟨rs1, e2, s2, more, eq2, hp⟩ := ih (rs.add record) s1 (by omega)
          refine ⟨rs1, e2, s2, more0 ++ more, eq2, ?_⟩
          rw [hp, hmore0, List.append_assoc]

theorem getDatabaseLoop_keeps (urlParse : Str → Bool) (n : Nat) (db : Database) (s : Str)
    (h : s.length < n) :
    ∃ db1 e s1 more, getDatabaseLoop urlParse n db s = some (db1, e, s1) ∧
      db1.RecordSets = db.RecordSets ++ more := by
  induction n generalizing db s with
  | zero => omega
  | succ n ih =>
    obtain ⟨rs, e, s1, eq, hle, hlt, _⟩ := getRecordSet_total urlParse s
    have hadd : ∃ more0, (db.add rs).RecordSets = db.RecordSets ++ more0 := by
      by_cases hc : 0 < rs.Records.length ∨ DefaultRecordType ≠ rs.Descriptor.Type_
      · exact ⟨[rs], by simp [Database.add, hc]⟩
      · exact ⟨[], by simp [Database.add, hc]⟩
    obtain ⟨more0, hmore0⟩ := hadd
    rw [getDatabaseLoop, eq]
    simp only
    by_cases h5 : e ≠ none
    · rw [if_pos h5]
      exact ⟨_, _, _, more0, rfl, hmore0⟩
    · rw [if_neg h5]
      have he : e = none := by simpa using h5
      have := hlt he
      obtain ⟨db1, e2, s2, more, eq2, hp⟩ := ih (db.add rs) s1 (by omega)
      refine ⟨db1, e2, s2, more0 ++ more, eq2, ?_⟩
      rw [hp, hmore0, List.append_assoc]

/-- A record with fields that `getRecord` returns at a state of the loop of
`getRecordSet` is in the record set that `getRecordSet` returns, right after
the records built so far. -/
theorem getRecordSet_contains (urlParse : Str → Bool) (s0 : Str) (rs : RecordSet) (s : Str)
    (h : SetAt urlParse s0 rs s) (hne : s ≠ []) (h1 : s.head? ≠ some '#')
    (h2 : s.head? ≠ some '%') (r : Record) (e : Option Error) (s1 : Str)
    (hr : getRecord s = some (r, e, s1)) (hf : r.Fields ≠ []) :
    ∃ rs1 e1 s2 more, getRecordSet urlParse s0 = some (rs1, e1, s2) ∧
      rs1.Records = rs.Records ++ r :: more := by
  have hpos : 0 < r.Fields.length := List.length_pos.mpr hf
  obtain ⟨m, hm, eq⟩ := SetAt_loop urlParse s0 rs s h (s0.length + 1) (Nat.lt_succ_self _)
  cases s with
  | nil => exact absurd rfl hne
  | cons c t =>
    have c1 : ¬ CommentPrefix = [c] := by
      simp only [CommentPrefix, List.cons.injEq, and_true]
      exact fun e => h1 (by simp [← e])
    have c2 : ¬ SpecialFieldPrefix = [c] := by
      simp only [SpecialFieldPrefix, List.cons.injEq, and_true]
      exact fun e => h2 (by simp [← e])
    obtain ⟨r2, e2, s2, eq2, _, hlt⟩ := getRecord_total (c :: t)
    rw [hr] at eq2
    simp only [Option.some.injEq, Prod.mk.injEq] at eq2
    obtain ⟨_, _, hs2⟩ := eq2
    subst hs2
    have hlt1 := hlt (by simp)
    cases m with
    | zero => omega
    | succ m =>
      have eq1 : getRecordSet urlParse s0 =
          getRecordSetLoop urlParse (m + 1) rs (c :: t) := eq
      rw [eq1, getRecordSetLoop]
      simp only [Peek, if_neg c1, if_neg c2, hr, if_pos hpos]
      by_cases h5 : e ≠ none
      · rw [if_pos h5]
        exact ⟨_, _, _, [], rfl, rfl⟩
      · rw [if_neg h5]
        obtain ⟨rs1, e3, s3, more, eq3, hp⟩ := getRecordSetLoop_keeps urlParse m
          { rs with Records := rs.Records ++ [r] } s1 (by omega)
        exact ⟨rs1, e3, s3, more, eq3, by simpa using hp⟩

/-- A record set with records that `getRecordSet` returns at a state of the
loop of `getDatabase` is in the database that `Load` returns, right after the
record sets built so far. -/
theorem Load_contains (urlParse : Str → Bool) (inp : Str) (db : Database) (s0 : Str)
    (h : DatabaseAt urlParse inp db s0) (rs1 : RecordSet) (e : Option Error) (s1 : Str)
    (hr : getRecordSet urlParse s0 = some (rs1, e, s1)) (hf : rs1.Records ≠ []) :
    ∃ db1 e1 more, Load urlParse inp = some (db1, e1) ∧
      db1.RecordSets = db.RecordSets ++ rs1 :: more := by
  have hpos : 0 < rs1.Records.length ∨ DefaultRecordType ≠ rs1.Descriptor.Type_ :=
    Or.inl (List.length_pos.mpr hf)
  obtain ⟨m, hm, eq⟩ := DatabaseAt_loop urlParse inp db s0 h (inp.length + 1)
    (Nat.lt_succ_self _)
  obtain ⟨rs2, e2, s2, eq2, _, hlt, _⟩ := getRecordSet_total urlParse s0
  rw [hr] at eq2
  simp only [Option.some.injEq, Prod.mk.injEq] at eq2
  obtain ⟨_, he2, hs2⟩ := eq2
  subst hs2
  subst he2
  cases m with
  | zero => omega
  | succ m =>
    rw [Load, getDatabase, eq, getDatabaseLoop, hr]
    simp only [if_pos hpos]
    by_cases h5 : e ≠ none
    · rw [if_pos h5]
      by_cases h6 : e = some Error.EOF
      · exact ⟨_, none, [], by simp [h6], rfl⟩
      · exact ⟨_, e, [], by simp [h6], rfl⟩
    · rw [if_neg h5]
      have he : e = none := by simpa using h5
      have := hlt he
      obtain ⟨db1, e3, s3, more, eq3, hp⟩ := getDatabaseLoop_keeps urlParse m
        { RecordSets := db.RecordSets ++ [rs1] } s1 (by omega)
      rw [eq3]
      by_cases h6 : e3 = some Error.EOF
      · exact ⟨db1, none, more, by simp [h6], by simpa using hp⟩
      · exact ⟨db1, e3, more, by simp [h6], by simpa using hp⟩

/-! ## The shape of a field line, anywhere in the input -/

/-- C14: let the loop of `getDatabase` on the input `inp` be at the state
`(db, s0)`, the loop of `getRecordSet` on `s0` at the state `(rs, s)` where a
record starts, and the loop of `getRecord` on `s` at the state `(record, s2)`
where it reads the non-empty logical line `line`.  If the line does not have
exactly one separator, `getRecord` returns "Found invalid field" with the record
built so far and `Load` of the input fails with that error.  If the line is
`name ++ ": " ++ value` with exactly one separator and a name that matches the
field-name grammar, the record that `getRecord` returns has the field
`(name, value)` right after the fields built so far, and that record is in the
database that `Load` returns, in the record set after those built so far. -/
theorem field_line_shape (urlParse : Str → Bool) (inp s0 s s2 line s3 : Str)
    (db : Database) (rs : RecordSet) (record : Record) (err : Option Error)
    (hdb : DatabaseAt urlParse inp db s0) (hset : SetAt urlParse s0 rs s)
    (hs0 : s ≠ []) (hs1 : s.head? ≠ some '#') (hs2 : s.head? ≠ some '%')
    (hrec : RecordAt s record s2) (hl : getLine s2 = some (line, err, s3))
    (he : err = none ∨ err = some Error.EOF) (hne : line ≠ []) :
    (countSeparator line ≠ 1 →
      getRecord s = some (record, some (Error.New "Found invalid field"), s3) ∧
      Load urlParse inp =
        some (db.add (rs.add record), some (Error.New "Found invalid field"))) ∧
    (∀ name value, line = name ++ FieldSeparator ++ value → countSeparator line = 1 →
      fullMatch ValidFieldNameFirst name = true →
      ∃ r e1 s4 rest, getRecord s = some (r, e1, s4) ∧
        r.Fields = record.Fields ++ { Name := name, Value := value } :: rest ∧
        ∃ db1 e2 rs1 more1 more2, Load urlParse inp = some (db1, e2) ∧
          db1.RecordSets = db.RecordSets ++ rs1 :: more1 ∧
          rs1.Records = rs.Records ++ r :: more2) := by
  constructor
  · intro hcount
    have hsplit : (Split line).length ≠ 2 := by
      rw [Split_length]
      omega
    have hloop : ∀ (k : Nat), getRecordLoop (k + 1) record s2 =
        some (record, some (Error.New "Found invalid field"), s3) := by
      intro k
      rw [getRecordLoop, hl]
      simp only [if_pos (And.intro he hne), if_pos hsplit]
    have hrec1 : getRecord s =
        some (record, some (Error.New "Found invalid field"), s3) :=
      getRecord_at s record s2 hrec _ (fun k _ => hloop k)
    refine ⟨hrec1, ?_⟩
    cases s with
    | nil => exact absurd rfl hs0
    | cons c t =>
      have c1 : c ≠ '#' := fun e => hs1 (by simp [e])
      have c2 : c ≠ '%' := fun e => hs2 (by simp [e])
      have hgs : getRecordSet urlParse s0 =
          some (rs.add record, some (Error.New "Found invalid field"), s3) :=
        getRecordSet_at urlParse s0 rs (c :: t) hset _
          (fun k _ => getRecordSetLoop_record_error urlParse c t s3 record
            (Error.New "Found invalid field") c1 c2 hrec1 k rs)
      exact Load_at_error urlParse inp db s0 s3 hdb (rs.add record)
        (Error.New "Found invalid field") (by simp) hgs
  · intro name value hline hcount hname
    obtain ⟨hcolon, hmatch⟩ := fullMatch_field_spec name hname
    have e1 : line = name ++ ':' :: ' ' :: value := by
      rw [hline]
      simp [FieldSeparator]
    have hv : containsSeparator value = false := by
      apply containsSeparator_of_count
      rw [e1, countSeparator_name name value hcolon] at hcount
      omega
    have hsplit : Split line = [name, value] := by
      rw [hline]
      exact Split_line name value hcolon hv
    have hstate : RecordAt s (record.push { Name := name, Value := value }) s3 := by
      have h := RecordAt.more record s2 line err s3 hrec hl he hne
        (by rw [hsplit]; rfl) (by rw [hsplit]; exact hmatch)
      rw [hsplit] at h
      exact h
    obtain ⟨m, hm, eq⟩ := RecordAt_loop s _ s3 hstate (s.length + 1) (Nat.lt_succ_self _)
    obtain ⟨r, e2, s4, rest, eq2, hp⟩ :=
      getRecordLoop_keeps m (record.push { Name := name, Value := value }) s3 hm
    have hr : getRecord s = some (r, e2, s4) := by rw [getRecord, eq, eq2]
    have hfields : r.Fields = record.Fields ++ { Name := name, Value := value } :: rest := by
      simpa [Record.push] using hp
    have hf : r.Fields ≠ [] := by
      rw [hfields]
      simp
    obtain ⟨rs1, e3, s5, more2, hgs, hrs⟩ :=
      getRecordSet_contains urlParse s0 rs s hset hs0 hs1 hs2 r e2 s4 hr hf
    have hrs1 : rs1.Records ≠ [] := by
      rw [hrs]
      simp
    obtain ⟨db1, e4, more1, hload, hdb1⟩ :=
      Load_contains urlParse inp db s0 hdb rs1 e3 s5 hgs hrs1
    exact ⟨r, e2, s4, rest, hr, hfields, db1, e4, rs1, more1, more2, hload, hdb1, hrs⟩

theorem field_line_shape_witness :
    (getRecord "x: 1\ny: 2: 3\n".toList =
        some (Record.push { Fields := [] } fieldX,
          some (Error.New "Found invalid field"), []) ∧
      Load U0 badLineText =
        some (Database.add { RecordSets := [] }
            (RecordSet.add { freshRecordSet with Descriptor := descriptorA }
              (Record.push { Fields := [] } fieldX)),
          some (Error.New "Found invalid field"))) ∧
    (∃ r e1 s4 rest, getRecord "x: 1\ny: 2\n".toList = some (r, e1, s4) ∧
      r.Fields = (Record.push { Fields := [] } fieldX).Fields ++
        { Name := ['y'], Value := ['2'] } :: rest ∧
      ∃ db1 e2 rs1 more1 more2, Load U0 goodLineText = some (db1, e2) ∧
        db1.RecordSets = ({ RecordSets := [] } : Database).RecordSets ++ rs1 :: more1 ∧
        rs1.Records =
          ({ freshRecordSet with Descriptor := descriptorA } : RecordSet).Records ++
            r :: more2) :=
  ⟨(field_line_shape U0 badLineText badLineText "x: 1\ny: 2: 3\n".toList "y: 2: 3\n".toList
      "y: 2: 3".toList [] { RecordSets := [] }
      { freshRecordSet with Descriptor := descriptorA } (Record.push { Fields := [] } fieldX)
      (some Error.EOF) DatabaseAt.start
      (SetAt.descriptor freshRecordSet badLineText descriptorA none "x: 1\ny: 2: 3\n".toList
        SetAt.start (by decide) (by decide) (by decide) (by decide) (Or.inl rfl))
      (by decide) (by decide) (by decide)
      (RecordAt.more { Fields := [] } "x: 1\ny: 2: 3\n".toList "x: 1".toList none
        "y: 2: 3\n".toList RecordAt.start (by decide) (Or.inl rfl) (by decide) (by decide)
        (by decide))
      (by decide) (Or.inr rfl) (by decide)).1 (by decide),
   (field_line_shape U0 goodLineText goodLineText "x: 1\ny: 2\n".toList "y: 2\n".toList
      "y: 2".toList [] { RecordSets := [] }
      { freshRecordSet with Descriptor := descriptorA } (Record.push { Fields := [] } fieldX)
      (some Error.EOF) DatabaseAt.start
      (SetAt.descriptor freshRecordSet goodLineText descriptorA none "x: 1\ny: 2\n".toList
        SetAt.start (by decide) (by decide) (by decide) (by decide) (Or.inl rfl))
      (by decide) (by decide) (by decide)
      (RecordAt.more { Fields := [] } "x: 1\ny: 2\n".toList "x: 1".toList none
        "y: 2\n".toList RecordAt.start (by decide) (Or.inl rfl) (by decide) (by decide)
        (by decide))
      (by decide) (Or.inr rfl) (by decide)).2 ['y'] ['2'] (by decide) (by decide)
      (by decide)⟩

/-! ## Descriptor blocks, anywhere in the input -/

theorem isMarkedRecLine_isRecLine (l : Str) (h : isMarkedRecLine l = true) :
    isRecLine l = true := by
  simp only [isMarkedRecLine, beq_iff_eq] at h
  simp only [isRecLine, h]
  rfl

theorem markedRecLineCount_le (s : Str) : markedRecLineCount s ≤ recLineCount s :=
  List.countP_mono_left (fun l _ h => isMarkedRecLine_isRecLine l h)

theorem descriptor_block_error (urlParse : Str → Bool) (s : Str) (hc : recLineCount s ≠ 1) :
    ∃ d e s1, getRecordSetDescriptor urlParse s = some (d, some e, s1) ∧ e ≠ Error.EOF ∧
      (e = Error.New "Missing record type" ∨ e = Error.New "Found multiple record types" ∨
        e = Error.New "Found invalid property") ∧
      (recLineCount s = 0 → e = Error.New "Missing record type") ∧
      (2 ≤ recLineCount s → (∀ l ∈ descriptorLines s, (Split l).length = 2) →
        e = Error.New "Found multiple record types") := by
  obtain ⟨d, f, e, s1, eq, p1, p2, p3⟩ :=
    descriptorLoop_spec urlParse (s.length + 1) { Type_ := [], SpecialFields := [] } false s
      (Nat.lt_succ_self _)
  have hcnt : recLineCount s = (blockLines (s.length + 1) s).countP isRecLine := rfl
  have hfalse : (if false = true then 1 else 0) = 0 := by simp
  rw [hfalse, Nat.add_zero, ← hcnt] at p2 p3
  rw [← hcnt] at p1
  by_cases hf : f = false
  · have hd : getRecordSetDescriptor urlParse s =
        some (d, some (Error.New "Missing record type"), s1) := by
      simp [getRecordSetDescriptor, eq, hf]
    refine ⟨d, _, s1, hd, by simp, Or.inl rfl, fun _ => rfl, ?_⟩
    intro h2 hall
    have := (p3 h2 hall).1
    rw [hf] at this
    exact absurd this (by simp)
  · have h0 : recLineCount s ≠ 0 := fun h0 => hf (p1 rfl h0)
    have h2 : 2 ≤ recLineCount s := by omega
    have he : e = some (Error.New "Found multiple record types") ∨
        e = some (Error.New "Found invalid property") := by
      rcases p2 h2 with h | h
      · exact absurd h hf
      · exact h
    obtain ⟨e0, he0, hor⟩ : ∃ e0, e = some e0 ∧
        (e0 = Error.New "Found multiple record types" ∨
          e0 = Error.New "Found invalid property") := by
      rcases he with h | h
      · exact ⟨_, h, Or.inl rfl⟩
      · exact ⟨_, h, Or.inr rfl⟩
    have hd : getRecordSetDescriptor urlParse s = some (d, some e0, s1) := by
      simp [getRecordSetDescriptor, eq, hf, he0]
    have hne : e0 ≠ Error.EOF := by
      rcases hor with h | h <;> simp [h]
    refine ⟨d, e0, s1, hd, hne, Or.inr hor, fun h => absurd h h0, ?_⟩
    intro _ hall
    have := (p3 h2 hall).2
    rw [he0] at this
    exact Option.some.inj this

/-- C7 (as the specification states it, refuted): a descriptor block without
a `%rec` line, whose `%` line is followed directly by the field line `rec: Foo`,
is accepted: `getRecordSetDescriptor` takes `rec: Foo` as the type line and
returns the type `Foo` with the property `mandatory`, with `io.EOF` at the end
of the input (which `getRecordSet` does not treat as a failure) and without
error when a record follows, and `Load` returns no error. -/
theorem descriptor_unmarked_rec_accepted :
    unmarkedRecText.head? = some '%' ∧ markedRecLineCount unmarkedRecText = 0 ∧
      recLineCount unmarkedRecText = 1 ∧
      getRecordSetDescriptor U0 unmarkedRecText =
        some ({ Type_ := "Foo".toList,
                SpecialFields := [{ Name := "mandatory".toList, Value := "Title".toList }] },
          some Error.EOF, []) ∧
      Load U0 unmarkedRecText = some (unmarkedRecDatabase, none) ∧
      markedRecLineCount (unmarkedRecText ++ "\nTitle: Bar\n".toList) = 0 ∧
      getRecordSetDescriptor U0 (unmarkedRecText ++ "\nTitle: Bar\n".toList) =
        some ({ Type_ := "Foo".toList,
                SpecialFields := [{ Name := "mandatory".toList, Value := "Title".toList }] },
          none, "Title: Bar\n".toList) := by
  refine ⟨by decide, by decide, by decide, by decide, by decide, by decide, by decide⟩

/-- C7 (amended): let the loop of `getDatabase` on the input `inp` be at the
state `(db, s0)` and the loop of `getRecordSet` on `s0` at the state `(rs, s)`,
with no record and no type yet and `s` beginning with `%`.  When the descriptor
block at `s` has no line whose name, the marker `%` trimmed if it is there, is
`rec`, or has two or more such lines (as when it has two or more `%rec` lines),
`getRecordSetDescriptor` returns an error, which is "Missing record type" when
there is none and "Found multiple record types" when there are two or more and
every line of the block has exactly one separator (else it is that or "Found
invalid property"); `getRecordSet` returns that error and `Load` of the input
fails with it. -/
theorem descriptor_cardinality (urlParse : Str → Bool) (inp s0 s : Str) (db : Database)
    (rs : RecordSet) (hdb : DatabaseAt urlParse inp db s0) (hset : SetAt urlParse s0 rs s)
    (hr : rs.Records = []) (hT : rs.Descriptor.Type_ = []) (hs : s.head? = some '%')
    (hc : recLineCount s = 0 ∨ 2 ≤ recLineCount s ∨ 2 ≤ markedRecLineCount s) :
    ∃ d e s1, getRecordSetDescriptor urlParse s = some (d, some e, s1) ∧
      (e = Error.New "Missing record type" ∨ e = Error.New "Found multiple record types" ∨
        e = Error.New "Found invalid property") ∧
      (recLineCount s = 0 → e = Error.New "Missing record type") ∧
      (2 ≤ recLineCount s → (∀ l ∈ descriptorLines s, (Split l).length = 2) →
        e = Error.New "Found multiple record types") ∧
      (2 ≤ markedRecLineCount s → (∀ l ∈ descriptorLines s, (Split l).length = 2) →
        e = Error.New "Found multiple record types") ∧
      (∀ n rs2, rs2.Records = [] → rs2.Descriptor.Type_ = [] →
        getRecordSetLoop urlParse (n + 1) rs2 s = some (rs2, some e, s1)) ∧
      getRecordSet urlParse s0 = some (rs, some e, s1) ∧
      Load urlParse inp = some (db, some e) := by
  have hle := markedRecLineCount_le s
  have hc1 : recLineCount s ≠ 1 := by
    rcases hc with h | h | h <;> omega
  obtain ⟨d, e, s1, hd, hne, hkind, h0, h2⟩ := descriptor_block_error urlParse s hc1
  have hloop : ∀ n rs2, rs2.Records = [] → rs2.Descriptor.Type_ = [] →
      getRecordSetLoop urlParse (n + 1) rs2 s = some (rs2, some e, s1) :=
    fun n rs2 h1 h3 =>
      getRecordSetLoop_descriptor_error urlParse s s1 d e hs hne hd n rs2 h1 h3
  have hgs : getRecordSet urlParse s0 = some (rs, some e, s1) :=
    getRecordSet_at urlParse s0 rs s hset _ (fun k _ => hloop k rs hr hT)
  have hload := Load_at_error urlParse inp db s0 s1 hdb rs e hne hgs
  have hadd : db.add rs = db := by
    simp [Database.add, hr, hT, DefaultRecordType]
  rw [hadd] at hload
  exact ⟨d, e, s1, hd, hkind, h0, h2, fun h => h2 (le_trans h hle), hloop, hgs, hload⟩

theorem descriptor_cardinality_witness :
    "%mandatory: Title\nTitle: Foo\n".toList.head? = some '%' ∧
      recLineCount "%mandatory: Title\nTitle: Foo\n".toList = 0 ∧
      ∃ d e s1, getRecordSetDescriptor U0 "%mandatory: Title\nTitle: Foo\n".toList =
          some (d, some e, s1) ∧
        (e = Error.New "Missing record type" ∨ e = Error.New "Found multiple record types" ∨
          e = Error.New "Found invalid property") ∧
        (recLineCount "%mandatory: Title\nTitle: Foo\n".toList = 0 →
          e = Error.New "Missing record type") ∧
        (2 ≤ recLineCount "%mandatory: Title\nTitle: Foo\n".toList →
          (∀ l ∈ descriptorLines "%mandatory: Title\nTitle: Foo\n".toList,
            (Split l).length = 2) →
          e = Error.New "Found multiple record types") ∧
        (2 ≤ markedRecLineCount "%mandatory: Title\nTitle: Foo\n".toList →
          (∀ l ∈ descriptorLines "%mandatory: Title\nTitle: Foo\n".toList,
            (Split l).length = 2) →
          e = Error.New "Found multiple record types") ∧
        (∀ n rs2, rs2.Records = [] → rs2.Descriptor.Type_ = [] →
          getRecordSetLoop U0 (n + 1) rs2 "%mandatory: Title\nTitle: Foo\n".toList =
            some (rs2, some e, s1)) ∧
        getRecordSet U0 "%mandatory: Title\nTitle: Foo\n".toList =
          some (freshRecordSet, some e, s1) ∧
        Load U0 missingTypeText =
          some (Database.add { RecordSets := [] } recordSetA, some e) :=
  ⟨by decide, by decide,
   descriptor_cardinality U0 missingTypeText "%mandatory: Title\nTitle: Foo\n".toList
     "%mandatory: Title\nTitle: Foo\n".toList (Database.add { RecordSets := [] } recordSetA)
     freshRecordSet
     (DatabaseAt.next { RecordSets := [] } missingTypeText recordSetA
       "%mandatory: Title\nTitle: Foo\n".toList DatabaseAt.start (by decide))
     SetAt.start (by decide) (by decide) (by decide) (Or.inl (by decide))⟩

end Recfile
